import Mathlib

/-!
Verification of the StockSenseAI response-extraction engine.

This file gives a shallow embedding of the parsing and normalization layer
of the repository (the `geminiService` variants, the quote/analysis entry
points, and the activity-log service) and proves or refutes the frozen
claims about it.  Strings are modelled as `List Char`; JavaScript numbers
are modelled as `ℚ` with `Option ℚ` where `NaN` is observable; fallible
JavaScript code is modelled with `Option`/`Except`.
-/

set_option autoImplicit false
set_option maxRecDepth 40000

namespace StockSense

/-- Strings are modelled as lists of characters. -/
abbrev Str := List Char

/-- Convert a Lean string literal to the model representation. -/
def chars (s : String) : Str := s.toList

/-! ## Character classes and basic string utilities -/

/-- JSON whitespace (the four characters accepted by `JSON.parse`). -/
def isWsJson (c : Char) : Bool :=
  c.toNat = 32 || c.toNat = 9 || c.toNat = 10 || c.toNat = 13

/-- JavaScript `String.prototype.trim` whitespace (WhiteSpace ∪ LineTerminator). -/
def isJsSpace (c : Char) : Bool :=
  isWsJson c || c.toNat = 11 || c.toNat = 12 || c.toNat = 0xa0 || c.toNat = 0xfeff ||
  c.toNat = 0x2028 || c.toNat = 0x2029

/-- ASCII digit test. -/
def isDigitC (c : Char) : Bool := 48 ≤ c.toNat && c.toNat ≤ 57

/-- `hasPre m s` holds when `m` is a prefix of `s`. -/
def hasPre : Str → Str → Bool
  | [], _ => true
  | _ :: _, [] => false
  | p :: ps, c :: s2 => p == c && hasPre ps s2

/-- Index of the first occurrence of the substring `m` in `s` (JS `indexOf`). -/
def findSub (m : Str) : Str → Option Nat
  | [] => if hasPre m [] then some 0 else none
  | c :: s2 => if hasPre m (c :: s2) then some 0 else (· + 1) <$> findSub m s2

/-- Substring containment test (JS `includes`). -/
def containsSub (m s : Str) : Bool := (findSub m s).isSome

/-- Index of the first occurrence of character `c` (JS `indexOf`, `none` for -1). -/
def idxOfC (c : Char) : Str → Option Nat
  | [] => none
  | d :: s2 => if d = c then some 0 else (· + 1) <$> idxOfC c s2

/-- Index of the last occurrence of character `c` (JS `lastIndexOf`, `none` for -1). -/
def lastIdxOfC (c : Char) (s : Str) : Option Nat :=
  (fun i => s.length - 1 - i) <$> idxOfC c s.reverse

/-- Drop JavaScript whitespace from the front (part of `trim`). -/
def jsTrimLeft (s : Str) : Str := s.dropWhile isJsSpace

/-- Drop JavaScript whitespace from the back (part of `trim`). -/
def jsTrimRight (s : Str) : Str := (s.reverse.dropWhile isJsSpace).reverse

/-- JavaScript `String.prototype.trim`. -/
def jsTrim (s : Str) : Str := jsTrimRight (jsTrimLeft s)

/-- Fuelled global replace-by-empty: removes every non-overlapping occurrence of
`m`, scanning left to right (JS `replace(/m/g, '')` for a literal pattern). -/
def replA (m : Str) : Nat → Str → Str
  | 0, s => s
  | _ + 1, [] => []
  | f + 1, c :: s2 =>
    if hasPre m (c :: s2) then replA m f ((c :: s2).drop m.length)
    else c :: replA m f s2

/-- Remove every occurrence of `m` from `s` (JS `s.replace(/m/g, '')`). -/
def replaceAll (m s : Str) : Str := replA m s.length s

/-! ## JSON values and a model of `JSON.parse` -/

/-- JSON values.  Numbers are represented exactly as rationals; strings keep
their raw (validated) source characters. -/
inductive Json where
  | nul : Json
  | boo : Bool → Json
  | num : ℚ → Json
  | str : Str → Json
  | arr : List Json → Json
  | obj : List (Str × Json) → Json

/-- Hex digit test (for `\uXXXX` escapes). -/
def hexDigit (c : Char) : Bool :=
  isDigitC c || (97 ≤ c.toNat && c.toNat ≤ 102) || (65 ≤ c.toNat && c.toNat ≤ 70)

/-- Parse the body of a JSON string after the opening quote: returns the raw
content characters and the rest of the input after the closing quote.
Escape sequences are validated but kept in source form. -/
def pStrBodyF : Nat → Str → Option (Str × Str)
  | 0, _ => none
  | f + 1, s =>
    match s with
    | [] => none
    | c :: r =>
      if c = '"' then some ([], r)
      else if c = '\\' then
        match r with
        | [] => none
        | e :: r2 =>
          if e = '"' || e = '\\' || e = '/' || e = 'b' || e = 'f' ||
             e = 'n' || e = 'r' || e = 't' then
            match pStrBodyF f r2 with
            | some (body, rest) => some (c :: e :: body, rest)
            | none => none
          else if e = 'u' then
            match r2 with
            | h1 :: h2 :: h3 :: h4 :: r3 =>
              if hexDigit h1 && hexDigit h2 && hexDigit h3 && hexDigit h4 then
                match pStrBodyF f r3 with
                | some (body, rest) => some (c :: e :: h1 :: h2 :: h3 :: h4 :: body, rest)
                | none => none
              else none
            | _ => none
          else none
      else if c.toNat < 0x20 then none
      else
        match pStrBodyF f r with
        | some (body, rest) => some (c :: body, rest)
        | none => none

/-- Parse the body of a JSON string (wrapper supplying sufficient fuel). -/
def pStrBody (s : Str) : Option (Str × Str) := pStrBodyF (s.length + 1) s

/-- Numeric value of a digit string. -/
def digitsVal (ds : Str) : Nat := ds.foldl (fun n c => 10 * n + (c.toNat - 48)) 0

/-- Assemble a JSON number from its parts. -/
def mkNum (neg : Bool) (ip : Nat) (fs : Str) (eneg : Bool) (ev : Nat) : ℚ :=
  let base : ℚ := (ip : ℚ) + (digitsVal fs : ℚ) / (10 : ℚ) ^ fs.length
  let mag : ℚ := if eneg then base / (10 : ℚ) ^ ev else base * (10 : ℚ) ^ ev
  if neg then -mag else mag

/-- Parse the exponent digits with a known exponent sign. -/
def pExpDigits (neg : Bool) (ip : Nat) (fs : Str) (eneg : Bool) (r1 : Str) : Option (ℚ × Str) :=
  if r1.takeWhile isDigitC = [] then none
  else some (mkNum neg ip fs eneg (digitsVal (r1.takeWhile isDigitC)), r1.dropWhile isDigitC)

/-- Parse the optional exponent part of a JSON number. -/
def pExpPart (neg : Bool) (ip : Nat) (fs : Str) : Str → Option (ℚ × Str)
  | [] => some (mkNum neg ip fs false 0, [])
  | e :: r =>
    if e = 'e' || e = 'E' then
      match r with
      | '+' :: r2 => pExpDigits neg ip fs false r2
      | '-' :: r2 => pExpDigits neg ip fs true r2
      | r1 => pExpDigits neg ip fs false r1
    else some (mkNum neg ip fs false 0, e :: r)

/-- Parse the optional fraction part of a JSON number. -/
def pFracPart (neg : Bool) (ip : Nat) : Str → Option (ℚ × Str)
  | '.' :: r =>
    let fs := r.takeWhile isDigitC
    if fs = [] then none else pExpPart neg ip fs (r.dropWhile isDigitC)
  | s => pExpPart neg ip [] s

/-- The digits-and-parts body of a JSON number parse, after the sign. -/
def pNumBody (neg : Bool) : Str → Option (ℚ × Str)
  | [] => none
  | c :: r =>
    if c = '0' then
      match r with
      | d :: _ => if isDigitC d then none else pFracPart neg 0 r
      | [] => pFracPart neg 0 []
    else if isDigitC c then
      pFracPart neg (digitsVal ((c :: r).takeWhile isDigitC)) ((c :: r).dropWhile isDigitC)
    else none

/-- Parse a JSON number (strict `JSON.parse` grammar: no leading `+`, no
leading zeros, fraction and exponent digits mandatory when introduced). -/
def pNum : Str → Option (ℚ × Str)
  | '-' :: r => pNumBody true r
  | s => pNumBody false s

/-- Skip JSON whitespace. -/
def skipWsJ (s : Str) : Str := s.dropWhile isWsJson

mutual

/-- Fuelled JSON value parser (model of the recursive descent done by
`JSON.parse`): skips leading whitespace, then dispatches on the first
character; returns the value and the unconsumed rest. -/
def pVal : Nat → Str → Option (Json × Str)
  | 0, _ => none
  | f + 1, s =>
    match skipWsJ s with
    | [] => none
    | c :: r =>
      if c = '{' then
        match skipWsJ r with
        | '}' :: r2 => some (.obj [], r2)
        | _ =>
          match pMembers f r with
          | some (fs, rest) => some (.obj fs, rest)
          | none => none
      else if c = '[' then
        match skipWsJ r with
        | ']' :: r2 => some (.arr [], r2)
        | _ =>
          match pItems f r with
          | some (xs, rest) => some (.arr xs, rest)
          | none => none
      else if c = '"' then
        match pStrBody r with
        | some (body, rest) => some (.str body, rest)
        | none => none
      else if c = 't' then
        if hasPre (chars "rue") r then some (.boo true, r.drop 3) else none
      else if c = 'f' then
        if hasPre (chars "alse") r then some (.boo false, r.drop 4) else none
      else if c = 'n' then
        if hasPre (chars "ull") r then some (.nul, r.drop 3) else none
      else if c = '-' || isDigitC c then
        match pNum (c :: r) with
        | some (q, rest) => some (.num q, rest)
        | none => none
      else none

/-- Fuelled parser for the members of a non-empty JSON object (position:
just after `{` or after a `,`). -/
def pMembers : Nat → Str → Option (List (Str × Json) × Str)
  | 0, _ => none
  | f + 1, s =>
    match skipWsJ s with
    | '"' :: r =>
      match pStrBody r with
      | some (k, r1) =>
        match skipWsJ r1 with
        | ':' :: r2 =>
          match pVal f r2 with
          | some (v, r3) =>
            match skipWsJ r3 with
            | ',' :: r4 =>
              match pMembers f r4 with
              | some (fs, rest) => some ((k, v) :: fs, rest)
              | none => none
            | '}' :: r4 => some ([(k, v)], r4)
            | _ => none
          | none => none
        | _ => none
      | none => none
    | _ => none

/-- Fuelled parser for the items of a non-empty JSON array (position:
just after `[` or after a `,`). -/
def pItems : Nat → Str → Option (List Json × Str)
  | 0, _ => none
  | f + 1, s =>
    match pVal f s with
    | some (v, r) =>
      match skipWsJ r with
      | ',' :: r2 =>
        match pItems f r2 with
        | some (xs, rest) => some (v :: xs, rest)
        | none => none
      | ']' :: r2 => some ([v], r2)
      | _ => none
    | none => none

end

/-- Model of `JSON.parse`: parse one value, then require only whitespace to
remain; `none` models a thrown `SyntaxError`. -/
def jsonParse (s : Str) : Option Json :=
  match pVal (2 * s.length + 2) s with
  | some (v, rest) => if skipWsJ rest = [] then some v else none
  | none => none

/-! ## The `extractJson` variants -/

/-- Strip markdown code-fence markers exactly as the source does:
`text.replace(/```json/g, '').replace(/```/g, '')`. -/
def stripFences (s : Str) : Str :=
  replaceAll (chars "```") (replaceAll (chars "```json") s)

/-- The `cleaned` string of every `extractJson` variant: fence-stripped and
trimmed. -/
def cleanedOf (s : Str) : Str := jsTrim (stripFences s)

/-- The JS regex `(\{[\s\S]*\}|\[[\s\S]*\])` scan: at each position, first try
`{` with some later `}`, then `[` with some later `]`; returns the opening
character and its index for the leftmost position where one alternative
matches. -/
def rxFind : Str → Option (Char × Nat)
  | [] => none
  | c :: r =>
    if c = '{' ∧ r.contains '}' then some ('{', 0)
    else if c = '[' ∧ r.contains ']' then some ('[', 0)
    else (fun p => (p.1, p.2 + 1)) <$> rxFind r

/-- Stage 3 of `geminiService.ts`'s `extractJson`: the regex fallback.  The
greedy `[\s\S]*` makes the match run to the last occurrence of the matching
closer; `none` covers both no-match and an unparseable match. -/
def regexStage (s : Str) : Option Json :=
  match rxFind s with
  | none => none
  | some (oc, i) =>
    let cl := if oc = '{' then '}' else ']'
    match lastIdxOfC cl (s.drop (i + 1)) with
    | none => none
    | some j => jsonParse ((s.drop i).take (j + 2))

/-- Stage 4 of `geminiService.ts`'s `extractJson`: the manual boundary check
(first `{` or `[`, whichever comes first, to the last matching closer). -/
def manualStage (s : Str) : Option Json :=
  let sel : Option (Nat × Char) :=
    match idxOfC '{' s, idxOfC '[' s with
    | some b, some k => if b < k then some (b, '}') else some (k, ']')
    | some b, none => some (b, '}')
    | none, some k => some (k, ']')
    | none, none => none
  match sel with
  | none => none
  | some (start, ec) =>
    match lastIdxOfC ec s with
    | none => none
    | some e =>
      if start < e then jsonParse ((s.drop start).take (e - start + 1)) else none

/-- `extractJson` from `src/services/geminiService.ts` (lines 9–55): strip
fences, try a direct parse, then the regex fallback, then the manual
boundary check, and finally return `null`. -/
def extractJsonGs (text : Str) : Option Json :=
  if text = [] then none
  else
    let cleaned := cleanedOf text
    match jsonParse cleaned with
    | some v => some v
    | none =>
      match regexStage cleaned with
      | some v => some v
      | none => manualStage cleaned

/-- The fallback stage of the `part_005` / `part_004`-v2 `extractJson`
(first `{` to last `}`). -/
def objStage (s : Str) : Option Json :=
  match idxOfC '{' s, lastIdxOfC '}' s with
  | some st, some en =>
    if st < en then jsonParse ((s.drop st).take (en - st + 1)) else none
  | _, _ => none

/-- `extractJson` from `src/unnamed/part_005` (lines 8–31), identical to the
second variant in `src/unnamed/part_004` (lines 277–299): strip fences, try
a direct parse, then only the first-`{`-to-last-`}` fallback. -/
def extractJsonP5 (text : Str) : Option Json :=
  if text = [] then none
  else
    let cleaned := cleanedOf text
    match jsonParse cleaned with
    | some v => some v
    | none => objStage cleaned

/-! ## JavaScript numeric coercion -/

/-- A JavaScript number: `none` models `NaN`. -/
abbrev JNum := Option ℚ

/-- Exponent suffix accepted by `parseFloat` (ignored when malformed). -/
def pfExpPart (s : Str) : Bool × Nat :=
  match s with
  | e :: r =>
    if e = 'e' || e = 'E' then
      let (en, r2) : Bool × Str :=
        match r with
        | '+' :: r3 => (false, r3)
        | '-' :: r3 => (true, r3)
        | _ => (false, r)
      let ed := r2.takeWhile isDigitC
      if ed = [] then (false, 0) else (en, digitsVal ed)
    else (false, 0)
  | [] => (false, 0)

/-- Model of JavaScript `parseFloat`: longest valid decimal-literal prefix
after leading whitespace; `none` models `NaN`. -/
def parseFloatQ (s0 : Str) : JNum :=
  let s := s0.dropWhile isJsSpace
  let (neg, s1) : Bool × Str :=
    match s with
    | '-' :: r => (true, r)
    | '+' :: r => (false, r)
    | _ => (false, s)
  let intD := s1.takeWhile isDigitC
  let r1 := s1.dropWhile isDigitC
  if intD = [] then
    match r1 with
    | '.' :: r2 =>
      let frD := r2.takeWhile isDigitC
      if frD = [] then none
      else
        let (en, ev) := pfExpPart (r2.dropWhile isDigitC)
        some (mkNum neg 0 frD en ev)
    | _ => none
  else
    match r1 with
    | '.' :: r2 =>
      let (en, ev) := pfExpPart (r2.dropWhile isDigitC)
      some (mkNum neg (digitsVal intD) (r2.takeWhile isDigitC) en ev)
    | _ =>
      let (en, ev) := pfExpPart r1
      some (mkNum neg (digitsVal intD) [] en ev)

/-- Field lookup on a JSON value, as JS property access: `none` is
`undefined`; later duplicate keys shadow earlier ones. -/
def jGet (j : Json) (k : Str) : Option Json :=
  match j with
  | .obj fs => (fs.reverse.find? fun p => p.1 == k).map Prod.snd
  | _ => none

/-- JavaScript truthiness of a defined JSON value. -/
def jTruthy : Json → Bool
  | .nul => false
  | .boo b => b
  | .num q => decide (q ≠ 0)
  | .str s => !s.isEmpty
  | .arr _ => true
  | .obj _ => true

/-- `cleanNumber` from `src/unnamed/part_004` (lines 263–271): numbers pass
through, strings are stripped of everything but digits, dots and minus signs
and parsed (`NaN` becomes 0), everything else becomes 0. -/
def cleanNumber (val : Option Json) : ℚ :=
  match val with
  | some (.num q) => q
  | some (.str s) =>
    match parseFloatQ (s.filter fun c => isDigitC c || c = '.' || c = '-') with
    | some q => q
    | none => 0
  | _ => 0

/-! ## Regex matchers used by the analysis parser

Each JS regex used by the source is modelled by an explicit backtracking
search with the same exploration order (leftmost start position; greedy
quantifiers try longer first, lazy ones shorter first; alternatives in
written order).  `\s` is modelled by `isJsSpace`, `.` by "not a line
terminator". -/

/-- Regex `\s`. -/
def isWsRx (c : Char) : Bool := isJsSpace c

/-- JS line terminators (excluded by `.`). -/
def isLineTerm (c : Char) : Bool :=
  c.toNat = 10 || c.toNat = 13 || c.toNat = 0x2028 || c.toNat = 0x2029

/-- Characters matched by `.` (no `s` flag). -/
def isDotC (c : Char) : Bool := !isLineTerm c

/-- Lower-case an ASCII letter (for the `i` flag). -/
def lowerC (c : Char) : Char :=
  if 65 ≤ c.toNat ∧ c.toNat ≤ 90 then Char.ofNat (c.toNat + 32) else c

/-- Lower-case a string. -/
def lowerS (s : Str) : Str := s.map lowerC

/-- Case-insensitive prefix test. -/
def ciHasPre : Str → Str → Bool
  | [], _ => true
  | _ :: _, [] => false
  | p :: ps, c :: s2 => lowerC p == lowerC c && ciHasPre ps s2

/-- Tail `\s*\|\s*(.+)` of the recommendation regex, applied at `t`:
returns the trimmed-to-line reason capture and the number of characters
consumed. -/
def recTail (t : Str) : Option (Str × Nat) :=
  match t.dropWhile isWsRx with
  | '|' :: t2 =>
    if (t2.dropWhile isWsRx).isEmpty then none
    else if ((t2.dropWhile isWsRx).takeWhile isDotC).isEmpty then none
    else some ((t2.dropWhile isWsRx).takeWhile isDotC,
      t.length - (t2.dropWhile isWsRx).length + ((t2.dropWhile isWsRx).takeWhile isDotC).length)
  | _ => none

/-- The maximal `[\d,]` run at the front of `v2`. -/
def dcRun (v2 : Str) : Str := v2.takeWhile fun c => isDigitC c || c = ','

/-- One backtracking step of the number capture with `[\d,]+` fixed to
`n1` characters: greedy `\.?\d*`, then the `\s*\|\s*(.+)` tail. -/
def recNumAt (v2 : Str) (n1 : Nat) : Option (Str × Str × Nat) :=
  match v2.drop n1 with
  | '.' :: w2 =>
    match (List.range ((w2.takeWhile isDigitC).length + 1)).findSome? fun j2 =>
        match recTail (w2.drop ((w2.takeWhile isDigitC).length - j2)) with
        | some (reason, consumed) =>
          some (v2.take n1 ++ '.' :: w2.take ((w2.takeWhile isDigitC).length - j2), reason,
            n1 + 1 + ((w2.takeWhile isDigitC).length - j2) + consumed)
        | none => none with
    | some res => some res
    | none =>
      match recTail (v2.drop n1) with
      | some (reason, consumed) => some (v2.take n1, reason, n1 + consumed)
      | none => none
  | _ =>
    match recTail (v2.drop n1) with
    | some (reason, consumed) => some (v2.take n1, reason, n1 + consumed)
    | none => none

/-- The `([\d,]+\.?\d*)\s*\|\s*(.+)` portion of the recommendation regex at
`v2` (greedy number with backtracking): returns the number capture, the
reason capture and the characters consumed. -/
def recNum (v2 : Str) : Option (Str × Str × Nat) :=
  if (dcRun v2).isEmpty then none
  else (List.range (dcRun v2).length).findSome? fun k => recNumAt v2 ((dcRun v2).length - k)

/-- The `\s*\|\s*([\d,]+\.?\d*)\s*\|\s*(.+)` portion of the recommendation
regex after the signal, applied at `v`: the number and reason captures and
the characters consumed from `v`. -/
def recAfterWord (v : Str) : Option (Str × Str × Nat) :=
  match v.dropWhile isWsRx with
  | '|' :: vp =>
    match recNum (vp.dropWhile isWsRx) with
    | some (num, reason, consumed) =>
      some (num, reason, v.length - (vp.dropWhile isWsRx).length + consumed)
    | none => none
  | _ => none

/-- Attempt the recommendation regex
`FINAL_RECOMMENDATION:\s*(STRONG_BUY|STRONG_SELL|NEUTRAL|WAIT)\s*\|\s*([\d,]+\.?\d*)\s*\|\s*(.+)` (flag `i`)
anchored at the start of `s`: returns the three captures and the match
length. -/
def recTryAt (s : Str) : Option (Str × Str × Str × Nat) :=
  if ciHasPre (chars "FINAL_RECOMMENDATION:") s then
    [chars "STRONG_BUY", chars "STRONG_SELL", chars "NEUTRAL", chars "WAIT"].findSome? fun w =>
      if ciHasPre w ((s.drop 21).dropWhile isWsRx) then
        match recAfterWord (((s.drop 21).dropWhile isWsRx).drop w.length) with
        | some (num, reason, consumed) =>
          some (((s.drop 21).dropWhile isWsRx).take w.length, num, reason,
            s.length - ((s.drop 21).dropWhile isWsRx).length + w.length + consumed)
        | none => none
      else none
  else none

/-- First match of the recommendation regex in `s` (JS `match` without `g`):
the three captures. -/
def recScan : Str → Option (Str × Str × Str)
  | [] => none
  | c :: r =>
    match recTryAt (c :: r) with
    | some (a, b, d, _) => some (a, b, d)
    | none => recScan r

/-- First match of the recommendation regex as (index, length), for
`replace`. -/
def recIdxLen : Str → Option (Nat × Nat)
  | [] => none
  | c :: r =>
    match recTryAt (c :: r) with
    | some (_, _, _, l) => some (0, l)
    | none => (fun p => (p.1 + 1, p.2)) <$> recIdxLen r

/-- The `\s*\|\s*(Positive|Negative|Neutral)` tail of the news regex after
the second capture, applied at `a2`: the sentiment capture and the
characters consumed from `a2`. -/
def newsSent (a2 : Str) : Option (Str × Nat) :=
  match a2.dropWhile isWsRx with
  | '|' :: t2 =>
    [chars "Positive", chars "Negative", chars "Neutral"].findSome? fun w =>
      if ciHasPre w (t2.dropWhile isWsRx) then
        some ((t2.dropWhile isWsRx).take w.length,
          a2.length - (t2.dropWhile isWsRx).length + w.length)
      else none
  | _ => none

/-- The `(.+?)\s*\|\s*(Positive|Negative|Neutral)` portion at `p2` (start of
the lazily-growing second capture): the second and third captures and the
characters consumed from `p2`. -/
def newsCap2 (p2 : Str) : Option (Str × Str × Nat) :=
  (List.range (p2.takeWhile isDotC).length).findSome? fun j2 =>
    match newsSent (p2.drop (j2 + 1)) with
    | some (cap3, consumed) => some (p2.take (j2 + 1), cap3, j2 + 1 + consumed)
    | none => none

/-- The `\s*(.+?)\s*\|\s*…` portion at `q2` (after the first `|`): greedy
whitespace, then the second capture and sentiment; characters consumed from
`q2`. -/
def newsAfterPipe (q2 : Str) : Option (Str × Str × Nat) :=
  (List.range ((q2.takeWhile isWsRx).length + 1)).findSome? fun i2 =>
    match newsCap2 (q2.drop ((q2.takeWhile isWsRx).length - i2)) with
    | some (cap2, cap3, consumed) =>
      some (cap2, cap3, ((q2.takeWhile isWsRx).length - i2) + consumed)
    | none => none

/-- The `(.+?)\s*\|\s*…` portion at `p1` (start of the lazily-growing first
capture): all three captures and the characters consumed from `p1`. -/
def newsCap1 (p1 : Str) : Option (Str × Str × Str × Nat) :=
  (List.range (p1.takeWhile isDotC).length).findSome? fun j1 =>
    match (p1.drop (j1 + 1)).dropWhile isWsRx with
    | '|' :: q2 =>
      match newsAfterPipe q2 with
      | some (cap2, cap3, consumed) =>
        some (p1.take (j1 + 1), cap2, cap3,
          (j1 + 1) + ((p1.drop (j1 + 1)).length - q2.length) + consumed)
      | none => none
    | _ => none

/-- Attempt the news regex
`NEWS_ITEM:\s*(.+?)\s*\|\s*(.+?)\s*\|\s*(Positive|Negative|Neutral)` (flags `gi`)
anchored at the start of `s`: the three captures and the match length. -/
def newsTryAt (s : Str) : Option (Str × Str × Str × Nat) :=
  if ciHasPre (chars "NEWS_ITEM:") s then
    (List.range (((s.drop 10).takeWhile isWsRx).length + 1)).findSome? fun i1 =>
      match newsCap1 ((s.drop 10).drop (((s.drop 10).takeWhile isWsRx).length - i1)) with
      | some (cap1, cap2, cap3, consumed) =>
        some (cap1, cap2, cap3, 10 + (((s.drop 10).takeWhile isWsRx).length - i1) + consumed)
      | none => none
  else none

/-- First news match from the current position: (index, captures, length). -/
def newsFindIdx : Str → Option (Nat × Str × Str × Str × Nat)
  | [] => none
  | c :: r =>
    match newsTryAt (c :: r) with
    | some (a, b, d, l) => some (0, a, b, d, l)
    | none =>
      match newsFindIdx r with
      | some (i, a, b, d, l) => some (i + 1, a, b, d, l)
      | none => none

/-- The `while ((match = newsRegex.exec(text)) !== null)` loop: all
non-overlapping matches, in order. -/
def newsExecA : Nat → Str → List (Str × Str × Str)
  | 0, _ => []
  | f + 1, s =>
    match newsFindIdx s with
    | none => []
    | some (i, a, b, d, l) => (a, b, d) :: newsExecA f (s.drop (i + l))

/-- All news-regex matches of `s`. -/
def newsExec (s : Str) : List (Str × Str × Str) := newsExecA (s.length + 1) s

/-- News matches as (index, length), for `replace(newsRegex, '')`. -/
def newsIdxLen (s : Str) : Option (Nat × Nat) :=
  match newsFindIdx s with
  | some (i, _, _, _, l) => some (i, l)
  | none => none

/-- Attempt the price regex `CURRENT_PRICE:\s*[^\d]*([\d,]+\.?\d*)` (flag `i`)
anchored at the start of `s`: the capture.  Since `\s ⊆ [^\d]`, the
backtracking search resolves to: capture from the first digit after the
marker if any digit follows, otherwise a single comma at the last following
comma, otherwise fail. -/
def priceTryAt (s : Str) : Option Str :=
  if ciHasPre (chars "CURRENT_PRICE:") s then
    let u := s.drop 14
    if u.any isDigitC then
      let d := u.dropWhile fun c => !isDigitC c
      let run := d.takeWhile fun c => isDigitC c || c = ','
      match d.drop run.length with
      | '.' :: w2 => some (run ++ '.' :: w2.takeWhile isDigitC)
      | _ => some run
    else if u.contains ',' then some [','] else none
  else none

/-- First match of the price regex in `s`: the capture. -/
def priceScan : Str → Option Str
  | [] => none
  | c :: r =>
    match priceTryAt (c :: r) with
    | some cap => some cap
    | none => priceScan r

/-- Match of `/CURRENT_PRICE:.*(\r\n|\r|\n)?/gi` anchored at the start of
`s`: the match length. -/
def cpLineTryAt (s : Str) : Option Nat :=
  if ciHasPre (chars "CURRENT_PRICE:") s then
    let rest := s.drop 14
    let lineLen := (rest.takeWhile isDotC).length
    let nl : Nat :=
      match rest.drop lineLen with
      | '\r' :: '\n' :: _ => 2
      | '\r' :: _ => 1
      | '\n' :: _ => 1
      | _ => 0
    some (14 + lineLen + nl)
  else none

/-- First match of the CURRENT_PRICE line regex as (index, length). -/
def cpIdxLen : Str → Option (Nat × Nat)
  | [] => none
  | c :: r =>
    match cpLineTryAt (c :: r) with
    | some l => some (0, l)
    | none => (fun p => (p.1 + 1, p.2)) <$> cpIdxLen r

/-- Global regex replacement by the empty string, given a first-match finder
(JS `replace(/…/g, '')`): removes non-overlapping matches left to right. -/
def remAll (find : Str → Option (Nat × Nat)) : Nat → Str → Str
  | 0, s => s
  | f + 1, s =>
    match find s with
    | none => s
    | some (i, l) => s.take i ++ remAll find f (s.drop (i + l))

/-- Non-global regex replacement by the empty string (first match only). -/
def remFirst (find : Str → Option (Nat × Nat)) (s : Str) : Str :=
  match find s with
  | none => s
  | some (i, l) => s.take i ++ s.drop (i + l)

/-- The heuristic price-token regex `/\d{1,5}(?:,\d{3})*(?:\.\d+)?/g`:
thousands groups, greedily. -/
def thouG : Nat → Str → Str × Str
  | 0, s => ([], s)
  | f + 1, s =>
    match s with
    | ',' :: d1 :: d2 :: d3 :: r =>
      if isDigitC d1 && isDigitC d2 && isDigitC d3 then
        let (g, rest) := thouG f r
        (',' :: d1 :: d2 :: d3 :: g, rest)
      else ([], s)
    | _ => ([], s)

/-- Heuristic token match anchored at a digit. -/
def heurTokAt (s : Str) : Str :=
  let d1 := (s.takeWhile isDigitC).take 5
  let r1 := s.drop d1.length
  let (g, r2) := thouG r1.length r1
  let fr : Str :=
    match r2 with
    | '.' :: r3 =>
      let fd := r3.takeWhile isDigitC
      if fd.isEmpty then [] else '.' :: fd
    | _ => []
  d1 ++ g ++ fr

/-- First heuristic price token in `s` (`numbers[0]` in the source). -/
def heurTok : Str → Option Str
  | [] => none
  | c :: r => if isDigitC c then some (heurTokAt (c :: r)) else heurTok r

/-! ## Typed results (from `src/types.ts`) and grounding metadata -/

/-- `GroundingSource` from `src/types.ts`. -/
structure GroundingSource where
  title : Str
  uri : Str

/-- A grounding chunk's optional `web` payload (`chunk.web?.uri`,
`chunk.web?.title`). -/
structure WebChunk where
  uri : Option Str
  title : Option Str

/-- The source extraction loop over `groundingChunks`: keep a source exactly
when both `uri` and `title` are present and truthy (non-empty). -/
def sourcesOf (chunks : List (Option WebChunk)) : List GroundingSource :=
  chunks.filterMap fun c =>
    match c with
    | some w =>
      match w.uri, w.title with
      | some u, some t => if u ≠ [] ∧ t ≠ [] then some ⟨t, u⟩ else none
      | _, _ => none
    | none => none

/-- `NewsItem` from `src/types.ts` (sentiment kept as the lowercased string). -/
structure NewsItem where
  headline : Str
  summary : Str
  sentiment : Str
deriving DecidableEq

/-- The optional recommendation of an `AnalysisResult`. -/
structure Recommendation where
  signal : Str
  price : JNum
  reason : Str
deriving DecidableEq

/-- `ChartDataPoint` as actually produced: `label` and `price` are copied
raw from the parsed chart JSON, so they can be `undefined` (`none`) or any
JSON value; `type` is always `'forecast'`. -/
structure ChartPt where
  label : Option Json
  price : Option Json

/-- The derived sentiment union `'bullish' | 'bearish' | 'neutral'`. -/
inductive Sentiment where
  | bullish : Sentiment
  | bearish : Sentiment
  | neutral : Sentiment
deriving DecidableEq

/-- `AnalysisResult` from `src/types.ts`, with the estimate a possibly-`NaN`
JS number (`Option JNum`: outer `none` is `undefined`, inner `none` is
`NaN`). -/
structure AnalysisResult where
  analysisText : Str
  sources : List GroundingSource
  chartData : List ChartPt
  currentPriceEstimate : Option JNum
  sentiment : Sentiment
  news : List NewsItem
  recommendation : Option Recommendation

/-! ## The analysis parsing pipeline -/

/-- News extraction: each regex match becomes a `NewsItem` with trimmed
fields and lowercased sentiment. -/
def newsOf (t : Str) : List NewsItem :=
  (newsExec t).map fun m => ⟨jsTrim m.1, jsTrim m.2.1, lowerS (jsTrim m.2.2)⟩

/-- Recommendation extraction: first regex match, signal and reason trimmed,
price `parseFloat`-ed with commas stripped. -/
def recOf (t : Str) : Option Recommendation :=
  match recScan t with
  | some (sig, num, reason) =>
    some ⟨jsTrim sig, parseFloatQ (num.filter fun c => c ≠ ','), jsTrim reason⟩
  | none => none

/-- Current-price estimate extraction (`parseFloat` of the capture with
commas stripped, guarded by the capture's truthiness). -/
def estOf (t : Str) : Option JNum :=
  match priceScan t with
  | some cap =>
    if cap.isEmpty then none else some (parseFloatQ (cap.filter fun c => c ≠ ','))
  | none => none

/-- The narrative clean-up chain shared by `geminiService.ts` (first
variant), `part_004` and `part_005`:
`.replace(newsRegex, '').replace(recRegex, '').replace(/CURRENT_PRICE:.*(\r\n|\r|\n)?/gi, '').trim()`. -/
def cleanTextGs (t : Str) : Str :=
  let t1 := remAll newsIdxLen (t.length + 1) t
  let t2 := remFirst recIdxLen t1
  let t3 := remAll cpIdxLen (t2.length + 1) t2
  jsTrim t3

/-- Chart mapping shared by the variants: if the extracted chart JSON is an
array, copy `label` and `price` raw from each item. -/
def chartOf (raw : Option Json) : List ChartPt :=
  match raw with
  | some (.arr xs) => xs.map fun item => ⟨jGet item (chars "label"), jGet item (chars "price")⟩
  | _ => []

/-- Sentiment derivation of `geminiService.ts` (lines 232–236): only a
truthy estimate (present, non-`NaN`, non-zero) is compared with `buyPrice`. -/
def sentimentOfGs (est : Option JNum) (buy : ℚ) : Sentiment :=
  match est with
  | some (some q) =>
    if q = 0 then .neutral
    else if q > buy then .bullish
    else if q < buy then .bearish
    else .neutral
  | _ => .neutral

/-- Sentiment derivation of `part_005` (line 221) and `part_004`-v2
(line 505): `(currentPriceEstimate || 0) >= buyPrice ? 'bullish' :
'bearish'`. -/
def sentimentOfP5 (est : Option JNum) (buy : ℚ) : Sentiment :=
  let v : ℚ := match est with | some (some q) => q | _ => 0
  if v ≥ buy then .bullish else .bearish

/-- The response-processing section of `analyzeStockPosition` in
`src/services/geminiService.ts` (first variant, lines 173–246), given the
two response texts and the grounding chunks. -/
def analyzeCoreGs (buyPrice : ℚ) (analysisText0 chartText : Str)
    (chunks : List (Option WebChunk)) : AnalysisResult :=
  let t := if analysisText0 = [] then chars "No analysis available." else analysisText0
  let est := estOf t
  { analysisText := cleanTextGs t
    sources := sourcesOf chunks
    chartData := chartOf (extractJsonGs (if chartText = [] then chars "[]" else chartText))
    currentPriceEstimate := est
    sentiment := sentimentOfGs est buyPrice
    news := newsOf t
    recommendation := recOf t }

/-- The response-processing section of `analyzeStockPosition` in
`src/unnamed/part_005` (lines 161–224): same extraction, but the default
text, the chart extractor and the sentiment rule differ. -/
def analyzeCoreP5 (buyPrice : ℚ) (analysisText0 chartText : Str)
    (chunks : List (Option WebChunk)) : AnalysisResult :=
  let t := if analysisText0 = [] then chars "Analysis failed." else analysisText0
  let est := estOf t
  { analysisText := cleanTextGs t
    sources := sourcesOf chunks
    chartData := chartOf (extractJsonP5 (if chartText = [] then chars "[]" else chartText))
    currentPriceEstimate := est
    sentiment := sentimentOfP5 est buyPrice
    news := newsOf t
    recommendation := recOf t }

/-! ## Entry points of `src/unnamed/part_005` (configuration handling) -/

/-- The error message of `getAIClient` in `src/unnamed/part_005`. -/
def p5CfgMsg : Str :=
  chars "Configuration Required: Google Gemini API Key is missing. Add 'API_KEY' to your Vercel environment variables."

/-- The wrapped analysis error of `part_005`. -/
def p5IntMsg : Str :=
  chars "Market Intelligence Link Interrupted. Please check your API Key and network."

/-- The substring tested by the catch blocks. -/
def cfgTag : Str := chars "Configuration Required"

/-- `getAIClient` of `part_005` (lines 33–39): missing or empty key throws
the configuration error. -/
def getAIClientP5 (apiKey : Option Str) : Except Str Unit :=
  if apiKey = none ∨ apiKey = some [] then .error p5CfgMsg else .ok ()

/-- The quote result of `part_005`: `currentPrice` is `typeof`-checked, but
`suggestedBuy`/`suggestedSell` are `rawData.x || currentPrice·k`, so they
keep whatever truthy JSON value the model returned. -/
structure QuoteP5 where
  currentPrice : ℚ
  suggestedBuy : Json
  suggestedSell : Json
  sources : List GroundingSource

/-- `x || d` on an optional JSON value. -/
def orJ (f : Option Json) (d : Json) : Json :=
  match f with
  | some j => if jTruthy j then j else d
  | none => d

/-- `getStockQuote` of `src/unnamed/part_005` (lines 45–104), with the model
call abstracted as `net` (its response text, or the thrown message) and the
grounding chunks as given.  The first component counts issued model
requests. -/
def getStockQuoteP5 (apiKey : Option Str) (net : Except Str Str)
    (chunks : List (Option WebChunk)) : Nat × Except Str QuoteP5 :=
  match getAIClientP5 apiKey with
  | .error m => (0, .error m)
  | .ok _ =>
    match net with
    | .error m =>
      (1, if containsSub cfgTag m then .error m else .ok ⟨0, .num 0, .num 0, []⟩)
    | .ok text =>
      let rawData := extractJsonP5 text
      let sources := sourcesOf chunks
      match rawData with
      | some j =>
        match jGet j (chars "currentPrice") with
        | some (.num q) =>
          (1, .ok ⟨q, orJ (jGet j (chars "suggestedBuy")) (.num (q * (95 / 100))),
                   orJ (jGet j (chars "suggestedSell")) (.num (q * (110 / 100))), sources⟩)
        | _ => (1, .ok ⟨0, .num 0, .num 0, []⟩)
      | none => (1, .ok ⟨0, .num 0, .num 0, []⟩)

/-- `analyzeStockPosition` of `src/unnamed/part_005` (lines 109–230): the
two model calls abstracted as `netA`/`netC`; configuration errors
short-circuit before any call and propagate unmodified through the catch. -/
def analyzeStockPositionP5 (apiKey : Option Str) (buyPrice : ℚ)
    (netA netC : Except Str Str) (chunks : List (Option WebChunk)) :
    Nat × Except Str AnalysisResult :=
  match getAIClientP5 apiKey with
  | .error m => (0, .error m)
  | .ok _ =>
    match netA with
    | .error m => (1, if containsSub cfgTag m then .error m else .error p5IntMsg)
    | .ok tA =>
      match netC with
      | .error m => (2, if containsSub cfgTag m then .error m else .error p5IntMsg)
      | .ok tC => (2, .ok (analyzeCoreP5 buyPrice tA tC chunks))

/-! ## `getStockQuote` of `src/unnamed/part_004` (second variant) -/

/-- `StockQuote` with sanitized numeric fields, as produced by the
`part_004` second variant. -/
structure StockQuote where
  currentPrice : ℚ
  suggestedBuy : ℚ
  suggestedSell : ℚ
  sources : List GroundingSource

/-- The configuration error message of `part_004`'s `getAIClient` (second
variant, lines 301–307). -/
def p4CfgMsg : Str :=
  chars "Configuration Required: Google Gemini API Key is missing. Please add 'API_KEY' to your Vercel Environment Variables."

/-- The quota error message of `part_004`'s `getStockQuote`. -/
def p4QuotaMsg : Str :=
  chars "API Quota Exhausted: You have reached the Gemini API limit. Please wait a minute or use a different API key."

/-- The quote-unavailable error message, naming the symbol. -/
def notFoundMsg (sym : Str) : Str :=
  chars "Price for " ++ sym ++ chars " not found. Please ensure the ticker is correct (e.g., ADANIPOWER or RELIANCE)."

/-- `x || d` on already-sanitized numbers (0 is the only falsy value). -/
def orQ (a b : ℚ) : ℚ := if a = 0 then b else a

/-- The object built by the heuristic fallback for a price `v` (0.96/1.08
offsets). -/
def heurObj (v : ℚ) : Json :=
  .obj [(chars "currentPrice", .num v),
        (chars "suggestedBuy", .num (v * (96 / 100))),
        (chars "suggestedSell", .num (v * (108 / 100)))]

/-- The heuristic fallback of `part_004`'s `getStockQuote` (lines 337–353):
if extraction failed or the cleaned `currentPrice` is falsy, take the first
price-looking token of the raw text when it cleans to more than 1. -/
def rawAfterHeur (text : Str) : Option Json :=
  let rawData := extractJsonP5 text
  let needH : Bool :=
    match rawData with
    | none => true
    | some j => decide (cleanNumber (jGet j (chars "currentPrice")) = 0)
  if needH then
    match heurTok text with
    | some tok =>
      let price := cleanNumber (some (.str tok))
      if price > 1 then some (heurObj price) else rawData
    | none => rawData
  else rawData

/-- The `try` body of `part_004`'s second `getStockQuote` (lines 313–376). -/
def quoteBodyP4 (apiKey : Option Str) (sym : Str) (net : Except Str Str)
    (chunks : List (Option WebChunk)) : Nat × Except Str StockQuote :=
  if apiKey = none ∨ apiKey = some [] then (0, .error p4CfgMsg)
  else
    match net with
    | .error m => (1, .error m)
    | .ok text =>
      let raw := rawAfterHeur text
      let sources := sourcesOf chunks
      let cp := cleanNumber (raw.bind (jGet · (chars "currentPrice")))
      if cp ≤ 0 then (1, .error (notFoundMsg sym))
      else
        (1, .ok ⟨cp, orQ (cleanNumber (raw.bind (jGet · (chars "suggestedBuy")))) (cp * (95 / 100)),
                 orQ (cleanNumber (raw.bind (jGet · (chars "suggestedSell")))) (cp * (110 / 100)),
                 sources⟩)

/-- `getStockQuote` of `src/unnamed/part_004` (second variant, lines
313–388): the catch block rewrites quota errors and rethrows every other
error unmodified (configuration errors included). -/
def getStockQuoteP4 (apiKey : Option Str) (sym : Str) (net : Except Str Str)
    (chunks : List (Option WebChunk)) : Nat × Except Str StockQuote :=
  let (n, r) := quoteBodyP4 apiKey sym net chunks
  (n, match r with
      | .ok q => .ok q
      | .error m =>
        if containsSub (chars "429") m || containsSub (chars "RESOURCE_EXHAUSTED") m then
          .error p4QuotaMsg
        else .error m)

/-! ## Activity log (`src/services/trackingService.ts`) -/

/-- `UserLocation` from `src/types.ts`. -/
structure UserLocation where
  lat : ℚ
  lng : ℚ
  city : Option Str

/-- `ActivityLog` from `src/types.ts`. -/
structure ActivityLog where
  id : Str
  timestamp : ℤ
  email : Str
  action : Str
  details : Str
  location : Option UserLocation

/-- `mockReverseGeocode` (lines 6–11): deterministic city pick from the
coordinates (`Math.floor((Math.abs(lat*lng)*100) % cities.length)`). -/
def mockReverseGeocode (lat lng : ℚ) : Str :=
  let cities := [chars "Mumbai", chars "Delhi", chars "Bangalore", chars "Hyderabad",
    chars "Chennai", chars "Pune", chars "Kolkata"]
  let x : ℚ := |lat * lng| * 100
  let m : ℚ := x - 7 * (⌊x / 7⌋ : ℤ)
  cities.getD (⌊m⌋).toNat []

/-- The log entry built by `logActivity` (lines 19–34), with the
non-deterministic inputs (`crypto.randomUUID()`, `Date.now()`) passed in. -/
def mkNewLog (uuid : Str) (now : ℤ) (email action details : Str)
    (location : Option UserLocation) : ActivityLog :=
  let finalLocation := location.map fun l =>
    { l with city := some (match l.city with
        | some c => if c = [] then mockReverseGeocode l.lat l.lng else c
        | none => mockReverseGeocode l.lat l.lng) }
  ⟨uuid, now, email, action, details, finalLocation⟩

/-- `logActivity` (lines 13–38) as a transformation of the persisted list:
`[newLog, ...logs].slice(0, 100)`. -/
def logActivity (uuid : Str) (now : ℤ) (email action details : Str)
    (location : Option UserLocation) (logs : List ActivityLog) : List ActivityLog :=
  (mkNewLog uuid now email action details location :: logs).take 100

/-- Scaffold for the news-extraction theorem: the text built from
`(junk, headline, summary, sentiment)` segments followed by a trailing
junk `tail`, each segment contributing a structured
`NEWS_ITEM: <headline> | <summary> | <sentiment>` block. -/
def newsBuild : List (Str × Str × Str × Str) → Str → Str
  | [], tail => tail
  | (j, H, S, W) :: rest, tail =>
    j ++ (chars "NEWS_ITEM: " ++ (H ++ (chars " | " ++ (S ++ (chars " | " ++
      (W ++ newsBuild rest tail))))))

/-- A headline or summary field that the news regex captures verbatim:
line chars only, no pipe, and no whitespace at either end. -/
def fieldOK (x : Str) : Prop :=
  (∀ c ∈ x, isDotC c = true ∧ c ≠ '|') ∧
  (∃ c r, x = c :: r ∧ isWsRx c = false) ∧
  (∃ r c, x = r ++ [c] ∧ isWsRx c = false)

/-- A sentiment word accepted case-insensitively by the news regex. -/
def sentOK (w : Str) : Prop :=
  lowerS w = chars "positive" ∨ lowerS w = chars "negative" ∨ lowerS w = chars "neutral"

/-- A conversational-prose character: no brace, bracket, quote or backtick. -/
def proseChar (c : Char) : Prop :=
  c ≠ '{' ∧ c ≠ '}' ∧ c ≠ '[' ∧ c ≠ ']' ∧ c ≠ '"' ∧ c ≠ '`'

instance (c : Char) : Decidable (proseChar c) := by
  unfold proseChar
  infer_instance

/-- Characters a JSON number parse can consume. -/
def numChar (c : Char) : Bool :=
  isDigitC c || c = '-' || c = '+' || c = '.' || c = 'e' || c = 'E'

/-! # Theorems -/

/-! ## Helper lemmas -/

theorem mkNum_nil (n : Nat) : mkNum false n [] false 0 = (n : ℚ) := by
  simp [mkNum, digitsVal]

theorem mkNum_452_30 : mkNum false 452 (chars "30") false 0 = 4523 / 10 := by
  unfold mkNum
  rw [show digitsVal (chars "30") = 30 from rfl, show (chars "30").length = 2 from rfl]
  norm_num

theorem hasPre_append_self (b u : Str) : hasPre b (b ++ u) = true := by
  induction b with
  | nil => rfl
  | cons c cs ih => simp [hasPre, ih]

theorem dropWhile_app_all {p : Char → Bool} {a : Str} (b : Str)
    (h : a.dropWhile p = []) : (a ++ b).dropWhile p = b.dropWhile p := by
  rw [List.dropWhile_append, h]
  rfl

theorem dropWhile_app_ne {p : Char → Bool} {a : Str} (b : Str)
    (h : a.dropWhile p ≠ []) : (a ++ b).dropWhile p = a.dropWhile p ++ b := by
  rw [List.dropWhile_append, if_neg]
  simpa [List.isEmpty_iff] using h

theorem takeWhile_len_eq_iff {p : Char → Bool} {a : Str} :
    (a.takeWhile p).length = a.length ↔ a.dropWhile p = [] := by
  constructor
  · intro h
    have := congrArg List.length (List.takeWhile_append_dropWhile p a)
    rw [List.length_append, h] at this
    have h0 : (a.dropWhile p).length = 0 := by omega
    exact List.length_eq_zero.mp h0
  · intro h
    have := congrArg List.length (List.takeWhile_append_dropWhile p a)
    rw [List.length_append, h] at this
    simpa using this

theorem takeWhile_app_stop {p : Char → Bool} {a : Str} (b : Str)
    (h : a.dropWhile p ≠ []) : (a ++ b).takeWhile p = a.takeWhile p := by
  rw [List.takeWhile_append, if_neg]
  rw [takeWhile_len_eq_iff]
  exact h

theorem takeWhile_eq_self_of_all {p : Char → Bool} {a : Str}
    (h : ∀ c ∈ a, p c = true) : a.takeWhile p = a := by
  induction a with
  | nil => rfl
  | cons x xs ih =>
    rw [List.takeWhile_cons, if_pos (h x (List.mem_cons_self x xs)),
      ih fun c hc => h c (List.mem_cons_of_mem x hc)]

theorem dropWhile_eq_nil_of_all {p : Char → Bool} {a : Str}
    (h : ∀ c ∈ a, p c = true) : a.dropWhile p = [] := by
  induction a with
  | nil => rfl
  | cons x xs ih =>
    rw [List.dropWhile_cons, if_pos (h x (List.mem_cons_self x xs))]
    exact ih fun c hc => h c (List.mem_cons_of_mem x hc)

theorem takeWhile_app_all {p : Char → Bool} {a : Str} (b : Str)
    (h : ∀ c ∈ a, p c = true) : (a ++ b).takeWhile p = a ++ b.takeWhile p := by
  rw [List.takeWhile_append, if_pos]
  rw [takeWhile_eq_self_of_all h]

theorem dropWhile_cons_of_neg {p : Char → Bool} {c : Char} (s : Str)
    (h : p c = false) : (c :: s).dropWhile p = c :: s := by
  rw [List.dropWhile_cons, h]
  rfl

/-! Character-class disjointness. -/

theorem not_ws_of_digitComma {c : Char} (h : (isDigitC c || c = ',') = true) :
    isWsRx c = false := by
  rcases (Bool.or_eq_true _ _).mp h with h | h
  · simp only [isDigitC, Bool.and_eq_true, decide_eq_true_eq] at h
    simp only [isWsRx, isJsSpace, isWsJson, Bool.or_eq_false_iff, decide_eq_false_iff_not]
    omega
  · rw [decide_eq_true_eq] at h
    subst h
    rfl

theorem not_pipe_of_digitComma {c : Char} (h : (isDigitC c || c = ',') = true) :
    c ≠ '|' := by
  rcases (Bool.or_eq_true _ _).mp h with h | h
  · intro hc
    subst hc
    exact absurd h (by decide)
  · rw [decide_eq_true_eq] at h
    subst h
    decide

theorem not_ws_of_digit {c : Char} (h : isDigitC c = true) : isWsRx c = false :=
  not_ws_of_digitComma (by rw [h]; rfl)

theorem lineTerm_ws {c : Char} (h : isWsRx c = false) : isLineTerm c = false := by
  simp only [isWsRx, isJsSpace, isWsJson, Bool.or_eq_false_iff, decide_eq_false_iff_not] at h
  simp only [isLineTerm, Bool.or_eq_false_iff, decide_eq_false_iff_not]
  omega

theorem dotC_of_not_lineTerm {c : Char} (h : isLineTerm c = false) : isDotC c = true := by
  simp [isDotC, h]

/-! Prefix facts. -/

theorem hasPre_iff (m s : Str) : hasPre m s = true ↔ ∃ u, s = m ++ u := by
  induction m generalizing s with
  | nil => simp [hasPre]
  | cons p ps ih =>
    cases s with
    | nil => simp [hasPre]
    | cons c cs =>
      simp only [hasPre, Bool.and_eq_true, beq_iff_eq, ih, List.cons_append, List.cons.injEq]
      constructor
      · rintro ⟨rfl, u, rfl⟩
        exact ⟨u, rfl, rfl⟩
      · rintro ⟨u, rfl, rfl⟩
        exact ⟨rfl, u, rfl⟩

theorem ciHasPre_iff (m s : Str) : ciHasPre m s = true ↔ ∃ u, lowerS s = lowerS m ++ u := by
  induction m generalizing s with
  | nil => simp [ciHasPre, lowerS]
  | cons p ps ih =>
    cases s with
    | nil => simp [ciHasPre, lowerS]
    | cons c cs =>
      simp only [ciHasPre, Bool.and_eq_true, beq_iff_eq, ih, lowerS, List.map_cons,
        List.cons_append, List.cons.injEq]
      constructor
      · rintro ⟨h, u, hu⟩
        exact ⟨u, h.symm, hu⟩
      · rintro ⟨u, h, hu⟩
        exact ⟨h.symm, u, hu⟩

theorem ciHasPre_append_ext {m s : Str} (t : Str) (h : ciHasPre m s = true) :
    ciHasPre m (s ++ t) = true := by
  rcases (ciHasPre_iff m s).mp h with ⟨u, hu⟩
  refine (ciHasPre_iff m (s ++ t)).mpr ⟨u ++ lowerS t, ?_⟩
  simp only [lowerS, List.map_append] at hu ⊢
  rw [hu, List.append_assoc]

theorem containsSub_of_hasPre (b s : Str) (h : hasPre b s = true) :
    containsSub b s = true := by
  cases s with
  | nil => simp [containsSub, findSub, h]
  | cons x xs => simp [containsSub, findSub, h]

theorem containsSub_append_mid (a b c : Str) : containsSub b (a ++ b ++ c) = true := by
  induction a with
  | nil => simpa using containsSub_of_hasPre b (b ++ c) (hasPre_append_self b c)
  | cons x xs ih =>
    simp only [containsSub, List.cons_append, findSub]
    split
    · rfl
    · simpa [containsSub] using ih

/-! ## C10: activity-log truncation -/

/-- C10: after every `logActivity`, the persisted list has at most 100
entries, the new entry is first with the earlier entries following
unchanged, and when the list already held 100 entries the oldest (last,
since order is newest-first) entry is dropped. -/
theorem claim_C10_logActivity (uuid : Str) (now : ℤ) (email action details : Str)
    (location : Option UserLocation) (logs : List ActivityLog) :
    (logActivity uuid now email action details location logs).length ≤ 100 ∧
    logActivity uuid now email action details location logs =
      mkNewLog uuid now email action details location :: logs.take 99 ∧
    (logs.length = 100 →
      logActivity uuid now email action details location logs =
        mkNewLog uuid now email action details location :: logs.dropLast) := by
  refine ⟨?_, ?_, ?_⟩
  · unfold logActivity
    rw [List.length_take]
    exact min_le_left _ _
  · unfold logActivity
    show (_ :: logs).take (99 + 1) = _
    rw [List.take_succ_cons]
  · intro h
    unfold logActivity
    show (_ :: logs).take (99 + 1) = _
    rw [List.take_succ_cons, List.dropLast_eq_take, h]

/-- C10 witness: at a full 100-entry log, the oldest entry is dropped. -/
theorem claim_C10_logActivity_witness :
    logActivity [] 0 [] [] [] none (List.replicate 100 ⟨[], 0, [], [], [], none⟩) =
      mkNewLog [] 0 [] [] [] none ::
        (List.replicate 100 (⟨[], 0, [], [], [], none⟩ : ActivityLog)).dropLast :=
  (claim_C10_logActivity [] 0 [] [] [] none _).2.2 (by simp)

/-! ## C3: extraction never throws; `null` exactly when all stages fail -/

/-- C3: `extractJson` is total (it is a function in the model) and returns
`null` whenever none of its stages (direct parse after fence stripping,
regex fallback, manual boundary fallback for `geminiService.ts`; direct
parse and object-boundary fallback for `part_005`) locates parseable
JSON. -/
theorem claim_C3_extractJson_total (t : Str)
    (h1 : jsonParse (cleanedOf t) = none)
    (h2 : regexStage (cleanedOf t) = none)
    (h3 : manualStage (cleanedOf t) = none)
    (h4 : objStage (cleanedOf t) = none) :
    extractJsonGs t = none ∧ extractJsonP5 t = none := by
  constructor
  · unfold extractJsonGs
    split
    · rfl
    · simp only [h1, h2, h3]
  · unfold extractJsonP5
    split
    · rfl
    · simp only [h1, h4]

/-- C3 witness: the spec's example input `"no data available"` fails every
stage and yields `null` from both variants without an exception. -/
theorem claim_C3_extractJson_total_witness :
    extractJsonGs (chars "no data available") = none ∧
      extractJsonP5 (chars "no data available") = none :=
  claim_C3_extractJson_total (chars "no data available") rfl rfl rfl rfl

/-! ## C2: the extraction round-trip claim -/

/-- C2 counterexample: `"[1] {"x":2}"` consists of a single valid JSON
object surrounded by prose that contains no other object, yet
`extractJson` returns `[1]` (the regex alternative grabs the array in the
prose), which is not deep-equal to parsing the object. -/
theorem claim_C2_counterexample :
    extractJsonGs (chars "[1] \x7b\"x\":2\x7d") =
      some (.arr [.num (mkNum false 1 [] false 0)]) ∧
    jsonParse (chars "\x7b\"x\":2\x7d") =
      some (.obj [(chars "x", .num (mkNum false 2 [] false 0))]) ∧
    Json.arr [.num (mkNum false 1 [] false 0)] ≠
      Json.obj [(chars "x", .num (mkNum false 2 [] false 0))] :=
  ⟨rfl, rfl, fun h => Json.noConfusion h⟩

/-! ## C7: sentiment derivation -/

/-- C7 counterexample: an extracted estimate of `0` is present and smaller
than `buyPrice = 100`, so the claim requires `bearish`, but the code treats
the falsy `0` like an absent estimate and yields `neutral`. -/
theorem claim_C7_counterexample :
    (analyzeCoreGs 100 (chars "CURRENT_PRICE: 0") (chars "[]") []).currentPriceEstimate
        = some (some 0) ∧
    (0 : ℚ) < 100 ∧
    (analyzeCoreGs 100 (chars "CURRENT_PRICE: 0") (chars "[]") []).sentiment =
      Sentiment.neutral := by
  have h0 : mkNum false 0 [] false 0 = 0 := by rw [mkNum_nil]; norm_num
  have he : (analyzeCoreGs 100 (chars "CURRENT_PRICE: 0") (chars "[]")
      []).currentPriceEstimate = some (some (mkNum false 0 [] false 0)) := rfl
  have hs : (analyzeCoreGs 100 (chars "CURRENT_PRICE: 0") (chars "[]") []).sentiment =
      sentimentOfGs ((analyzeCoreGs 100 (chars "CURRENT_PRICE: 0") (chars "[]")
        []).currentPriceEstimate) 100 := rfl
  refine ⟨by rw [he, h0], by norm_num, ?_⟩
  rw [hs, he, h0]
  simp [sentimentOfGs]

/-- C7 amended: for the `geminiService.ts` variant, the sentiment is a pure
function of the estimate and `buyPrice`, with a truthiness guard: a present
non-zero non-`NaN` estimate compares against `buyPrice` (greater → bullish,
smaller → bearish, equal → neutral), while an absent, `NaN` or zero
estimate yields neutral. -/
theorem claim_C7_amended (buy : ℚ) (t ct : Str) (chunks : List (Option WebChunk)) :
    ((analyzeCoreGs buy t ct chunks).currentPriceEstimate = none →
      (analyzeCoreGs buy t ct chunks).sentiment = .neutral) ∧
    ((analyzeCoreGs buy t ct chunks).currentPriceEstimate = some none →
      (analyzeCoreGs buy t ct chunks).sentiment = .neutral) ∧
    (∀ q, (analyzeCoreGs buy t ct chunks).currentPriceEstimate = some (some q) →
      q ≠ 0 → q > buy → (analyzeCoreGs buy t ct chunks).sentiment = .bullish) ∧
    (∀ q, (analyzeCoreGs buy t ct chunks).currentPriceEstimate = some (some q) →
      q ≠ 0 → q < buy → (analyzeCoreGs buy t ct chunks).sentiment = .bearish) ∧
    (∀ q, (analyzeCoreGs buy t ct chunks).currentPriceEstimate = some (some q) →
      q = 0 ∨ q = buy → (analyzeCoreGs buy t ct chunks).sentiment = .neutral) := by
  have hs : (analyzeCoreGs buy t ct chunks).sentiment =
      sentimentOfGs ((analyzeCoreGs buy t ct chunks).currentPriceEstimate) buy := rfl
  refine ⟨?_, ?_, ?_, ?_, ?_⟩
  · intro h; rw [hs, h]; rfl
  · intro h; rw [hs, h]; rfl
  · intro q h hq hgt
    rw [hs, h]
    simp only [sentimentOfGs, if_neg hq, if_pos hgt]
  · intro q h hq hlt
    rw [hs, h]
    have hngt : ¬ q > buy := by linarith
    simp only [sentimentOfGs, if_neg hq, if_neg hngt, if_pos hlt]
  · intro q h hq
    rw [hs, h]
    rcases hq with h0 | hb
    · simp only [sentimentOfGs, if_pos h0]
    · subst hb
      simp only [sentimentOfGs]
      split
      · rfl
      · rw [if_neg (lt_irrefl _), if_neg (lt_irrefl _)]

/-- C7 amended witness: a 150 estimate against a 100 buy price is bullish. -/
theorem claim_C7_amended_witness :
    (analyzeCoreGs 100 (chars "CURRENT_PRICE: 150") (chars "[]") []).sentiment =
      Sentiment.bullish := by
  refine (claim_C7_amended 100 (chars "CURRENT_PRICE: 150") (chars "[]") []).2.2.1
    (mkNum false 150 [] false 0) rfl ?_ ?_
  · rw [mkNum_nil]; norm_num
  · rw [mkNum_nil]; norm_num

/-! ## C4: numeric-field invariant -/

/-- C4, evaluation at the failing inputs: an analysis text containing
`CURRENT_PRICE: ,` makes `parseFloat('')` produce `NaN` which is stored as
the present estimate, and a chart item without a `price` key propagates
`undefined` into the chart data — both violate the claimed invariant. -/
theorem claim_C4_failing_eval :
    (analyzeCoreGs 100 (chars "CURRENT_PRICE: ,")
        (chars "[\x7b\"label\":\"Day 1\"\x7d]") []).currentPriceEstimate = some none ∧
    (analyzeCoreGs 100 (chars "CURRENT_PRICE: ,")
        (chars "[\x7b\"label\":\"Day 1\"\x7d]") []).chartData =
      [⟨some (.str (chars "Day 1")), none⟩] :=
  ⟨rfl, rfl⟩

/-! ## C1: configuration error precedence and propagation -/

/-- C1: with a missing or empty API key, both `part_005` entry points raise
the distinct configuration error before any model request is issued
(0 requests), and the error reaches the caller unmodified — in particular
it is not the wrapped analysis-interrupted error. -/
theorem claim_C1_configuration (apiKey : Option Str) (buy : ℚ)
    (net netA netC : Except Str Str) (chunks chunksA : List (Option WebChunk))
    (h : apiKey = none ∨ apiKey = some []) :
    getStockQuoteP5 apiKey net chunks = (0, .error p5CfgMsg) ∧
    analyzeStockPositionP5 apiKey buy netA netC chunksA = (0, .error p5CfgMsg) ∧
    p5CfgMsg ≠ p5IntMsg := by
  refine ⟨?_, ?_, by decide⟩
  · unfold getStockQuoteP5 getAIClientP5
    rw [if_pos h]
  · unfold analyzeStockPositionP5 getAIClientP5
    rw [if_pos h]

/-- C1 witness: with no key configured at all, both entry points fail with
the configuration error and zero requests. -/
theorem claim_C1_configuration_witness :
    getStockQuoteP5 none (.ok []) [] = (0, .error p5CfgMsg) ∧
    analyzeStockPositionP5 none 1 (.ok []) (.ok []) [] = (0, .error p5CfgMsg) ∧
    p5CfgMsg ≠ p5IntMsg :=
  claim_C1_configuration none 1 (.ok []) (.ok []) (.ok []) [] [] (Or.inl rfl)

/-! ## C5 / C6: quote failure policy and heuristic fallback -/

theorem rawAfterHeur_heur (text tok : Str)
    (hneed : extractJsonP5 text = none ∨
      ∃ j, extractJsonP5 text = some j ∧ cleanNumber (jGet j (chars "currentPrice")) = 0)
    (htok : heurTok text = some tok)
    (hv : 1 < cleanNumber (some (.str tok))) :
    rawAfterHeur text = some (heurObj (cleanNumber (some (.str tok)))) := by
  unfold rawAfterHeur
  rcases hneed with h | ⟨j, hj, hz⟩
  · rw [h, htok]
    simp only [if_pos hv]
    rfl
  · have hn : (decide (cleanNumber (jGet j (chars "currentPrice")) = 0)) = true :=
      decide_eq_true hz
    rw [hj, htok]
    simp only [hn, if_true]
    rw [if_pos hv]

theorem bodyP4_ok_pos (apiKey : Option Str) (sym : Str) (net : Except Str Str)
    (chunks : List (Option WebChunk)) (n : Nat) (q : StockQuote)
    (h : quoteBodyP4 apiKey sym net chunks = (n, .ok q)) : 0 < q.currentPrice := by
  unfold quoteBodyP4 at h
  split at h
  · simp at h
  · split at h
    · simp at h
    · rename_i text
      dsimp only [] at h
      split at h
      · simp at h
      · rename_i hle
        rw [Prod.mk.injEq, Except.ok.injEq] at h
        rw [← h.2]
        exact lt_of_not_le hle

theorem quoteP4_ok_pos (apiKey : Option Str) (sym : Str) (net : Except Str Str)
    (chunks : List (Option WebChunk)) (n : Nat) (q : StockQuote)
    (h : getStockQuoteP4 apiKey sym net chunks = (n, .ok q)) : 0 < q.currentPrice := by
  unfold getStockQuoteP4 at h
  rcases hb : quoteBodyP4 apiKey sym net chunks with ⟨n0, r0⟩
  rw [hb] at h
  cases r0 with
  | ok q0 =>
    rw [Prod.mk.injEq, Except.ok.injEq] at h
    exact h.2 ▸ bodyP4_ok_pos apiKey sym net chunks n0 q0 hb
  | error m =>
    exfalso
    simp only [Prod.mk.injEq] at h
    rcases h with ⟨_, h2⟩
    split at h2 <;> exact Except.noConfusion h2

/-- C5 counterexample: for the symbol `X429`, no usable price is found, yet
the raised error is the quota message (because the quote-unavailable
message contains the symbol's `429`), which does not name the symbol. -/
theorem claim_C5_counterexample :
    getStockQuoteP4 (some (chars "k")) (chars "X429") (.ok (chars "no price data")) [] =
      (1, .error p4QuotaMsg) ∧
    containsSub (chars "X429") p4QuotaMsg = false := by
  exact ⟨rfl, by decide⟩

/-- C5 amended: when no usable price remains after both structured and
heuristic extraction, `getStockQuote` raises the distinct quote-unavailable
error, whose message contains the offending symbol — provided that message
does not accidentally contain `429` or `RESOURCE_EXHAUSTED` (in which case
the quota error is raised instead); and a successful quote never has a
non-positive `currentPrice`. -/
theorem claim_C5_amended (k sym text : Str) (chunks : List (Option WebChunk)) (hk : k ≠ [])
    (h429 : containsSub (chars "429") (notFoundMsg sym) = false)
    (hre : containsSub (chars "RESOURCE_EXHAUSTED") (notFoundMsg sym) = false)
    (hcp : cleanNumber ((rawAfterHeur text).bind (jGet · (chars "currentPrice"))) ≤ 0) :
    getStockQuoteP4 (some k) sym (.ok text) chunks = (1, .error (notFoundMsg sym)) ∧
    containsSub sym (notFoundMsg sym) = true ∧
    (∀ apiKey net chks n q, getStockQuoteP4 apiKey sym net chks = (n, .ok q) →
      0 < q.currentPrice) := by
  have hkey : ¬ ((some k : Option Str) = none ∨ (some k : Option Str) = some []) := by
    rintro (h | h)
    · exact Option.noConfusion h
    · exact hk (Option.some.injEq _ _ ▸ h)
  refine ⟨?_, containsSub_append_mid (chars "Price for ") sym _, ?_⟩
  · unfold getStockQuoteP4 quoteBodyP4
    rw [if_neg hkey]
    simp only [if_pos hcp, h429, hre]
    rfl
  · intro apiKey net chks n q h
    exact quoteP4_ok_pos apiKey sym net chks n q h

/-- C5 amended witness: symbol `TCS`, no price anywhere in the response. -/
theorem claim_C5_amended_witness :
    getStockQuoteP4 (some (chars "k")) (chars "TCS") (.ok (chars "no price data")) [] =
      (1, .error (notFoundMsg (chars "TCS"))) ∧
    containsSub (chars "TCS") (notFoundMsg (chars "TCS")) = true ∧
    (∀ apiKey net chks n q, getStockQuoteP4 apiKey (chars "TCS") net chks = (n, .ok q) →
      0 < q.currentPrice) :=
  claim_C5_amended (chars "k") (chars "TCS") (chars "no price data") []
    (by decide) (by decide) (by decide) (le_refl 0)

unseal Rat.add Rat.mul Rat.inv Rat.sub in
/-- C6 counterexample: the structured extraction yields `currentPrice = -5`
(no usable price, per the claim's "absent or ≤ 0") and the text carries
price-looking tokens above the threshold, yet the code skips the heuristic
(its trigger is `cleanNumber(...) == 0`, not `≤ 0`) and raises the
quote-unavailable error instead of returning a heuristic quote. -/
theorem claim_C6_counterexample :
    cleanNumber ((extractJsonP5 (chars "\x7b\"currentPrice\": -5\x7d and 452.30")).bind
        (jGet · (chars "currentPrice"))) ≤ 0 ∧
    heurTok (chars "\x7b\"currentPrice\": -5\x7d and 452.30") = some (chars "5") ∧
    1 < cleanNumber (some (.str (chars "5"))) ∧
    getStockQuoteP4 (some (chars "k")) (chars "TCS")
        (.ok (chars "\x7b\"currentPrice\": -5\x7d and 452.30")) [] =
      (1, .error (notFoundMsg (chars "TCS"))) := by
  refine ⟨by rfl, by decide, ?_, by rfl⟩
  rw [show cleanNumber (some (.str (chars "5"))) = mkNum false 5 [] false 0 from rfl, mkNum_nil]
  norm_num

/-- C6 amended: the heuristic fires exactly when structured extraction
yields no object or a `currentPrice` that cleans to 0 (not merely ≤ 0);
then, if the first numeric-looking token of the raw text cleans to more
than 1, that value becomes `currentPrice` with `suggestedBuy = 0.96×` and
`suggestedSell = 1.08×`. -/
theorem claim_C6_amended (k sym text tok : Str) (chunks : List (Option WebChunk)) (hk : k ≠ [])
    (hneed : extractJsonP5 text = none ∨
      ∃ j, extractJsonP5 text = some j ∧ cleanNumber (jGet j (chars "currentPrice")) = 0)
    (htok : heurTok text = some tok)
    (hv : 1 < cleanNumber (some (.str tok))) :
    getStockQuoteP4 (some k) sym (.ok text) chunks =
      (1, .ok ⟨cleanNumber (some (.str tok)),
               cleanNumber (some (.str tok)) * (96 / 100),
               cleanNumber (some (.str tok)) * (108 / 100),
               sourcesOf chunks⟩) := by
  have hraw := rawAfterHeur_heur text tok hneed htok hv
  have hkey : ¬ ((some k : Option Str) = none ∨ (some k : Option Str) = some []) := by
    rintro (h | h)
    · exact Option.noConfusion h
    · exact hk (Option.some.injEq _ _ ▸ h)
  have hcp : cleanNumber ((some (heurObj (cleanNumber (some (.str tok))))).bind
      (jGet · (chars "currentPrice"))) = cleanNumber (some (.str tok)) := rfl
  have hsb : cleanNumber ((some (heurObj (cleanNumber (some (.str tok))))).bind
      (jGet · (chars "suggestedBuy"))) = cleanNumber (some (.str tok)) * (96 / 100) := rfl
  have hss : cleanNumber ((some (heurObj (cleanNumber (some (.str tok))))).bind
      (jGet · (chars "suggestedSell"))) = cleanNumber (some (.str tok)) * (108 / 100) := rfl
  have hpos : (0 : ℚ) < cleanNumber (some (.str tok)) := by linarith
  have hnle : ¬ (cleanNumber (some (.str tok)) ≤ 0) := by linarith
  have hbne : cleanNumber (some (.str tok)) * (96 / 100) ≠ 0 := by positivity
  have hsne : cleanNumber (some (.str tok)) * (108 / 100) ≠ 0 := by positivity
  unfold getStockQuoteP4 quoteBodyP4
  rw [if_neg hkey]
  simp only [hraw, hcp, hsb, hss, if_neg hnle]
  unfold orQ
  rw [if_neg hbne, if_neg hsne]

/-- C6 amended witness: the spec's own example, a prose-only response
containing `452.30`. -/
theorem claim_C6_amended_witness :
    getStockQuoteP4 (some (chars "k")) (chars "TCS")
        (.ok (chars "price is around 452.30 today")) [] =
      (1, .ok ⟨cleanNumber (some (.str (chars "452.30"))),
               cleanNumber (some (.str (chars "452.30"))) * (96 / 100),
               cleanNumber (some (.str (chars "452.30"))) * (108 / 100),
               sourcesOf []⟩) :=
  claim_C6_amended (chars "k") (chars "TCS") (chars "price is around 452.30 today")
    (chars "452.30") [] (by decide) (Or.inl rfl) rfl
    (by rw [show cleanNumber (some (.str (chars "452.30"))) =
          mkNum false 452 (chars "30") false 0 from rfl, mkNum_452_30]
        norm_num)

end StockSense
namespace StockSense

theorem recTail_line (rh : Char) (rt post : Str)
    (hrw : isWsRx rh = false)
    (hdot : ∀ c ∈ rh :: rt, isDotC c = true)
    (hpost : post = [] ∨ ∃ t', post = '\n' :: t') :
    ∃ L, recTail (chars " | " ++ ((rh :: rt) ++ post)) = some (rh :: rt, L) := by
  have e0 : chars " | " ++ ((rh :: rt) ++ post) = ' ' :: '|' :: ' ' :: (rh :: (rt ++ post)) := by
    simp [chars]
  have e1 : (' ' :: '|' :: ' ' :: (rh :: (rt ++ post))).dropWhile isWsRx
      = '|' :: ' ' :: (rh :: (rt ++ post)) := by
    simp [List.dropWhile_cons, show isWsRx ' ' = true from rfl, show isWsRx '|' = false from rfl]
  have e2 : (' ' :: (rh :: (rt ++ post))).dropWhile isWsRx = rh :: (rt ++ post) := by
    simp [List.dropWhile_cons, show isWsRx ' ' = true from rfl, hrw]
  have e3 : (rh :: (rt ++ post)).takeWhile isDotC = rh :: rt := by
    have := takeWhile_app_all (p := isDotC) (a := rh :: rt) post hdot
    rw [List.cons_append] at this
    rw [this]
    rcases hpost with h | ⟨t', h⟩ <;> subst h
    · simp
    · simp [List.takeWhile_cons, show isDotC '\n' = false from rfl]
  refine ⟨4 + rt.length, ?_⟩
  unfold recTail
  rw [e0, e1]
  simp only [e2, e3, List.isEmpty_cons, Bool.false_eq_true, if_false, Option.some.injEq,
    Prod.mk.injEq, List.length_cons, List.length_append, true_and]
  omega

end StockSense
namespace StockSense

theorem recNumAt_line (ds fr : Str) (rh : Char) (rt post : Str)
    (hds : ds ≠ [])
    (hdsc : ∀ c ∈ ds, (isDigitC c || c = ',') = true)
    (hfr : fr = [] ∨ ∃ fds, fr = '.' :: fds ∧ ∀ c ∈ fds, isDigitC c = true)
    (hrw : isWsRx rh = false)
    (hdot : ∀ c ∈ rh :: rt, isDotC c = true)
    (hpost : post = [] ∨ ∃ t', post = '\n' :: t') :
    ∃ L, recNumAt ((ds ++ fr) ++ (chars " | " ++ ((rh :: rt) ++ post))) ds.length =
      some (ds ++ fr, rh :: rt, L) := by
  obtain ⟨L0, hT⟩ := recTail_line rh rt post hrw hdot hpost
  have e0 : chars " | " ++ ((rh :: rt) ++ post) = ' ' :: '|' :: ' ' :: (rh :: (rt ++ post)) := by
    simp [chars]
  have hdropds : ((ds ++ fr) ++ (chars " | " ++ ((rh :: rt) ++ post))).drop ds.length =
      fr ++ (chars " | " ++ ((rh :: rt) ++ post)) := by
    rw [List.append_assoc, List.drop_left]
  have htakeds : ((ds ++ fr) ++ (chars " | " ++ ((rh :: rt) ++ post))).take ds.length = ds := by
    rw [List.append_assoc, List.take_left]
  rcases hfr with h | ⟨fds, hfds, hdig⟩
  · subst h
    rw [List.append_nil] at hdropds htakeds
    rw [List.nil_append] at hdropds
    refine ⟨ds.length + L0, ?_⟩
    unfold recNumAt
    simp only [List.append_nil]
    rw [hdropds]
    rw [e0] at hT htakeds ⊢
    simp only [hT]
    split
    · rename_i w2 heq
      exact absurd heq (by simp)
    · rw [htakeds]
  · subst hfds
    have hws : List.takeWhile isDigitC (chars " | " ++ ((rh :: rt) ++ post)) = [] := by
      rw [e0]
      rfl
    have hw2 : List.takeWhile isDigitC (fds ++ (chars " | " ++ ((rh :: rt) ++ post))) = fds := by
      rw [takeWhile_app_all _ hdig, hws, List.append_nil]
    have hw2d : (fds ++ (chars " | " ++ ((rh :: rt) ++ post))).drop fds.length =
        chars " | " ++ ((rh :: rt) ++ post) := List.drop_left _ _
    have hw2t : (fds ++ (chars " | " ++ ((rh :: rt) ++ post))).take fds.length = fds :=
      List.take_left _ _
    refine ⟨ds.length + 1 + fds.length + L0, ?_⟩
    unfold recNumAt
    rw [hdropds, List.cons_append]
    simp only [hw2, List.range_succ_eq_map, List.findSome?_cons, Nat.sub_zero, hw2d, hT, hw2t,
      htakeds]

end StockSense
namespace StockSense

theorem recNum_line (ds fr : Str) (rh : Char) (rt post : Str)
    (hds : ds ≠ [])
    (hdsc : ∀ c ∈ ds, (isDigitC c || c = ',') = true)
    (hfr : fr = [] ∨ ∃ fds, fr = '.' :: fds ∧ ∀ c ∈ fds, isDigitC c = true)
    (hrw : isWsRx rh = false)
    (hdot : ∀ c ∈ rh :: rt, isDotC c = true)
    (hpost : post = [] ∨ ∃ t', post = '\n' :: t') :
    ∃ L, recNum ((ds ++ fr) ++ (chars " | " ++ ((rh :: rt) ++ post))) =
      some (ds ++ fr, rh :: rt, L) := by
  obtain ⟨L0, hA⟩ := recNumAt_line ds fr rh rt post hds hdsc hfr hrw hdot hpost
  have e0 : chars " | " ++ ((rh :: rt) ++ post) = ' ' :: '|' :: ' ' :: (rh :: (rt ++ post)) := by
    simp [chars]
  have hrun : dcRun ((ds ++ fr) ++ (chars " | " ++ ((rh :: rt) ++ post))) = ds := by
    unfold dcRun
    rw [List.append_assoc, takeWhile_app_all _ hdsc]
    rcases hfr with h | ⟨fds, hfds, _⟩
    · subst h
      rw [List.nil_append, e0]
      rw [show List.takeWhile (fun c => isDigitC c || decide (c = ','))
          (' ' :: '|' :: ' ' :: rh :: (rt ++ post)) = [] from rfl, List.append_nil]
    · subst hfds
      rw [List.cons_append]
      rw [show ∀ X : Str, List.takeWhile (fun c => isDigitC c || decide (c = ','))
          ('.' :: X) = [] from fun X => rfl, List.append_nil]
  obtain ⟨d, ds', rfl⟩ : ∃ d ds', ds = d :: ds' := by
    cases ds with
    | nil => exact absurd rfl hds
    | cons d ds' => exact ⟨d, ds', rfl⟩
  refine ⟨L0, ?_⟩
  unfold recNum
  rw [hrun]
  simp only [List.isEmpty_cons, Bool.false_eq_true, if_false, List.length_cons,
    List.range_succ_eq_map, List.findSome?_cons, Nat.sub_zero]
  rw [show (d :: ds').length = ds'.length + 1 from rfl] at hA
  rw [hA]

theorem recAfterWord_line (ds fr : Str) (rh : Char) (rt post : Str)
    (hds : ds ≠ [])
    (hdsc : ∀ c ∈ ds, (isDigitC c || c = ',') = true)
    (hfr : fr = [] ∨ ∃ fds, fr = '.' :: fds ∧ ∀ c ∈ fds, isDigitC c = true)
    (hrw : isWsRx rh = false)
    (hdot : ∀ c ∈ rh :: rt, isDotC c = true)
    (hpost : post = [] ∨ ∃ t', post = '\n' :: t') :
    ∃ L, recAfterWord (chars " | " ++ ((ds ++ fr) ++ (chars " | " ++ ((rh :: rt) ++ post)))) =
      some (ds ++ fr, rh :: rt, L) := by
  obtain ⟨L0, hN⟩ := recNum_line ds fr rh rt post hds hdsc hfr hrw hdot hpost
  obtain ⟨d, ds', rfl⟩ : ∃ d ds', ds = d :: ds' := by
    cases ds with
    | nil => exact absurd rfl hds
    | cons d ds' => exact ⟨d, ds', rfl⟩
  have hd : isWsRx d = false := not_ws_of_digitComma (hdsc d (List.mem_cons_self _ _))
  have e1 : chars " | " ++ (((d :: ds') ++ fr) ++ (chars " | " ++ ((rh :: rt) ++ post))) =
      ' ' :: '|' :: ' ' :: (((d :: ds') ++ fr) ++ (chars " | " ++ ((rh :: rt) ++ post))) := by
    simp [chars]
  have e2 : (' ' :: '|' :: ' ' :: (((d :: ds') ++ fr) ++ (chars " | " ++ ((rh :: rt) ++ post)))).dropWhile isWsRx
      = '|' :: ' ' :: (((d :: ds') ++ fr) ++ (chars " | " ++ ((rh :: rt) ++ post))) := by
    simp [List.dropWhile_cons, show isWsRx ' ' = true from rfl, show isWsRx '|' = false from rfl]
  have e3 : (' ' :: (((d :: ds') ++ fr) ++ (chars " | " ++ ((rh :: rt) ++ post)))).dropWhile isWsRx
      = ((d :: ds') ++ fr) ++ (chars " | " ++ ((rh :: rt) ++ post)) := by
    rw [List.cons_append, List.cons_append]
    simp [List.dropWhile_cons, show isWsRx ' ' = true from rfl, hd]
  refine ⟨3 + L0, ?_⟩
  unfold recAfterWord
  rw [e1, e2]
  split
  · rename_i vp heq
    rw [List.cons.injEq] at heq
    obtain ⟨-, hvp⟩ := heq
    subst hvp
    rw [e3, hN]
    simp only [Option.some.injEq, Prod.mk.injEq, true_and, List.length_cons, e3]
    omega
  · rename_i hx
    exact absurd rfl (hx _)

end StockSense
namespace StockSense

theorem fs_cons_some {α β : Type} (f : α → Option β) (a : α) (l : List α) (b : β)
    (h : f a = some b) : List.findSome? f (a :: l) = some b := by
  rw [List.findSome?_cons, h]

theorem recTryAt_line (sigw ds fr : Str) (rh : Char) (rt post : Str)
    (hsig : sigw = chars "STRONG_BUY" ∨ sigw = chars "STRONG_SELL" ∨
      sigw = chars "NEUTRAL" ∨ sigw = chars "WAIT")
    (hds : ds ≠ [])
    (hdsc : ∀ c ∈ ds, (isDigitC c || c = ',') = true)
    (hfr : fr = [] ∨ ∃ fds, fr = '.' :: fds ∧ ∀ c ∈ fds, isDigitC c = true)
    (hrw : isWsRx rh = false)
    (hdot : ∀ c ∈ rh :: rt, isDotC c = true)
    (hpost : post = [] ∨ ∃ t', post = '\n' :: t') :
    ∃ L, recTryAt (chars "FINAL_RECOMMENDATION: " ++
        (sigw ++ (chars " | " ++ ((ds ++ fr) ++ (chars " | " ++ ((rh :: rt) ++ post)))))) =
      some (sigw, ds ++ fr, rh :: rt, L) := by
  obtain ⟨L0, hW⟩ := recAfterWord_line ds fr rh rt post hds hdsc hfr hrw hdot hpost
  generalize hY : chars " | " ++ ((ds ++ fr) ++ (chars " | " ++ ((rh :: rt) ++ post))) = Y at hW ⊢
  rcases hsig with h | h | h | h
  · subst h
    refine ⟨(chars "FINAL_RECOMMENDATION: " ++ (chars "STRONG_BUY" ++ Y)).length
        - (chars "STRONG_BUY" ++ Y).length + (chars "STRONG_BUY").length + L0, ?_⟩
    unfold recTryAt
    rw [show ((chars "FINAL_RECOMMENDATION: " ++ (chars "STRONG_BUY" ++ Y)).drop 21).dropWhile isWsRx
        = chars "STRONG_BUY" ++ Y from rfl]
    simp only [show ciHasPre (chars "FINAL_RECOMMENDATION:")
        (chars "FINAL_RECOMMENDATION: " ++ (chars "STRONG_BUY" ++ Y)) = true from rfl,
      List.findSome?_cons,
      show ciHasPre (chars "STRONG_BUY") (chars "STRONG_BUY" ++ Y) = true from rfl,
      List.drop_left, hW, List.take_left, if_true]
  · subst h
    refine ⟨(chars "FINAL_RECOMMENDATION: " ++ (chars "STRONG_SELL" ++ Y)).length
        - (chars "STRONG_SELL" ++ Y).length + (chars "STRONG_SELL").length + L0, ?_⟩
    unfold recTryAt
    rw [show ((chars "FINAL_RECOMMENDATION: " ++ (chars "STRONG_SELL" ++ Y)).drop 21).dropWhile isWsRx
        = chars "STRONG_SELL" ++ Y from rfl]
    simp only [show ciHasPre (chars "FINAL_RECOMMENDATION:")
        (chars "FINAL_RECOMMENDATION: " ++ (chars "STRONG_SELL" ++ Y)) = true from rfl,
      List.findSome?_cons,
      show ciHasPre (chars "STRONG_BUY") (chars "STRONG_SELL" ++ Y) = false from rfl,
      show ciHasPre (chars "STRONG_SELL") (chars "STRONG_SELL" ++ Y) = true from rfl,
      List.drop_left, hW, List.take_left, if_true, Bool.false_eq_true, if_false]
  · subst h
    refine ⟨(chars "FINAL_RECOMMENDATION: " ++ (chars "NEUTRAL" ++ Y)).length
        - (chars "NEUTRAL" ++ Y).length + (chars "NEUTRAL").length + L0, ?_⟩
    unfold recTryAt
    rw [show ((chars "FINAL_RECOMMENDATION: " ++ (chars "NEUTRAL" ++ Y)).drop 21).dropWhile isWsRx
        = chars "NEUTRAL" ++ Y from rfl]
    simp only [show ciHasPre (chars "FINAL_RECOMMENDATION:")
        (chars "FINAL_RECOMMENDATION: " ++ (chars "NEUTRAL" ++ Y)) = true from rfl,
      List.findSome?_cons,
      show ciHasPre (chars "STRONG_BUY") (chars "NEUTRAL" ++ Y) = false from rfl,
      show ciHasPre (chars "STRONG_SELL") (chars "NEUTRAL" ++ Y) = false from rfl,
      show ciHasPre (chars "NEUTRAL") (chars "NEUTRAL" ++ Y) = true from rfl,
      List.drop_left, hW, List.take_left, if_true, Bool.false_eq_true, if_false]
  · subst h
    refine ⟨(chars "FINAL_RECOMMENDATION: " ++ (chars "WAIT" ++ Y)).length
        - (chars "WAIT" ++ Y).length + (chars "WAIT").length + L0, ?_⟩
    unfold recTryAt
    rw [show ((chars "FINAL_RECOMMENDATION: " ++ (chars "WAIT" ++ Y)).drop 21).dropWhile isWsRx
        = chars "WAIT" ++ Y from rfl]
    simp only [show ciHasPre (chars "FINAL_RECOMMENDATION:")
        (chars "FINAL_RECOMMENDATION: " ++ (chars "WAIT" ++ Y)) = true from rfl,
      List.findSome?_cons,
      show ciHasPre (chars "STRONG_BUY") (chars "WAIT" ++ Y) = false from rfl,
      show ciHasPre (chars "STRONG_SELL") (chars "WAIT" ++ Y) = false from rfl,
      show ciHasPre (chars "NEUTRAL") (chars "WAIT" ++ Y) = false from rfl,
      show ciHasPre (chars "WAIT") (chars "WAIT" ++ Y) = true from rfl,
      List.drop_left, hW, List.take_left, if_true, Bool.false_eq_true, if_false]

end StockSense
namespace StockSense

theorem recTryAt_gate_false (s : Str)
    (h : ciHasPre (chars "FINAL_RECOMMENDATION:") s = false) : recTryAt s = none := by
  unfold recTryAt
  rw [h]
  rfl

theorem recScan_of_tryAt (s : Str) (a b d : Str) (L : Nat)
    (h : recTryAt s = some (a, b, d, L)) : recScan s = some (a, b, d) := by
  cases s with
  | nil =>
    rw [show recTryAt ([] : Str) = none from rfl] at h
    exact Option.noConfusion h
  | cons c r =>
    simp only [recScan, h]

theorem recScan_cons_none (c : Char) (r : Str) (h : recTryAt (c :: r) = none) :
    recScan (c :: r) = recScan r := by
  simp only [recScan, h]

theorem recScan_skip (pre rest : Str)
    (h : ∀ i, i < pre.length →
      ciHasPre (chars "FINAL_RECOMMENDATION:") (pre.drop i ++ rest) = false) :
    recScan (pre ++ rest) = recScan rest := by
  induction pre with
  | nil => rfl
  | cons c p IH =>
    have h0 : ciHasPre (chars "FINAL_RECOMMENDATION:") (c :: (p ++ rest)) = false :=
      h 0 (Nat.succ_pos _)
    show recScan (c :: (p ++ rest)) = recScan rest
    rw [recScan_cons_none _ _ (recTryAt_gate_false _ h0)]
    exact IH fun i hi => h (i + 1) (Nat.succ_lt_succ hi)

theorem recScan_none (t : Str)
    (h : ∀ i, ciHasPre (chars "FINAL_RECOMMENDATION:") (t.drop i) = false) :
    recScan t = none := by
  induction t with
  | nil => rfl
  | cons c r IH =>
    have h0 : ciHasPre (chars "FINAL_RECOMMENDATION:") (c :: r) = false := h 0
    rw [recScan_cons_none _ _ (recTryAt_gate_false _ h0)]
    exact IH fun i => h (i + 1)

end StockSense
namespace StockSense

/-- C8: a text built from any prefix containing no occurrence of the
recommendation marker, followed by a structured
`FINAL_RECOMMENDATION: <SIGNAL> | <number> | <reason>` line, yields exactly
that recommendation (signal as matched, the number capture `parseFloat`-ed
with commas stripped, the reason trimmed); and a text containing no
occurrence of the marker yields no recommendation and no error. -/
theorem claim_C8 :
    (∀ (buy : ℚ) (chartText : Str) (chunks : List (Option WebChunk))
        (pre sigw ds fr : Str) (rh : Char) (rt post : Str),
      (sigw = chars "STRONG_BUY" ∨ sigw = chars "STRONG_SELL" ∨
        sigw = chars "NEUTRAL" ∨ sigw = chars "WAIT") →
      (∀ i, i < pre.length → ciHasPre (chars "FINAL_RECOMMENDATION:")
        ((pre ++ (chars "FINAL_RECOMMENDATION: " ++ (sigw ++ (chars " | " ++
          ((ds ++ fr) ++ (chars " | " ++ ((rh :: rt) ++ post))))))).drop i) = false) →
      ds ≠ [] →
      (∀ c ∈ ds, (isDigitC c || c = ',') = true) →
      (fr = [] ∨ ∃ fds, fr = '.' :: fds ∧ ∀ c ∈ fds, isDigitC c = true) →
      isWsRx rh = false →
      (∀ c ∈ rh :: rt, isDotC c = true) →
      (post = [] ∨ ∃ t', post = '\n' :: t') →
      (analyzeCoreGs buy (pre ++ (chars "FINAL_RECOMMENDATION: " ++ (sigw ++ (chars " | " ++
          ((ds ++ fr) ++ (chars " | " ++ ((rh :: rt) ++ post))))))) chartText chunks).recommendation =
        some ⟨sigw, parseFloatQ ((ds ++ fr).filter fun c => c ≠ ','), jsTrim (rh :: rt)⟩) ∧
    (∀ (buy : ℚ) (chartText : Str) (chunks : List (Option WebChunk)) (t : Str),
      (∀ i, ciHasPre (chars "FINAL_RECOMMENDATION:") (t.drop i) = false) →
      (analyzeCoreGs buy t chartText chunks).recommendation = none) := by
  constructor
  · intro buy chartText chunks pre sigw ds fr rh rt post hsig hpre hds hdsc hfr hrw hdot hpost
    obtain ⟨L, hTry⟩ := recTryAt_line sigw ds fr rh rt post hsig hds hdsc hfr hrw hdot hpost
    have hpre' : ∀ i, i < pre.length → ciHasPre (chars "FINAL_RECOMMENDATION:")
        (pre.drop i ++ (chars "FINAL_RECOMMENDATION: " ++ (sigw ++ (chars " | " ++
          ((ds ++ fr) ++ (chars " | " ++ ((rh :: rt) ++ post))))))) = false := by
      intro i hi
      have h2 := hpre i hi
      rwa [List.drop_append_of_le_length (Nat.le_of_lt hi)] at h2
    have hscan : recScan (pre ++ (chars "FINAL_RECOMMENDATION: " ++ (sigw ++ (chars " | " ++
        ((ds ++ fr) ++ (chars " | " ++ ((rh :: rt) ++ post))))))) =
        some (sigw, ds ++ fr, rh :: rt) := by
      rw [recScan_skip _ _ hpre']
      exact recScan_of_tryAt _ _ _ _ _ hTry
    have hne : pre ++ (chars "FINAL_RECOMMENDATION: " ++ (sigw ++ (chars " | " ++
        ((ds ++ fr) ++ (chars " | " ++ ((rh :: rt) ++ post)))))) ≠ [] := by
      intro hE
      have h3 := congrArg List.length hE
      rw [List.length_append, List.length_append,
        show (chars "FINAL_RECOMMENDATION: ").length = 22 from rfl, List.length_nil] at h3
      omega
    have hrec : (analyzeCoreGs buy (pre ++ (chars "FINAL_RECOMMENDATION: " ++ (sigw ++ (chars " | " ++
        ((ds ++ fr) ++ (chars " | " ++ ((rh :: rt) ++ post))))))) chartText chunks).recommendation =
        recOf (if pre ++ (chars "FINAL_RECOMMENDATION: " ++ (sigw ++ (chars " | " ++
          ((ds ++ fr) ++ (chars " | " ++ ((rh :: rt) ++ post)))))) = []
        then chars "No analysis available."
        else pre ++ (chars "FINAL_RECOMMENDATION: " ++ (sigw ++ (chars " | " ++
          ((ds ++ fr) ++ (chars " | " ++ ((rh :: rt) ++ post))))))) := rfl
    rw [hrec, if_neg hne]
    unfold recOf
    rw [hscan]
    rcases hsig with h | h | h | h <;> subst h <;> rfl
  · intro buy chartText chunks t hmark
    have hrec : (analyzeCoreGs buy t chartText chunks).recommendation =
        recOf (if t = [] then chars "No analysis available." else t) := rfl
    rw [hrec]
    cases t with
    | nil => rfl
    | cons c r =>
      rw [if_neg (List.cons_ne_nil c r)]
      unfold recOf
      rw [recScan_none _ hmark]

end StockSense
namespace StockSense

unseal Rat.add Rat.mul Rat.inv Rat.sub in
theorem claim_C8_witness :
    (analyzeCoreGs 0 (chars "FINAL_RECOMMENDATION: STRONG_BUY | 1,250.75 | strong earnings")
        (chars "[]") []).recommendation =
      some ⟨chars "STRONG_BUY", some ((5003 : ℚ) / 4), chars "strong earnings"⟩ := by
  have h := claim_C8.1 0 (chars "[]") [] [] (chars "STRONG_BUY") (chars "1,250") (chars ".75")
    's' (chars "trong earnings") [] (Or.inl rfl) (fun i hi => absurd hi (Nat.not_lt_zero i))
    (by decide) (by decide) (Or.inr ⟨chars "75", rfl, by decide⟩) rfl (by decide) (Or.inl rfl)
  rw [show (([] : Str) ++ (chars "FINAL_RECOMMENDATION: " ++ (chars "STRONG_BUY" ++ (chars " | " ++
      ((chars "1,250" ++ chars ".75") ++ (chars " | " ++ (('s' :: chars "trong earnings") ++ ([] : Str)))))))) =
    chars "FINAL_RECOMMENDATION: STRONG_BUY | 1,250.75 | strong earnings" from rfl] at h
  rw [h]
  decide

end StockSense
namespace StockSense

theorem lowerS_nil_inv (w : Str) (h : lowerS w = []) : w = [] := by
  cases w with
  | nil => rfl
  | cons a as => exact absurd h (by simp [lowerS])

theorem lowerS_cons_inv (w : Str) (c : Char) (cs : Str) (h : lowerS w = c :: cs) :
    ∃ a as, w = a :: as ∧ lowerC a = c ∧ lowerS as = cs := by
  cases w with
  | nil => exact absurd h (by simp [lowerS])
  | cons a as =>
    simp only [lowerS, List.map_cons, List.cons.injEq] at h
    exact ⟨a, as, rfl, h.1, h.2⟩

theorem lowerS_concat_inv (w : Str) (cs : Str) (d : Char) (h : lowerS w = cs ++ [d]) :
    ∃ r c, w = r ++ [c] ∧ lowerC c = d := by
  induction w generalizing cs with
  | nil => exact absurd h (by simp [lowerS])
  | cons a as IH =>
    cases cs with
    | nil =>
      simp only [lowerS, List.map_cons, List.nil_append, List.cons.injEq] at h
      have has : as = [] := lowerS_nil_inv as h.2
      exact ⟨[], a, by rw [has, List.nil_append], h.1⟩
    | cons c' cs' =>
      simp only [lowerS, List.map_cons, List.cons_append, List.cons.injEq] at h
      obtain ⟨r, c, hw, hc⟩ := IH cs' h.2
      exact ⟨a :: r, c, by rw [hw, List.cons_append], hc⟩

theorem lowerS_length (s : Str) : (lowerS s).length = s.length := by
  simp [lowerS]

theorem ws_lowerC (c : Char) (h : isWsRx c = true) : lowerC c = c := by
  unfold lowerC
  split
  · rename_i h65
    exfalso
    simp only [isWsRx, isJsSpace, isWsJson, Bool.or_eq_true, decide_eq_true_eq] at h
    omega
  · rfl

theorem notWs_of_lowerC_notWs (c d : Char) (h : lowerC c = d) (hd : isWsRx d = false) :
    isWsRx c = false := by
  cases hws : isWsRx c
  · rfl
  · rw [ws_lowerC c hws] at h
    subst h
    rw [hws] at hd
    exact Bool.noConfusion hd

theorem ciHasPre_of_lowerS (m s u : Str) (h : lowerS s = lowerS m) :
    ciHasPre m (s ++ u) = true := by
  refine (ciHasPre_iff m (s ++ u)).mpr ⟨lowerS u, ?_⟩
  simp only [lowerS, List.map_append] at h ⊢
  rw [h]

theorem ciHasPre_ne_at (m s u p : Str) (a b : Char) (as bs : Str)
    (hm : lowerS m = p ++ a :: as) (hs : lowerS s = p ++ b :: bs) (hne : b ≠ a) :
    ciHasPre m (s ++ u) = false := by
  cases hP : ciHasPre m (s ++ u)
  · rfl
  · exfalso
    obtain ⟨v, hv⟩ := (ciHasPre_iff _ _).mp hP
    rw [show lowerS (s ++ u) = lowerS s ++ lowerS u from by simp [lowerS], hs, hm,
      List.append_assoc, List.append_assoc] at hv
    have h2 := List.append_cancel_left hv
    rw [List.cons_append, List.cons_append, List.cons.injEq] at h2
    exact hne h2.1

theorem findSome?_map' {α β γ : Type} (g : α → β) (f : β → Option γ) (l : List α) :
    (l.map g).findSome? f = l.findSome? (f ∘ g) := by
  induction l with
  | nil => rfl
  | cons a l IH =>
    rw [List.map_cons, List.findSome?_cons, List.findSome?_cons]
    simp only [Function.comp_apply]
    cases hfa : f (g a) with
    | none => exact IH
    | some b => rfl

theorem findSome?_range_eq {β : Type} (k : Nat) (n : Nat) (F : Nat → Option β) (v : β)
    (hk : k < n) (hfail : ∀ j, j < k → F j = none) (hsucc : F k = some v) :
    (List.range n).findSome? F = some v := by
  induction k generalizing n F with
  | zero =>
    cases n with
    | zero => exact absurd hk (Nat.lt_irrefl 0)
    | succ m =>
      rw [List.range_succ_eq_map, List.findSome?_cons, hsucc]
  | succ k' IH =>
    cases n with
    | zero => exact absurd hk (Nat.not_lt_zero _)
    | succ m =>
      rw [List.range_succ_eq_map, List.findSome?_cons, hfail 0 (Nat.succ_pos _),
        findSome?_map']
      exact IH m (F ∘ Nat.succ) (Nat.lt_of_succ_lt_succ hk)
        (fun j hj => hfail (j + 1) (Nat.succ_lt_succ hj)) hsucc

theorem last_mem_drop (r : Str) (c : Char) (i : Nat) (hi : i < (r ++ [c]).length) :
    c ∈ (r ++ [c]).drop i := by
  have hle : i ≤ r.length := by
    rw [List.length_append, List.length_cons, List.length_nil] at hi
    omega
  rw [List.drop_append_of_le_length hle]
  exact List.mem_append_right _ (List.mem_singleton.mpr rfl)

theorem dropWhile_suffix_head (x R : Str) (i : Nat) (hi : i < x.length)
    (hlast : ∃ r c, x = r ++ [c] ∧ isWsRx c = false)
    (hpipe : ∀ c ∈ x, c ≠ '|') :
    ∃ y ys, (x.drop i ++ R).dropWhile isWsRx = y :: ys ∧ y ≠ '|' := by
  obtain ⟨r, c, rfl, hc⟩ := hlast
  have hmem : c ∈ (r ++ [c]).drop i := last_mem_drop r c i hi
  have hne : ((r ++ [c]).drop i).dropWhile isWsRx ≠ [] := by
    intro hE
    have hall := List.dropWhile_eq_nil_iff.mp hE c hmem
    rw [hc] at hall
    exact Bool.noConfusion hall
  rw [dropWhile_app_ne R hne]
  cases hd : ((r ++ [c]).drop i).dropWhile isWsRx with
  | nil => exact absurd hd hne
  | cons y ys =>
    refine ⟨y, ys ++ R, by rw [List.cons_append], ?_⟩
    have h1 : y ∈ ((r ++ [c]).drop i).dropWhile isWsRx := by
      rw [hd]; exact List.mem_cons_self y ys
    have h2 : y ∈ (r ++ [c]).drop i := (List.dropWhile_sublist _).subset h1
    exact hpipe y (List.drop_subset i _ h2)

theorem newsSent_none_of_head (a2 : Str)
    (h : ∃ y ys, a2.dropWhile isWsRx = y :: ys ∧ y ≠ '|') :
    newsSent a2 = none := by
  obtain ⟨y, ys, hd, hy⟩ := h
  unfold newsSent
  rw [hd]
  split
  · rename_i heq
    rw [List.cons.injEq] at heq
    exact absurd heq.1 hy
  · rfl

end StockSense
namespace StockSense

theorem newsSent_line (W post : Str) (hs : sentOK W) :
    newsSent (chars " | " ++ (W ++ post)) = some (W, 3 + W.length) := by
  have e1 : (chars " | " ++ (W ++ post)).dropWhile isWsRx = '|' :: (' ' :: (W ++ post)) := rfl
  rcases hs with hW | hW | hW
  · obtain ⟨w0, W1, rfl, h0, hrest⟩ := lowerS_cons_inv W 'p' (chars "ositive") hW
    have hw0 : isWsRx w0 = false := notWs_of_lowerC_notWs w0 'p' h0 (by decide)
    have hlen : (w0 :: W1).length = 8 := by rw [← lowerS_length, hW]; rfl
    have e2 : (' ' :: ((w0 :: W1) ++ post)).dropWhile isWsRx = (w0 :: W1) ++ post := by
      rw [show (' ' :: ((w0 :: W1) ++ post)).dropWhile isWsRx
          = ((w0 :: W1) ++ post).dropWhile isWsRx from rfl, List.cons_append,
        dropWhile_cons_of_neg _ hw0]
    have f1 : ciHasPre (chars "Positive") ((w0 :: W1) ++ post) = true :=
      ciHasPre_of_lowerS _ _ _ hW
    have tk : ((w0 :: W1) ++ post).take (chars "Positive").length = w0 :: W1 := by
      rw [show (chars "Positive").length = (w0 :: W1).length from by rw [hlen]; rfl,
        List.take_left]
    unfold newsSent
    rw [e1]
    split
    · rename_i t2 heq
      rw [List.cons.injEq] at heq
      obtain ⟨-, hvp⟩ := heq
      subst hvp
      rw [e2]
      simp only [List.findSome?_cons, f1, if_true, tk, Option.some.injEq, Prod.mk.injEq,
        true_and]
      rw [show (chars " | " ++ ((w0 :: W1) ++ post)).length
          = 3 + ((w0 :: W1).length + post.length) from by
        rw [List.length_append, List.length_append,
          show (chars " | ").length = 3 from rfl]]
      simp only [List.length_append]
      rw [show (chars "Positive").length = 8 from rfl]
      omega
    · rename_i hx
      exact absurd rfl (hx _)
  · obtain ⟨w0, W1, rfl, h0, hrest⟩ := lowerS_cons_inv W 'n' (chars "egative") hW
    have hw0 : isWsRx w0 = false := notWs_of_lowerC_notWs w0 'n' h0 (by decide)
    have hlen : (w0 :: W1).length = 8 := by rw [← lowerS_length, hW]; rfl
    have e2 : (' ' :: ((w0 :: W1) ++ post)).dropWhile isWsRx = (w0 :: W1) ++ post := by
      rw [show (' ' :: ((w0 :: W1) ++ post)).dropWhile isWsRx
          = ((w0 :: W1) ++ post).dropWhile isWsRx from rfl, List.cons_append,
        dropWhile_cons_of_neg _ hw0]
    have f1 : ciHasPre (chars "Positive") ((w0 :: W1) ++ post) = false :=
      ciHasPre_ne_at _ _ post [] 'p' 'n' (chars "ositive") (chars "egative") rfl hW (by decide)
    have f2 : ciHasPre (chars "Negative") ((w0 :: W1) ++ post) = true :=
      ciHasPre_of_lowerS _ _ _ hW
    have tk : ((w0 :: W1) ++ post).take (chars "Negative").length = w0 :: W1 := by
      rw [show (chars "Negative").length = (w0 :: W1).length from by rw [hlen]; rfl,
        List.take_left]
    unfold newsSent
    rw [e1]
    split
    · rename_i t2 heq
      rw [List.cons.injEq] at heq
      obtain ⟨-, hvp⟩ := heq
      subst hvp
      rw [e2]
      simp only [List.findSome?_cons, f1, f2, Bool.false_eq_true, if_true, if_false, tk,
        Option.some.injEq, Prod.mk.injEq, true_and]
      rw [show (chars " | " ++ ((w0 :: W1) ++ post)).length
          = 3 + ((w0 :: W1).length + post.length) from by
        rw [List.length_append, List.length_append,
          show (chars " | ").length = 3 from rfl]]
      simp only [List.length_append]
      rw [show (chars "Negative").length = 8 from rfl]
      omega
    · rename_i hx
      exact absurd rfl (hx _)
  · obtain ⟨w0, W1, rfl, h0, hrest⟩ := lowerS_cons_inv W 'n' (chars "eutral") hW
    have hw0 : isWsRx w0 = false := notWs_of_lowerC_notWs w0 'n' h0 (by decide)
    have hlen : (w0 :: W1).length = 7 := by rw [← lowerS_length, hW]; rfl
    have e2 : (' ' :: ((w0 :: W1) ++ post)).dropWhile isWsRx = (w0 :: W1) ++ post := by
      rw [show (' ' :: ((w0 :: W1) ++ post)).dropWhile isWsRx
          = ((w0 :: W1) ++ post).dropWhile isWsRx from rfl, List.cons_append,
        dropWhile_cons_of_neg _ hw0]
    have f1 : ciHasPre (chars "Positive") ((w0 :: W1) ++ post) = false :=
      ciHasPre_ne_at _ _ post [] 'p' 'n' (chars "ositive") (chars "eutral") rfl hW (by decide)
    have f2 : ciHasPre (chars "Negative") ((w0 :: W1) ++ post) = false :=
      ciHasPre_ne_at _ _ post (chars "ne") 'g' 'u' (chars "ative") (chars "tral") rfl hW
        (by decide)
    have f3 : ciHasPre (chars "Neutral") ((w0 :: W1) ++ post) = true :=
      ciHasPre_of_lowerS _ _ _ hW
    have tk : ((w0 :: W1) ++ post).take (chars "Neutral").length = w0 :: W1 := by
      rw [show (chars "Neutral").length = (w0 :: W1).length from by rw [hlen]; rfl,
        List.take_left]
    unfold newsSent
    rw [e1]
    split
    · rename_i t2 heq
      rw [List.cons.injEq] at heq
      obtain ⟨-, hvp⟩ := heq
      subst hvp
      rw [e2]
      simp only [List.findSome?_cons, f1, f2, f3, Bool.false_eq_true, if_true, if_false, tk,
        Option.some.injEq, Prod.mk.injEq, true_and]
      rw [show (chars " | " ++ ((w0 :: W1) ++ post)).length
          = 3 + ((w0 :: W1).length + post.length) from by
        rw [List.length_append, List.length_append,
          show (chars " | ").length = 3 from rfl]]
      simp only [List.length_append]
      rw [show (chars "Neutral").length = 7 from rfl]
      omega
    · rename_i hx
      exact absurd rfl (hx _)

end StockSense
namespace StockSense

theorem newsCap2_line (S W post : Str) (hS : fieldOK S) (hs : sentOK W) :
    newsCap2 (S ++ (chars " | " ++ (W ++ post))) = some (S, W, S.length + (3 + W.length)) := by
  obtain ⟨hchars, ⟨s0, S1, hhead, hws0⟩, hlast⟩ := hS
  have hpos : 0 < S.length := by rw [hhead]; simp
  unfold newsCap2
  refine findSome?_range_eq (S.length - 1) _ _ _ ?_ (fun j hj => ?_) ?_
  · rw [takeWhile_app_all _ (fun c hc => (hchars c hc).1), List.length_append]
    omega
  · beta_reduce
    rw [List.drop_append_of_le_length (by omega : j + 1 ≤ S.length)]
    rw [newsSent_none_of_head _ (dropWhile_suffix_head S _ (j + 1) (by omega) hlast
      (fun c hc => (hchars c hc).2))]
  · beta_reduce
    rw [show S.length - 1 + 1 = S.length from by omega]
    rw [List.drop_left, List.take_left]
    rw [newsSent_line W post hs]

end StockSense
namespace StockSense

theorem newsAfterPipe_line (S W post : Str) (hS : fieldOK S) (hs : sentOK W) :
    newsAfterPipe (' ' :: (S ++ (chars " | " ++ (W ++ post)))) =
      some (S, W, 1 + (S.length + (3 + W.length))) := by
  have hrun : (' ' :: (S ++ (chars " | " ++ (W ++ post)))).takeWhile isWsRx = [' '] := by
    rw [show (' ' :: (S ++ (chars " | " ++ (W ++ post)))).takeWhile isWsRx
        = ' ' :: ((S ++ (chars " | " ++ (W ++ post))).takeWhile isWsRx) from rfl]
    obtain ⟨s0, S1, hhead, hws0⟩ := hS.2.1
    rw [hhead, List.cons_append]
    simp only [List.takeWhile_cons, hws0, Bool.false_eq_true, if_false]
  unfold newsAfterPipe
  rw [hrun]
  refine findSome?_range_eq 0 _ _ _ (Nat.succ_pos _) (fun j hj => absurd hj (Nat.not_lt_zero j)) ?_
  beta_reduce
  rw [show ([' '] : Str).length - 0 = 1 from rfl,
    show (' ' :: (S ++ (chars " | " ++ (W ++ post)))).drop 1 = S ++ (chars " | " ++ (W ++ post)) from rfl,
    newsCap2_line S W post hS hs]

end StockSense
namespace StockSense

theorem newsCap1_line (H S W post : Str) (hH : fieldOK H) (hS : fieldOK S) (hs : sentOK W) :
    newsCap1 (H ++ (chars " | " ++ (S ++ (chars " | " ++ (W ++ post))))) =
      some (H, S, W, H.length + 2 + (1 + (S.length + (3 + W.length)))) := by
  obtain ⟨hchars, ⟨h0, H1, hhead, hwh0⟩, hlast⟩ := hH
  have hpos : 0 < H.length := by rw [hhead]; simp
  unfold newsCap1
  refine findSome?_range_eq (H.length - 1) _ _ _ ?_ (fun j hj => ?_) ?_
  · rw [takeWhile_app_all _ (fun c hc => (hchars c hc).1), List.length_append]
    omega
  · beta_reduce
    rw [List.drop_append_of_le_length (by omega : j + 1 ≤ H.length)]
    obtain ⟨y, ys, hd, hy⟩ := dropWhile_suffix_head H _ (j + 1) (by omega) hlast
      (fun c hc => (hchars c hc).2)
    rw [hd]
    split
    · rename_i heq
      rw [List.cons.injEq] at heq
      exact absurd heq.1 hy
    · rfl
  · beta_reduce
    rw [show H.length - 1 + 1 = H.length from by omega, List.drop_left, List.take_left,
      show (chars " | " ++ (S ++ (chars " | " ++ (W ++ post)))).dropWhile isWsRx
        = '|' :: (' ' :: (S ++ (chars " | " ++ (W ++ post)))) from rfl]
    split
    · rename_i q2 heq
      rw [List.cons.injEq] at heq
      obtain ⟨-, hvp⟩ := heq
      subst hvp
      rw [newsAfterPipe_line S W post hS hs]
      simp only [Option.some.injEq, Prod.mk.injEq, true_and]
      rw [List.length_append, List.length_cons,
        show (chars " | ").length = 3 from rfl]
      omega
    · rename_i hx
      exact absurd rfl (hx _)

end StockSense
namespace StockSense

theorem newsTryAt_line (H S W post : Str) (hH : fieldOK H) (hS : fieldOK S) (hs : sentOK W) :
    newsTryAt (chars "NEWS_ITEM: " ++ (H ++ (chars " | " ++ (S ++ (chars " | " ++ (W ++ post)))))) =
      some (H, S, W, 10 + 1 + (H.length + 2 + (1 + (S.length + (3 + W.length))))) := by
  have d10 : (chars "NEWS_ITEM: " ++ (H ++ (chars " | " ++ (S ++ (chars " | " ++ (W ++ post)))))).drop 10
      = ' ' :: (H ++ (chars " | " ++ (S ++ (chars " | " ++ (W ++ post))))) := rfl
  have hrun : (' ' :: (H ++ (chars " | " ++ (S ++ (chars " | " ++ (W ++ post)))))).takeWhile isWsRx
      = [' '] := by
    rw [show (' ' :: (H ++ (chars " | " ++ (S ++ (chars " | " ++ (W ++ post)))))).takeWhile isWsRx
        = ' ' :: ((H ++ (chars " | " ++ (S ++ (chars " | " ++ (W ++ post))))).takeWhile isWsRx) from rfl]
    obtain ⟨h0, H1, hhead, hwh0⟩ := hH.2.1
    rw [hhead, List.cons_append]
    simp only [List.takeWhile_cons, hwh0, Bool.false_eq_true, if_false]
  unfold newsTryAt
  rw [d10, hrun]
  simp only [show ciHasPre (chars "NEWS_ITEM:")
      (chars "NEWS_ITEM: " ++ (H ++ (chars " | " ++ (S ++ (chars " | " ++ (W ++ post)))))) = true
      from rfl, if_true]
  refine findSome?_range_eq 0 _ _ _ (Nat.succ_pos _) (fun j hj => absurd hj (Nat.not_lt_zero j)) ?_
  beta_reduce
  rw [show ([' '] : Str).length - 0 = 1 from rfl,
    show (' ' :: (H ++ (chars " | " ++ (S ++ (chars " | " ++ (W ++ post)))))).drop 1
      = H ++ (chars " | " ++ (S ++ (chars " | " ++ (W ++ post)))) from rfl,
    newsCap1_line H S W post hH hS hs]

end StockSense
namespace StockSense

theorem newsFindIdx_none (t : Str) (h : ∀ i, i < t.length → newsTryAt (t.drop i) = none) :
    newsFindIdx t = none := by
  induction t with
  | nil => rfl
  | cons c r IH =>
    have h0 : newsTryAt (c :: r) = none := h 0 (by simp)
    simp only [newsFindIdx, h0]
    rw [IH (fun i hi => h (i + 1) (by rw [List.length_cons]; omega))]

theorem newsFindIdx_skip (j rest : Str) (a b d : Str) (L : Nat)
    (h : ∀ i, i < j.length → newsTryAt (j.drop i ++ rest) = none)
    (hr : newsTryAt rest = some (a, b, d, L)) :
    newsFindIdx (j ++ rest) = some (j.length, a, b, d, L) := by
  induction j with
  | nil =>
    cases rest with
    | nil =>
      rw [show newsTryAt ([] : Str) = none from rfl] at hr
      exact Option.noConfusion hr
    | cons c r =>
      show newsFindIdx (c :: r) = some (0, a, b, d, L)
      simp only [newsFindIdx, hr]
  | cons c j' IH =>
    have h0 : newsTryAt (c :: (j' ++ rest)) = none := h 0 (by simp)
    show newsFindIdx (c :: (j' ++ rest)) = some ((c :: j').length, a, b, d, L)
    simp only [newsFindIdx, h0]
    rw [IH (fun i hi => h (i + 1) (by rw [List.length_cons]; omega))]
    simp only [List.length_cons]

theorem newsExecA_build (segs : List (Str × Str × Str × Str)) (tail : Str) :
    ∀ fuel, (newsBuild segs tail).length < fuel →
    (∀ g ∈ segs, fieldOK g.2.1 ∧ fieldOK g.2.2.1 ∧ sentOK g.2.2.2) →
    (∀ pre g suf, segs = pre ++ g :: suf → ∀ i, i < g.1.length →
      newsTryAt ((newsBuild (g :: suf) tail).drop i) = none) →
    (∀ i, i < tail.length → newsTryAt (tail.drop i) = none) →
    newsExecA fuel (newsBuild segs tail) = segs.map fun g => (g.2.1, g.2.2.1, g.2.2.2) := by
  induction segs with
  | nil =>
    intro fuel hfuel hfield hjunk htail
    cases fuel with
    | zero => exact absurd hfuel (by omega)
    | succ f =>
      show newsExecA (f + 1) tail = []
      simp only [newsExecA, newsFindIdx_none tail htail]
  | cons g segs' IH =>
    obtain ⟨j, H, S, W⟩ := g
    intro fuel hfuel hfield hjunk htail
    cases fuel with
    | zero => exact absurd hfuel (by omega)
    | succ f =>
      have hfg := hfield (j, H, S, W) (List.mem_cons_self _ _)
      have hline := newsTryAt_line H S W (newsBuild segs' tail) hfg.1 hfg.2.1 hfg.2.2
      have hjk : ∀ i, i < j.length →
          newsTryAt (j.drop i ++ (chars "NEWS_ITEM: " ++ (H ++ (chars " | " ++
            (S ++ (chars " | " ++ (W ++ newsBuild segs' tail))))))) = none := by
        intro i hi
        have h2 := hjunk [] (j, H, S, W) segs' rfl i hi
        rwa [show newsBuild ((j, H, S, W) :: segs') tail = j ++ (chars "NEWS_ITEM: " ++
            (H ++ (chars " | " ++ (S ++ (chars " | " ++ (W ++ newsBuild segs' tail)))))) from rfl,
          List.drop_append_of_le_length (Nat.le_of_lt hi)] at h2
      have hfind := newsFindIdx_skip j _ H S W _ hjk hline
      show newsExecA (f + 1) (j ++ (chars "NEWS_ITEM: " ++ (H ++ (chars " | " ++
          (S ++ (chars " | " ++ (W ++ newsBuild segs' tail))))))) =
        (H, S, W) :: (segs'.map fun g => (g.2.1, g.2.2.1, g.2.2.2))
      simp only [newsExecA, hfind]
      have hsplit : j ++ (chars "NEWS_ITEM: " ++ (H ++ (chars " | " ++
          (S ++ (chars " | " ++ (W ++ newsBuild segs' tail)))))) =
          (j ++ (chars "NEWS_ITEM: " ++ (H ++ (chars " | " ++ (S ++ (chars " | " ++ W))))))
            ++ newsBuild segs' tail := by
        simp [List.append_assoc]
      rw [hsplit,
        show j.length + (10 + 1 + (H.length + 2 + (1 + (S.length + (3 + W.length)))))
          = (j ++ (chars "NEWS_ITEM: " ++ (H ++ (chars " | " ++ (S ++ (chars " | " ++ W)))))).length
        from by
          simp only [List.length_append, show (chars "NEWS_ITEM: ").length = 11 from rfl,
            show (chars " | ").length = 3 from rfl]
          omega,
        List.drop_left]
      rw [IH f ?_ (fun g hg => hfield g (List.mem_cons_of_mem _ hg))
        (fun pre g' suf hsegs => hjunk ((j, H, S, W) :: pre) g' suf
          (by rw [hsegs, List.cons_append])) htail]
      have hlen := hfuel
      rw [show newsBuild ((j, H, S, W) :: segs') tail = j ++ (chars "NEWS_ITEM: " ++
          (H ++ (chars " | " ++ (S ++ (chars " | " ++ (W ++ newsBuild segs' tail)))))) from rfl] at hlen
      simp only [List.length_append, show (chars "NEWS_ITEM: ").length = 11 from rfl,
        show (chars " | ").length = 3 from rfl] at hlen
      omega

end StockSense
namespace StockSense

theorem jsTrim_eq_self (x : Str) (hh : ∃ c r, x = c :: r ∧ isWsRx c = false)
    (hl : ∃ r c, x = r ++ [c] ∧ isWsRx c = false) : jsTrim x = x := by
  obtain ⟨c, r, hx, hc⟩ := hh
  obtain ⟨r', c', hx', hc'⟩ := hl
  have hcJ : isJsSpace c = false := hc
  have hcJ' : isJsSpace c' = false := hc'
  have h1 : jsTrimLeft x = x := by
    unfold jsTrimLeft
    rw [hx]
    exact dropWhile_cons_of_neg _ hcJ
  have h2 : jsTrimRight x = x := by
    unfold jsTrimRight
    rw [hx', List.reverse_append, show ([c'] : Str).reverse = [c'] from rfl,
      List.singleton_append, dropWhile_cons_of_neg _ hcJ', List.reverse_cons,
      List.reverse_reverse]
  unfold jsTrim
  rw [h1, h2]

theorem sent_trim (W : Str) (hs : sentOK W) : jsTrim W = W := by
  rcases hs with hW | hW | hW
  · obtain ⟨w0, W1, hx, h0, -⟩ := lowerS_cons_inv W 'p' (chars "ositive") hW
    obtain ⟨r, c, hx', hc⟩ := lowerS_concat_inv W (chars "positiv") 'e' hW
    exact jsTrim_eq_self W ⟨w0, W1, hx, notWs_of_lowerC_notWs _ _ h0 (by decide)⟩
      ⟨r, c, hx', notWs_of_lowerC_notWs _ _ hc (by decide)⟩
  · obtain ⟨w0, W1, hx, h0, -⟩ := lowerS_cons_inv W 'n' (chars "egative") hW
    obtain ⟨r, c, hx', hc⟩ := lowerS_concat_inv W (chars "negativ") 'e' hW
    exact jsTrim_eq_self W ⟨w0, W1, hx, notWs_of_lowerC_notWs _ _ h0 (by decide)⟩
      ⟨r, c, hx', notWs_of_lowerC_notWs _ _ hc (by decide)⟩
  · obtain ⟨w0, W1, hx, h0, -⟩ := lowerS_cons_inv W 'n' (chars "eutral") hW
    obtain ⟨r, c, hx', hc⟩ := lowerS_concat_inv W (chars "neutra") 'l' hW
    exact jsTrim_eq_self W ⟨w0, W1, hx, notWs_of_lowerC_notWs _ _ h0 (by decide)⟩
      ⟨r, c, hx', notWs_of_lowerC_notWs _ _ hc (by decide)⟩

end StockSense
namespace StockSense

/-- C9: a text built from junk blocks in which the news pattern never
matches, interleaved with structured `NEWS_ITEM: <headline> | <summary> |
<sentiment>` blocks whose sentiment is one of the three words
case-insensitively, yields exactly one news item per structured block
(headline and summary verbatim, sentiment lowercased), in order; and the
spec's example with two well-formed lines and one line missing the
sentiment field yields exactly the two corresponding items. -/
theorem claim_C9 :
    (∀ (buy : ℚ) (chartText : Str) (chunks : List (Option WebChunk))
        (segs : List (Str × Str × Str × Str)) (tail : Str),
      (∀ g ∈ segs, fieldOK g.2.1 ∧ fieldOK g.2.2.1 ∧ sentOK g.2.2.2) →
      (∀ pre g suf, segs = pre ++ g :: suf → ∀ i, i < g.1.length →
        newsTryAt ((newsBuild (g :: suf) tail).drop i) = none) →
      (∀ i, i < tail.length → newsTryAt (tail.drop i) = none) →
      (analyzeCoreGs buy (newsBuild segs tail) chartText chunks).news =
        segs.map fun g => ⟨g.2.1, g.2.2.1, lowerS g.2.2.2⟩) ∧
    (analyzeCoreGs 0 (chars "NEWS_ITEM: Headline 1 | Summary 1 | Positive\nNEWS_ITEM: Headline 2 | Summary 2 | NEGATIVE\nNEWS_ITEM: Headline 3 | Summary 3\nEnd.")
        (chars "[]") []).news =
      [⟨chars "Headline 1", chars "Summary 1", chars "positive"⟩,
       ⟨chars "Headline 2", chars "Summary 2", chars "negative"⟩] := by
  constructor
  · intro buy chartText chunks segs tail hfield hjunk htail
    have hrec : (analyzeCoreGs buy (newsBuild segs tail) chartText chunks).news =
        newsOf (if newsBuild segs tail = [] then chars "No analysis available."
          else newsBuild segs tail) := rfl
    rw [hrec]
    by_cases hT : newsBuild segs tail = []
    · rw [if_pos hT]
      cases segs with
      | nil =>
        rw [show newsOf (chars "No analysis available.") = [] from rfl, List.map_nil]
      | cons g segs' =>
        exfalso
        obtain ⟨j, H, S, W⟩ := g
        have h3 := congrArg List.length hT
        rw [show newsBuild ((j, H, S, W) :: segs') tail = j ++ (chars "NEWS_ITEM: " ++
            (H ++ (chars " | " ++ (S ++ (chars " | " ++ (W ++ newsBuild segs' tail)))))) from rfl,
          List.length_append, List.length_append,
          show (chars "NEWS_ITEM: ").length = 11 from rfl, List.length_nil] at h3
        omega
    · rw [if_neg hT]
      unfold newsOf
      rw [show newsExec (newsBuild segs tail)
          = newsExecA ((newsBuild segs tail).length + 1) (newsBuild segs tail) from rfl,
        newsExecA_build segs tail _ (Nat.lt_succ_self _) hfield hjunk htail, List.map_map]
      refine List.map_eq_map_iff.mpr ?_
      intro g hg
      obtain ⟨hH, hS, hW⟩ := hfield g hg
      show (⟨jsTrim g.2.1, jsTrim g.2.2.1, lowerS (jsTrim g.2.2.2)⟩ : NewsItem)
        = ⟨g.2.1, g.2.2.1, lowerS g.2.2.2⟩
      rw [jsTrim_eq_self _ hH.2.1 hH.2.2, jsTrim_eq_self _ hS.2.1 hS.2.2, sent_trim _ hW]
  · decide

end StockSense
namespace StockSense

theorem claim_C9_witness :
    (analyzeCoreGs 0 (chars "NEWS_ITEM: Alpha beats | Shares up | Positive\nNEWS_ITEM: Beta misses | Shares down | NEGATIVE")
        (chars "[]") []).news =
      [⟨chars "Alpha beats", chars "Shares up", chars "positive"⟩,
       ⟨chars "Beta misses", chars "Shares down", chars "negative"⟩] := by
  have hfield : ∀ g ∈ ([([], chars "Alpha beats", chars "Shares up", chars "Positive"),
      (['\n'], chars "Beta misses", chars "Shares down", chars "NEGATIVE")] :
      List (Str × Str × Str × Str)),
      fieldOK g.2.1 ∧ fieldOK g.2.2.1 ∧ sentOK g.2.2.2 := by
    intro g hg
    rcases List.mem_cons.mp hg with rfl | hg
    · exact ⟨⟨by decide, ⟨'A', chars "lpha beats", rfl, by decide⟩,
        ⟨chars "Alpha beat", 's', rfl, by decide⟩⟩,
        ⟨by decide, ⟨'S', chars "hares up", rfl, by decide⟩,
        ⟨chars "Shares u", 'p', rfl, by decide⟩⟩,
        Or.inl rfl⟩
    rcases List.mem_cons.mp hg with rfl | hg
    · exact ⟨⟨by decide, ⟨'B', chars "eta misses", rfl, by decide⟩,
        ⟨chars "Beta misse", 's', rfl, by decide⟩⟩,
        ⟨by decide, ⟨'S', chars "hares down", rfl, by decide⟩,
        ⟨chars "Shares dow", 'n', rfl, by decide⟩⟩,
        Or.inr (Or.inl rfl)⟩
    exact absurd hg (List.not_mem_nil _)
  have hjunk : ∀ pre g suf, ([([], chars "Alpha beats", chars "Shares up", chars "Positive"),
      (['\n'], chars "Beta misses", chars "Shares down", chars "NEGATIVE")] :
      List (Str × Str × Str × Str)) = pre ++ g :: suf → ∀ i, i < g.1.length →
      newsTryAt ((newsBuild (g :: suf) ([] : Str)).drop i) = none := by
    intro pre g suf h i hi
    cases pre with
    | nil =>
      rw [List.nil_append, List.cons.injEq] at h
      obtain ⟨h1, -⟩ := h
      rw [← h1] at hi
      simp at hi
    | cons p pre' =>
      cases pre' with
      | nil =>
        rw [List.cons_append, List.nil_append, List.cons.injEq, List.cons.injEq] at h
        obtain ⟨-, h2, h3⟩ := h
        rw [← h2] at hi
        rw [← h2, ← h3]
        have hi0 : i = 0 := by
          rw [show ((['\n'], chars "Beta misses", chars "Shares down",
            chars "NEGATIVE") : Str × Str × Str × Str).1.length = 1 from rfl] at hi
          omega
        rw [hi0]
        decide
      | cons p2 pre'' =>
        rw [List.cons_append, List.cons_append, List.cons.injEq, List.cons.injEq] at h
        exact absurd h.2.2.symm (by simp)
  have htail : ∀ i, i < ([] : Str).length → newsTryAt (([] : Str).drop i) = none := by
    intro i hi
    simp at hi
  have h := claim_C9.1 0 (chars "[]") []
    [([], chars "Alpha beats", chars "Shares up", chars "Positive"),
     (['\n'], chars "Beta misses", chars "Shares down", chars "NEGATIVE")] []
    hfield hjunk htail
  rw [show newsBuild [([], chars "Alpha beats", chars "Shares up", chars "Positive"),
      (['\n'], chars "Beta misses", chars "Shares down", chars "NEGATIVE")] ([] : Str)
    = chars "NEWS_ITEM: Alpha beats | Shares up | Positive\nNEWS_ITEM: Beta misses | Shares down | NEGATIVE"
    from rfl] at h
  rw [h]
  decide

end StockSense
namespace StockSense

theorem hasPre_cons_ne (p : Char) (ps : Str) (d : Char) (s : Str) (h : p ≠ d) :
    hasPre (p :: ps) (d :: s) = false := by
  show (p == d && hasPre ps s) = false
  rw [show (p == d) = false from beq_eq_false_iff_ne.mpr h, Bool.false_and]

theorem noOcc_btfree (m' s : Str) (h : '`' ∉ s) :
    ∀ i, hasPre ('`' :: m') (s.drop i) = false := by
  intro i
  cases hd : s.drop i with
  | nil => rfl
  | cons d r =>
    refine hasPre_cons_ne _ _ _ _ fun hE => h ?_
    have : d ∈ s.drop i := by rw [hd]; exact List.mem_cons_self d r
    exact hE ▸ List.drop_subset i s this

theorem btfree_pre (m' a R : Str) (h : '`' ∉ a) :
    ∀ i, i < a.length → hasPre ('`' :: m') (a.drop i ++ R) = false := by
  intro i hi
  cases hd : a.drop i with
  | nil =>
    exfalso
    have := congrArg List.length hd
    rw [List.length_drop] at this
    simp at this
    omega
  | cons d r =>
    rw [List.cons_append]
    refine hasPre_cons_ne _ _ _ _ fun hE => h ?_
    have : d ∈ a.drop i := by rw [hd]; exact List.mem_cons_self d r
    exact hE ▸ List.drop_subset i a this

theorem noOcc_append (m a b : Str)
    (ha : ∀ i, i < a.length → hasPre m (a.drop i ++ b) = false)
    (hb : ∀ i, hasPre m (b.drop i) = false) :
    ∀ i, hasPre m ((a ++ b).drop i) = false := by
  intro i
  rw [List.drop_append_eq_append_drop]
  by_cases hia : i < a.length
  · rw [show b.drop (i - a.length) = b from by rw [Nat.sub_eq_zero_of_le (Nat.le_of_lt hia)]; rfl]
    exact ha i hia
  · rw [List.drop_eq_nil_of_le (Nat.le_of_not_lt hia), List.nil_append]
    exact hb (i - a.length)

theorem replA_id_noocc (m : Str) : ∀ (f : Nat) (s : Str),
    (∀ i, hasPre m (s.drop i) = false) → replA m f s = s := by
  intro f
  induction f with
  | zero => intro s h; rfl
  | succ f IH =>
    intro s h
    cases s with
    | nil => rfl
    | cons c s2 =>
      have h0 : hasPre m (c :: s2) = false := h 0
      show (if hasPre m (c :: s2) then replA m f ((c :: s2).drop m.length)
        else c :: replA m f s2) = c :: s2
      rw [h0, if_neg (by simp)]
      rw [IH s2 (fun i => h (i + 1))]

theorem replA_strip (m' : Str) : ∀ (a : Str) (f : Nat) (b : Str), '`' ∉ a → a.length < f →
    replA ('`' :: m') f (a ++ (('`' :: m') ++ b)) =
      a ++ replA ('`' :: m') (f - (a.length + 1)) b := by
  intro a
  induction a with
  | nil =>
    intro f b ha hf
    cases f with
    | zero => exact absurd hf (by omega)
    | succ f' =>
      rw [List.nil_append, List.cons_append]
      simp only [replA]
      rw [show hasPre ('`' :: m') ('`' :: (m' ++ b)) = true from by
          rw [← List.cons_append]; exact hasPre_append_self _ _,
        if_pos rfl,
        show ('`' :: (m' ++ b)).drop ('`' :: m').length = b from by
          rw [← List.cons_append, List.drop_left],
        show f' + 1 - (List.length ([] : Str) + 1) = f' from by simp,
        List.nil_append]
  | cons c a' IH =>
    intro f b ha hf
    cases f with
    | zero => exact absurd hf (by omega)
    | succ f' =>
      rw [List.cons_append]
      simp only [replA]
      rw [show hasPre ('`' :: m') (c :: (a' ++ (('`' :: m') ++ b))) = false from
          hasPre_cons_ne _ _ _ _ (fun hE => ha (hE ▸ List.mem_cons_self c a')),
        if_neg (by simp),
        IH f' b (fun hE => ha (List.mem_cons_of_mem c hE)) (by
          rw [List.length_cons] at hf; omega),
        show f' + 1 - ((c :: a').length + 1) = f' - (a'.length + 1) from by
          rw [List.length_cons]; omega,
        List.cons_append]

end StockSense
namespace StockSense

theorem hasPre_notMem (c : Char) (m' s : Str) (h : c ∉ s) : hasPre (c :: m') s = false := by
  cases s with
  | nil => rfl
  | cons d r => exact hasPre_cons_ne _ _ _ _ (fun hE => h (hE ▸ List.mem_cons_self d r))

theorem noOcc_json_tail (p2 : Str) (hbt : '`' ∉ p2) (hjson : hasPre (chars "json") p2 = false) :
    ∀ i, hasPre (chars "```json") ((chars "```" ++ p2).drop i) = false := by
  intro i
  rcases i with - | i
  · rw [show hasPre (chars "```json") ((chars "```" ++ p2).drop 0) = hasPre (chars "json") p2
      from rfl]
    exact hjson
  rcases i with - | i
  · rw [show hasPre (chars "```json") ((chars "```" ++ p2).drop 1)
      = hasPre ('`' :: chars "json") p2 from rfl]
    exact hasPre_notMem _ _ _ hbt
  rcases i with - | i
  · rw [show hasPre (chars "```json") ((chars "```" ++ p2).drop 2)
      = hasPre ('`' :: chars "`json") p2 from rfl]
    exact hasPre_notMem _ _ _ hbt
  · rw [show (chars "```" ++ p2).drop (i + 1 + 1 + 1) = p2.drop i from rfl]
    exact noOcc_btfree (chars "``json") p2 hbt i

theorem noOcc_json_fence_open (X : Str) (op : Char) (X' : Str)
    (hop : op = '{' ∨ op = '[') (hX : X = op :: X')
    (hXocc : ∀ i, hasPre (chars "```json") (X.drop i) = false) :
    ∀ i, hasPre (chars "```json") ((chars "```" ++ X).drop i) = false := by
  have hopj : ('j' : Char) ≠ op := by rcases hop with rfl | rfl <;> decide
  have hopb : ('`' : Char) ≠ op := by rcases hop with rfl | rfl <;> decide
  intro i
  rcases i with - | i
  · rw [show hasPre (chars "```json") ((chars "```" ++ X).drop 0) = hasPre (chars "json") X
      from rfl, hX]
    exact hasPre_cons_ne _ _ _ _ hopj
  rcases i with - | i
  · rw [show hasPre (chars "```json") ((chars "```" ++ X).drop 1)
      = hasPre ('`' :: chars "json") X from rfl, hX]
    exact hasPre_cons_ne _ _ _ _ hopb
  rcases i with - | i
  · rw [show hasPre (chars "```json") ((chars "```" ++ X).drop 2)
      = hasPre ('`' :: chars "`json") X from rfl, hX]
    exact hasPre_cons_ne _ _ _ _ hopb
  · rw [show (chars "```" ++ X).drop (i + 1 + 1 + 1) = X.drop i from rfl]
    exact hXocc i

end StockSense
namespace StockSense

theorem stripFences_nofence (s : Str) (h : '`' ∉ s) : stripFences s = s := by
  unfold stripFences replaceAll
  rw [replA_id_noocc (chars "```json") s.length s (noOcc_btfree (chars "``json") s h),
    replA_id_noocc (chars "```") s.length s (noOcc_btfree (chars "``") s h)]

theorem stripFences_json (p1 payload p2 : Str)
    (hp1 : '`' ∉ p1) (hpl : '`' ∉ payload) (hp2 : '`' ∉ p2)
    (hjson : hasPre (chars "json") p2 = false) :
    stripFences (p1 ++ (chars "```json" ++ (payload ++ (chars "```" ++ p2)))) =
      p1 ++ (payload ++ p2) := by
  have hnooccB : ∀ i, hasPre ('`' :: chars "``json")
      ((payload ++ (chars "```" ++ p2)).drop i) = false :=
    noOcc_append _ payload _ (btfree_pre (chars "``json") payload _ hpl)
      (noOcc_json_tail p2 hp2 hjson)
  have h1 : replaceAll (chars "```json")
      (p1 ++ (chars "```json" ++ (payload ++ (chars "```" ++ p2)))) =
      p1 ++ (payload ++ (chars "```" ++ p2)) := by
    unfold replaceAll
    rw [show chars "```json" = '`' :: chars "``json" from rfl,
      replA_strip (chars "``json") p1 _ _ hp1 (by
        simp only [List.length_append, List.length_cons]
        omega),
      replA_id_noocc _ _ _ hnooccB]
  unfold stripFences
  rw [h1]
  unfold replaceAll
  rw [show chars "```" = '`' :: chars "``" from rfl,
    show p1 ++ (payload ++ ('`' :: chars "``" ++ p2))
      = (p1 ++ payload) ++ (('`' :: chars "``") ++ p2) from by
      rw [List.append_assoc],
    replA_strip (chars "``") (p1 ++ payload) _ p2
      (by simp only [List.mem_append]; rintro (h | h); exacts [hp1 h, hpl h])
      (by simp only [List.length_append, List.length_cons]; omega),
    replA_id_noocc _ _ p2 (noOcc_btfree (chars "``") p2 hp2),
    List.append_assoc]

theorem stripFences_bt (p1 payload p2 : Str) (op : Char) (pl' : Str)
    (hp1 : '`' ∉ p1) (hpl : '`' ∉ payload) (hp2 : '`' ∉ p2)
    (hop : op = '{' ∨ op = '[') (hplshape : payload = op :: pl')
    (hjson : hasPre (chars "json") p2 = false) :
    stripFences (p1 ++ (chars "```" ++ (payload ++ (chars "```" ++ p2)))) =
      p1 ++ (payload ++ p2) := by
  have hnooccX : ∀ i, hasPre (chars "```json")
      ((payload ++ (chars "```" ++ p2)).drop i) = false :=
    noOcc_append _ payload _ (btfree_pre (chars "``json") payload _ hpl)
      (noOcc_json_tail p2 hp2 hjson)
  have h1 : replaceAll (chars "```json")
      (p1 ++ (chars "```" ++ (payload ++ (chars "```" ++ p2)))) =
      p1 ++ (chars "```" ++ (payload ++ (chars "```" ++ p2))) := by
    unfold replaceAll
    exact replA_id_noocc _ _ _
      (noOcc_append _ p1 _ (btfree_pre (chars "``json") p1 _ hp1)
        (noOcc_json_fence_open _ op (pl' ++ (chars "```" ++ p2)) hop
          (by rw [hplshape, List.cons_append]) hnooccX))
  unfold stripFences
  rw [h1]
  unfold replaceAll
  rw [show chars "```" = '`' :: chars "``" from rfl,
    replA_strip (chars "``") p1 _ _ hp1 (by
      simp only [List.length_append, List.length_cons]
      omega),
    replA_strip (chars "``") payload _ p2 hpl (by
      simp only [List.length_append, List.length_cons,
        show (chars "``").length = 2 from rfl]
      omega),
    replA_id_noocc _ _ p2 (noOcc_btfree (chars "``") p2 hp2)]

end StockSense
namespace StockSense

theorem jsTrimLeft_app (a b : Str) (hb : ∃ c r, b = c :: r ∧ isJsSpace c = false) :
    jsTrimLeft (a ++ b) = jsTrimLeft a ++ b := by
  obtain ⟨c, r, rfl, hc⟩ := hb
  unfold jsTrimLeft
  cases h : a.dropWhile isJsSpace with
  | nil => rw [dropWhile_app_all _ h, dropWhile_cons_of_neg _ hc, List.nil_append]
  | cons d t => rw [dropWhile_app_ne _ (by rw [h]; exact List.cons_ne_nil d t), h]

theorem jsTrimRight_app (a b : Str) (ha : ∃ r c, a = r ++ [c] ∧ isJsSpace c = false) :
    jsTrimRight (a ++ b) = a ++ jsTrimRight b := by
  obtain ⟨r0, c, rfl, hc⟩ := ha
  unfold jsTrimRight
  rw [List.reverse_append,
    show (r0 ++ [c]).reverse = c :: r0.reverse from by
      rw [List.reverse_append]; rfl]
  cases h : b.reverse.dropWhile isJsSpace with
  | nil =>
    rw [dropWhile_app_all _ h, dropWhile_cons_of_neg _ hc, List.reverse_cons,
      List.reverse_reverse, show ([] : Str).reverse = [] from rfl, List.append_nil]
  | cons d t =>
    rw [dropWhile_app_ne _ (by rw [h]; exact List.cons_ne_nil d t), h,
      List.reverse_append, List.reverse_cons, List.reverse_reverse]

theorem cleaned_char (p1 payload p2 : Str) (op cl : Char) (mid : Str)
    (hshape : payload = op :: (mid ++ [cl]))
    (hopws : isJsSpace op = false) (hclws : isJsSpace cl = false) :
    jsTrim (p1 ++ (payload ++ p2)) =
      jsTrimLeft p1 ++ (payload ++ jsTrimRight p2) := by
  unfold jsTrim
  rw [jsTrimLeft_app p1 (payload ++ p2)
    ⟨op, mid ++ [cl] ++ p2, by rw [hshape, List.cons_append], hopws⟩]
  rw [show jsTrimLeft p1 ++ (payload ++ p2) = (jsTrimLeft p1 ++ payload) ++ p2 from by
    rw [List.append_assoc]]
  rw [jsTrimRight_app (jsTrimLeft p1 ++ payload) p2
    ⟨jsTrimLeft p1 ++ (op :: mid), cl, by rw [hshape, List.append_assoc, List.cons_append],
      hclws⟩]
  rw [List.append_assoc]

theorem dropWhile_head_false {p : Char → Bool} {l : Str} {c : Char} {r : Str}
    (h : l.dropWhile p = c :: r) : p c = false := by
  induction l with
  | nil => exact absurd h (by simp)
  | cons d t IH =>
    rw [List.dropWhile_cons] at h
    by_cases hd : p d
    · rw [if_pos hd] at h
      exact IH h
    · rw [if_neg hd] at h
      rw [List.cons.injEq] at h
      cases hpd : p c
      · rfl
      · exfalso
        rw [h.1] at hd
        exact hd hpd

theorem mem_jsTrimLeft {c : Char} {s : Str} (h : c ∈ jsTrimLeft s) : c ∈ s := by
  unfold jsTrimLeft at h
  exact (List.dropWhile_sublist _).subset h

theorem mem_jsTrimRight {c : Char} {s : Str} (h : c ∈ jsTrimRight s) : c ∈ s := by
  unfold jsTrimRight at h
  rw [List.mem_reverse] at h
  have h2 := (List.dropWhile_sublist _).subset h
  rwa [List.mem_reverse] at h2

theorem jsTrimRight_last (s : Str) (h : jsTrimRight s ≠ []) :
    ∃ r c, jsTrimRight s = r ++ [c] ∧ isJsSpace c = false := by
  unfold jsTrimRight at *
  cases hd : s.reverse.dropWhile isJsSpace with
  | nil => rw [hd] at h; exact absurd rfl h
  | cons d t =>
    exact ⟨t.reverse, d, by rw [List.reverse_cons], dropWhile_head_false hd⟩

theorem jsTrimLeft_head (s : Str) (h : jsTrimLeft s ≠ []) :
    ∃ c r, jsTrimLeft s = c :: r ∧ isJsSpace c = false := by
  unfold jsTrimLeft at *
  cases hd : s.dropWhile isJsSpace with
  | nil => rw [hd] at h; exact absurd rfl h
  | cons d t => exact ⟨d, t, rfl, dropWhile_head_false hd⟩

end StockSense
namespace StockSense

theorem rxFind_app (P1 : Str) (h : ∀ c ∈ P1, c ≠ '{' ∧ c ≠ '[') (rest : Str) (oc : Char) (k : Nat)
    (hr : rxFind rest = some (oc, k)) :
    rxFind (P1 ++ rest) = some (oc, P1.length + k) := by
  induction P1 with
  | nil =>
    rw [List.nil_append, hr]
    simp
  | cons c P IH =>
    rw [List.cons_append]
    simp only [rxFind]
    rw [if_neg (fun hco => (h c (List.mem_cons_self c P)).1 hco.1),
      if_neg (fun hco => (h c (List.mem_cons_self c P)).2 hco.1),
      IH (fun d hd => h d (List.mem_cons_of_mem c hd))]
    show some (oc, P.length + k + 1) = some (oc, (c :: P).length + k)
    simp only [Option.some.injEq, Prod.mk.injEq, List.length_cons, true_and]
    omega

theorem idxOfC_app_not (c : Char) (x y : Str) (h : c ∉ x) :
    idxOfC c (x ++ c :: y) = some x.length := by
  induction x with
  | nil =>
    show idxOfC c (c :: y) = some 0
    simp [idxOfC]
  | cons d x' IH =>
    rw [List.cons_append]
    simp only [idxOfC]
    rw [if_neg (fun hE => h (by rw [← hE]; exact List.mem_cons_self d x')),
      IH (fun hE => h (List.mem_cons_of_mem d hE))]
    show some (x'.length + 1) = some ((d :: x').length)
    rw [List.length_cons]

theorem lastIdxOfC_final (c : Char) (a b : Str) (h : c ∉ b) :
    lastIdxOfC c ((a ++ [c]) ++ b) = some a.length := by
  unfold lastIdxOfC
  rw [show ((a ++ [c]) ++ b).reverse = b.reverse ++ c :: a.reverse from by
    rw [List.reverse_append, List.reverse_append]; rfl]
  rw [idxOfC_app_not c b.reverse a.reverse (fun hE => h (List.mem_reverse.mp hE))]
  show some (((a ++ [c]) ++ b).length - 1 - b.reverse.length) = some a.length
  rw [Option.some.injEq]
  simp only [List.length_append, List.length_reverse, List.length_cons, List.length_nil]
  omega

theorem regexStage_payload (P1 P2 : Str) (op cl : Char) (mid : Str) (v : Json)
    (hoc : (op = '{' ∧ cl = '}') ∨ (op = '[' ∧ cl = ']'))
    (hP1 : ∀ c ∈ P1, proseChar c) (hP2 : ∀ c ∈ P2, proseChar c)
    (hv : jsonParse (op :: (mid ++ [cl])) = some v) :
    regexStage (P1 ++ ((op :: (mid ++ [cl])) ++ P2)) = some v := by
  have hclP2 : cl ∉ P2 := by
    intro hE
    rcases hoc with ⟨-, rfl⟩ | ⟨-, rfl⟩
    · exact (hP2 _ hE).2.1 rfl
    · exact (hP2 _ hE).2.2.2.1 rfl
  have hcl : cl ∈ (mid ++ [cl]) ++ P2 :=
    List.mem_append_left _ (List.mem_append_right _ (List.mem_singleton.mpr rfl))
  have hfind : rxFind ((op :: (mid ++ [cl])) ++ P2) = some (op, 0) := by
    rw [List.cons_append]
    simp only [rxFind]
    rcases hoc with ⟨rfl, rfl⟩ | ⟨rfl, rfl⟩
    · rw [if_pos ⟨rfl, List.elem_eq_true_of_mem hcl⟩]
    · rw [if_neg (by
          rintro ⟨h1, -⟩
          exact absurd h1 (by decide)),
        if_pos ⟨rfl, List.elem_eq_true_of_mem hcl⟩]
  have hfind2 := rxFind_app P1 (fun c hc => ⟨(hP1 c hc).1, (hP1 c hc).2.2.1⟩) _ _ _ hfind
  unfold regexStage
  rw [hfind2]
  have hdrop1 : (P1 ++ ((op :: (mid ++ [cl])) ++ P2)).drop (P1.length + 0 + 1)
      = (mid ++ [cl]) ++ P2 := by
    rw [show P1.length + 0 + 1 = P1.length + 1 from by omega, List.drop_append 1]
    rfl
  have hdrop0 : (P1 ++ ((op :: (mid ++ [cl])) ++ P2)).drop (P1.length + 0)
      = (op :: (mid ++ [cl])) ++ P2 := by
    rw [show P1.length + 0 = P1.length from by omega, List.drop_left]
  have htake : ((op :: (mid ++ [cl])) ++ P2).take (mid.length + 2) = op :: (mid ++ [cl]) := by
    refine List.take_left' ?_
    simp only [List.length_cons, List.length_append, List.length_singleton, List.length_nil]
  rcases hoc with ⟨rfl, rfl⟩ | ⟨rfl, rfl⟩
  · dsimp only []
    rw [show (if ('{' : Char) = '{' then '}' else ']') = '}' from rfl, hdrop1,
      lastIdxOfC_final '}' mid P2 hclP2]
    dsimp only []
    rw [hdrop0, htake]
    exact hv
  · dsimp only []
    rw [show (if ('[' : Char) = '{' then '}' else ']') = ']' from rfl, hdrop1,
      lastIdxOfC_final ']' mid P2 hclP2]
    dsimp only []
    rw [hdrop0, htake]
    exact hv

end StockSense
namespace StockSense

theorem pExpDigits_class (neg : Bool) (ip : Nat) (fs : Str) (eneg : Bool) (r1 : Str)
    (q : ℚ) (r : Str) (h : pExpDigits neg ip fs eneg r1 = some (q, r)) :
    ∃ pre, r1 = pre ++ r ∧ ∀ c ∈ pre, numChar c = true := by
  unfold pExpDigits at h
  split at h
  · exact absurd h (by simp)
  · rw [Option.some.injEq, Prod.mk.injEq] at h
    refine ⟨r1.takeWhile isDigitC, ?_, ?_⟩
    · rw [← h.2, List.takeWhile_append_dropWhile]
    · intro c hc
      simp only [numChar, List.mem_takeWhile_imp hc, Bool.true_or]

theorem pExp_class (neg : Bool) (ip : Nat) (fs s : Str) (q : ℚ) (r : Str)
    (h : pExpPart neg ip fs s = some (q, r)) :
    ∃ pre, s = pre ++ r ∧ ∀ c ∈ pre, numChar c = true := by
  cases s with
  | nil =>
    refine ⟨[], ?_, by intro c hc; exact absurd hc (List.not_mem_nil c)⟩
    have h2 : r = [] := by
      simp only [pExpPart, Option.some.injEq, Prod.mk.injEq] at h
      exact h.2.symm
    rw [h2]
    rfl
  | cons e s' =>
    simp only [pExpPart] at h
    split at h
    · rename_i hee
      have hnum_e : numChar e = true := by
        rcases (Bool.or_eq_true _ _).mp hee with h1 | h1 <;>
          simp only [decide_eq_true_eq] at h1 <;> subst h1 <;> decide
      split at h
      · rename_i r2
        obtain ⟨pre, hp, hpc⟩ := pExpDigits_class _ _ _ _ _ _ _ h
        refine ⟨e :: '+' :: pre, ?_, ?_⟩
        · rw [hp, List.cons_append, List.cons_append]
        · intro c hc
          rcases List.mem_cons.mp hc with rfl | hc
          · exact hnum_e
          rcases List.mem_cons.mp hc with rfl | hc
          · decide
          · exact hpc c hc
      · rename_i r2
        obtain ⟨pre, hp, hpc⟩ := pExpDigits_class _ _ _ _ _ _ _ h
        refine ⟨e :: '-' :: pre, ?_, ?_⟩
        · rw [hp, List.cons_append, List.cons_append]
        · intro c hc
          rcases List.mem_cons.mp hc with rfl | hc
          · exact hnum_e
          rcases List.mem_cons.mp hc with rfl | hc
          · decide
          · exact hpc c hc
      · obtain ⟨pre, hp, hpc⟩ := pExpDigits_class _ _ _ _ _ _ _ h
        refine ⟨e :: pre, ?_, ?_⟩
        · rw [hp, List.cons_append]
        · intro c hc
          rcases List.mem_cons.mp hc with rfl | hc
          · exact hnum_e
          · exact hpc c hc
    · rw [Option.some.injEq, Prod.mk.injEq] at h
      refine ⟨[], ?_, by intro c hc; exact absurd hc (List.not_mem_nil c)⟩
      rw [← h.2, List.nil_append]

theorem pFrac_class (neg : Bool) (ip : Nat) (s : Str) (q : ℚ) (r : Str)
    (h : pFracPart neg ip s = some (q, r)) :
    ∃ pre, s = pre ++ r ∧ ∀ c ∈ pre, numChar c = true := by
  cases s with
  | nil =>
    have h2 : pExpPart neg ip [] [] = some (q, r) := h
    exact pExp_class _ _ _ _ _ _ h2
  | cons c s' =>
    by_cases hc : c = '.'
    · subst hc
      rw [show pFracPart neg ip ('.' :: s')
          = if s'.takeWhile isDigitC = [] then none
            else pExpPart neg ip (s'.takeWhile isDigitC) (s'.dropWhile isDigitC) from rfl] at h
      split at h
      · exact absurd h (by simp)
      · obtain ⟨pre, hp, hpc⟩ := pExp_class _ _ _ _ _ _ h
        refine ⟨'.' :: (s'.takeWhile isDigitC ++ pre), ?_, ?_⟩
        · rw [List.cons_append, List.append_assoc, ← hp, List.takeWhile_append_dropWhile]
        · intro d hd
          rcases List.mem_cons.mp hd with rfl | hd
          · decide
          rcases List.mem_append.mp hd with hd | hd
          · simp only [numChar, List.mem_takeWhile_imp hd, Bool.true_or]
          · exact hpc d hd
    · rw [show pFracPart neg ip (c :: s') = pExpPart neg ip [] (c :: s') from by
        unfold pFracPart
        split
        · rename_i heq
          rw [List.cons.injEq] at heq
          exact absurd heq.1 hc
        · rfl] at h
      exact pExp_class _ _ _ _ _ _ h

theorem pNum_class (s : Str) (q : ℚ) (r : Str) (h : pNum s = some (q, r)) :
    ∃ pre, s = pre ++ r ∧ ∀ c ∈ pre, numChar c = true := by
  have hbody : ∀ (neg : Bool) (s1 : Str), pNumBody neg s1 = some (q, r) →
      ∃ pre, s1 = pre ++ r ∧ ∀ c ∈ pre, numChar c = true := by
    intro neg s1 hb
    cases s1 with
    | nil => exact absurd hb (by simp [pNumBody])
    | cons c s' =>
      simp only [pNumBody] at hb
      split at hb
      · rename_i hc0
        subst hc0
        split at hb
        · rename_i d rest
          split at hb
          · exact absurd hb (by simp)
          · obtain ⟨pre, hp, hpc⟩ := pFrac_class _ _ _ _ _ hb
            refine ⟨'0' :: pre, by rw [hp, List.cons_append], ?_⟩
            intro d2 hd2
            rcases List.mem_cons.mp hd2 with rfl | hd2
            · decide
            · exact hpc d2 hd2
        · obtain ⟨pre, hp, hpc⟩ := pFrac_class _ _ _ _ _ hb
          refine ⟨'0' :: pre, by rw [List.cons_append, ← hp], ?_⟩
          intro d2 hd2
          rcases List.mem_cons.mp hd2 with rfl | hd2
          · decide
          · exact hpc d2 hd2
      · split at hb
        · rename_i hcd
          obtain ⟨pre, hp, hpc⟩ := pFrac_class _ _ _ _ _ hb
          refine ⟨(c :: s').takeWhile isDigitC ++ pre, ?_, ?_⟩
          · rw [List.append_assoc, ← hp, List.takeWhile_append_dropWhile]
          · intro d2 hd2
            rcases List.mem_append.mp hd2 with hd2 | hd2
            · simp only [numChar, List.mem_takeWhile_imp hd2, Bool.true_or]
            · exact hpc d2 hd2
        · exact absurd hb (by simp)
  cases s with
  | nil => exact absurd h (by simp [pNum, pNumBody])
  | cons c s' =>
    by_cases hc : c = '-'
    · subst hc
      rw [show pNum ('-' :: s') = pNumBody true s' from rfl] at h
      obtain ⟨pre, hp, hpc⟩ := hbody true s' h
      refine ⟨'-' :: pre, by rw [hp, List.cons_append], ?_⟩
      intro d2 hd2
      rcases List.mem_cons.mp hd2 with rfl | hd2
      · decide
      · exact hpc d2 hd2
    · rw [show pNum (c :: s') = pNumBody false (c :: s') from by
        unfold pNum
        split
        · rename_i heq
          rw [List.cons.injEq] at heq
          exact absurd heq.1 hc
        · rfl] at h
      exact hbody false (c :: s') h

end StockSense
namespace StockSense

theorem wsJson_false (c : Char) (h : isJsSpace c = false) : isWsJson c = false := by
  cases hW : isWsJson c
  · rfl
  · exfalso
    have h2 : isJsSpace c = true := by
      unfold isJsSpace
      rw [hW]
      rfl
    rw [h] at h2
    exact Bool.noConfusion h2

theorem jsonParse_prefix_none (q0 : Char) (Q R : Str) (op : Char)
    (hq0 : proseChar q0) (hws : isJsSpace q0 = false)
    (hop : op = '{' ∨ op = '[') (hmem : op ∈ R) :
    jsonParse ((q0 :: Q) ++ R) = none := by
  have hopws : isWsJson op = false := by rcases hop with rfl | rfl <;> decide
  have hopnum : numChar op = false := by rcases hop with rfl | rfl <;> decide
  have hskip : skipWsJ ((q0 :: Q) ++ R) = q0 :: (Q ++ R) := by
    rw [List.cons_append]
    exact dropWhile_cons_of_neg _ (wsJson_false q0 hws)
  have hmem2 : op ∈ Q ++ R := List.mem_append_right Q hmem
  have hrem : ∀ (X : Str), op ∈ X → ¬ skipWsJ X = [] := by
    intro X hX hE
    have h2 := List.dropWhile_eq_nil_iff.mp hE op hX
    rw [hopws] at h2
    exact Bool.noConfusion h2
  unfold jsonParse
  rw [show 2 * ((q0 :: Q) ++ R).length + 2 = (2 * ((q0 :: Q) ++ R).length + 1) + 1 from rfl]
  simp only [pVal]
  rw [hskip]
  dsimp only []
  rw [if_neg hq0.1, if_neg hq0.2.2.1, if_neg hq0.2.2.2.2.1]
  by_cases hqt : q0 = 't'
  · subst hqt
    rw [if_pos rfl]
    cases hP : hasPre (chars "rue") (Q ++ R)
    · rw [if_neg Bool.false_ne_true]
    · rw [if_pos rfl]
      dsimp only []
      obtain ⟨u, hu⟩ := (hasPre_iff _ _).mp hP
      rw [hu, show (chars "rue" ++ u).drop 3 = u from by
        rw [show (3 : Nat) = (chars "rue").length from rfl, List.drop_left]]
      have hopu : op ∈ u := by
        have h2 : op ∈ chars "rue" ++ u := by rw [← hu]; exact hmem2
        rcases List.mem_append.mp h2 with h3 | h3
        · exfalso
          rcases hop with rfl | rfl <;> exact absurd h3 (by decide)
        · exact h3
      rw [if_neg (hrem u hopu)]
  · rw [if_neg hqt]
    by_cases hqf : q0 = 'f'
    · subst hqf
      rw [if_pos rfl]
      cases hP : hasPre (chars "alse") (Q ++ R)
      · rw [if_neg Bool.false_ne_true]
      · rw [if_pos rfl]
        dsimp only []
        obtain ⟨u, hu⟩ := (hasPre_iff _ _).mp hP
        rw [hu, show (chars "alse" ++ u).drop 4 = u from by
          rw [show (4 : Nat) = (chars "alse").length from rfl, List.drop_left]]
        have hopu : op ∈ u := by
          have h2 : op ∈ chars "alse" ++ u := by rw [← hu]; exact hmem2
          rcases List.mem_append.mp h2 with h3 | h3
          · exfalso
            rcases hop with rfl | rfl <;> exact absurd h3 (by decide)
          · exact h3
        rw [if_neg (hrem u hopu)]
    · rw [if_neg hqf]
      by_cases hqn : q0 = 'n'
      · subst hqn
        rw [if_pos rfl]
        cases hP : hasPre (chars "ull") (Q ++ R)
        · rw [if_neg Bool.false_ne_true]
        · rw [if_pos rfl]
          dsimp only []
          obtain ⟨u, hu⟩ := (hasPre_iff _ _).mp hP
          rw [hu, show (chars "ull" ++ u).drop 3 = u from by
            rw [show (3 : Nat) = (chars "ull").length from rfl, List.drop_left]]
          have hopu : op ∈ u := by
            have h2 : op ∈ chars "ull" ++ u := by rw [← hu]; exact hmem2
            rcases List.mem_append.mp h2 with h3 | h3
            · exfalso
              rcases hop with rfl | rfl <;> exact absurd h3 (by decide)
            · exact h3
          rw [if_neg (hrem u hopu)]
      · rw [if_neg hqn]
        by_cases hnum : (q0 = '-' || isDigitC q0) = true
        · rw [if_pos hnum]
          cases hpn : pNum (q0 :: (Q ++ R)) with
          | none => rfl
          | some p =>
            obtain ⟨qq, rest⟩ := p
            dsimp only []
            obtain ⟨pre, hp, hpc⟩ := pNum_class _ _ _ hpn
            have hoprest : op ∈ rest := by
              have h2 : op ∈ pre ++ rest := by
                rw [← hp]
                exact List.mem_cons_of_mem q0 hmem2
              rcases List.mem_append.mp h2 with h3 | h3
              · exfalso
                have h4 := hpc op h3
                rw [hopnum] at h4
                exact Bool.noConfusion h4
              · exact h3
            rw [if_neg (hrem rest hoprest)]
        · rw [if_neg hnum]

end StockSense
namespace StockSense

theorem pExpDigits_ext (neg : Bool) (ip : Nat) (fs : Str) (eneg : Bool) (r1 : Str)
    (q : ℚ) (r t : Str) (h : pExpDigits neg ip fs eneg r1 = some (q, r)) (hr : r ≠ []) :
    pExpDigits neg ip fs eneg (r1 ++ t) = some (q, r ++ t) := by
  unfold pExpDigits at h ⊢
  split at h
  · exact absurd h (by simp)
  · rename_i hes
    rw [Option.some.injEq, Prod.mk.injEq] at h
    have hne : r1.dropWhile isDigitC ≠ [] := by rw [h.2]; exact hr
    rw [takeWhile_app_stop _ hne, dropWhile_app_ne _ hne, if_neg hes, h.1, h.2]

theorem pExp_ext (neg : Bool) (ip : Nat) (fs s : Str) (q : ℚ) (r t : Str)
    (h : pExpPart neg ip fs s = some (q, r)) (hr : r ≠ []) :
    pExpPart neg ip fs (s ++ t) = some (q, r ++ t) := by
  cases s with
  | nil =>
    simp only [pExpPart, Option.some.injEq, Prod.mk.injEq] at h
    exact absurd h.2.symm hr
  | cons e s' =>
    rw [List.cons_append]
    simp only [pExpPart] at h ⊢
    split at h
    · rename_i hee
      rw [if_pos hee]
      split at h
      · rename_i r2
        rw [List.cons_append]
        show pExpDigits neg ip fs false (r2 ++ t) = some (q, r ++ t)
        exact pExpDigits_ext _ _ _ _ _ _ _ _ h hr
      · rename_i r2
        rw [List.cons_append]
        show pExpDigits neg ip fs true (r2 ++ t) = some (q, r ++ t)
        exact pExpDigits_ext _ _ _ _ _ _ _ _ h hr
      · rename_i h1 h2
        cases s' with
        | nil =>
          exfalso
          rw [show pExpDigits neg ip fs false ([] : Str)
            = none from rfl] at h
          exact Option.noConfusion h
        | cons a s'' =>
          have ha1 : a ≠ '+' := fun hE => h1 s'' (by rw [hE])
          have ha2 : a ≠ '-' := fun hE => h2 s'' (by rw [hE])
          rw [List.cons_append]
          split
          · rename_i heq
            rw [List.cons.injEq] at heq
            exact absurd heq.1 ha1
          · rename_i heq
            rw [List.cons.injEq] at heq
            exact absurd heq.1 ha2
          · exact pExpDigits_ext _ _ _ _ _ _ _ _ h hr
    · rename_i hee
      rw [if_neg hee]
      rw [Option.some.injEq, Prod.mk.injEq] at h
      rw [h.1, ← h.2, List.cons_append]

theorem pFrac_ext (neg : Bool) (ip : Nat) (s : Str) (q : ℚ) (r t : Str)
    (h : pFracPart neg ip s = some (q, r)) (hr : r ≠ []) :
    pFracPart neg ip (s ++ t) = some (q, r ++ t) := by
  cases s with
  | nil =>
    exfalso
    have h2 : pExpPart neg ip [] [] = some (q, r) := h
    simp only [pExpPart, Option.some.injEq, Prod.mk.injEq] at h2
    exact hr h2.2.symm
  | cons c s' =>
    by_cases hc : c = '.'
    · subst hc
      rw [show pFracPart neg ip ('.' :: s')
          = if s'.takeWhile isDigitC = [] then none
            else pExpPart neg ip (s'.takeWhile isDigitC) (s'.dropWhile isDigitC) from rfl] at h
      split at h
      · exact absurd h (by simp)
      · rename_i hfs
        have hne : s'.dropWhile isDigitC ≠ [] := by
          intro hE
          rw [hE] at h
          simp only [pExpPart, Option.some.injEq, Prod.mk.injEq] at h
          exact hr h.2.symm
        rw [List.cons_append,
          show pFracPart neg ip ('.' :: (s' ++ t))
            = if (s' ++ t).takeWhile isDigitC = [] then none
              else pExpPart neg ip ((s' ++ t).takeWhile isDigitC)
                ((s' ++ t).dropWhile isDigitC) from rfl,
          takeWhile_app_stop _ hne, dropWhile_app_ne _ hne, if_neg hfs]
        exact pExp_ext _ _ _ _ _ _ _ h hr
    · have hgoal : pFracPart neg ip ((c :: s') ++ t) = pExpPart neg ip [] ((c :: s') ++ t) := by
        rw [List.cons_append]
        unfold pFracPart
        split
        · rename_i heq
          rw [List.cons.injEq] at heq
          exact absurd heq.1 hc
        · rfl
      have hh : pFracPart neg ip (c :: s') = pExpPart neg ip [] (c :: s') := by
        unfold pFracPart
        split
        · rename_i heq
          rw [List.cons.injEq] at heq
          exact absurd heq.1 hc
        · rfl
      rw [hgoal]
      rw [hh] at h
      exact pExp_ext _ _ _ _ _ _ _ h hr

theorem pNumBody_ext (neg : Bool) (s1 : Str) (q : ℚ) (r t : Str)
    (h : pNumBody neg s1 = some (q, r)) (hr : r ≠ []) :
    pNumBody neg (s1 ++ t) = some (q, r ++ t) := by
  cases s1 with
  | nil => exact absurd h (by simp [pNumBody])
  | cons c s' =>
    rw [List.cons_append]
    simp only [pNumBody] at h ⊢
    split at h
    · rename_i hc0
      rw [if_pos hc0]
      split at h
      · rename_i d rest
        rw [List.cons_append]
        show (if isDigitC d = true then none
          else pFracPart neg 0 ((d :: rest) ++ t)) = some (q, r ++ t)
        split at h
        · exact absurd h (by simp)
        · rename_i hd
          rw [if_neg hd]
          exact pFrac_ext _ _ _ _ _ _ h hr
      · exfalso
        have h2 : pExpPart neg 0 [] [] = some (q, r) := h
        simp only [pExpPart, Option.some.injEq, Prod.mk.injEq] at h2
        exact hr h2.2.symm
    · rename_i hc0
      rw [if_neg hc0]
      split at h
      · rename_i hcd
        rw [if_pos hcd]
        have hne : (c :: s').dropWhile isDigitC ≠ [] := by
          intro hE
          rw [hE] at h
          have h2 : pExpPart neg (digitsVal ((c :: s').takeWhile isDigitC)) [] []
              = some (q, r) := h
          simp only [pExpPart, Option.some.injEq, Prod.mk.injEq] at h2
          exact hr h2.2.symm
        rw [show (c :: (s' ++ t)) = (c :: s') ++ t from by rw [List.cons_append],
          takeWhile_app_stop _ hne, dropWhile_app_ne _ hne]
        exact pFrac_ext _ _ _ _ _ _ h hr
      · rename_i hcd
        rw [if_neg hcd]
        exact absurd h (by simp)

theorem pNum_ext (s : Str) (q : ℚ) (r t : Str)
    (h : pNum s = some (q, r)) (hr : r ≠ []) :
    pNum (s ++ t) = some (q, r ++ t) := by
  cases s with
  | nil => exact absurd h (by simp [pNum, pNumBody])
  | cons c s' =>
    by_cases hc : c = '-'
    · subst hc
      rw [show pNum ('-' :: s') = pNumBody true s' from rfl] at h
      rw [List.cons_append,
        show pNum ('-' :: (s' ++ t)) = pNumBody true (s' ++ t) from rfl]
      exact pNumBody_ext _ _ _ _ _ h hr
    · have hh : pNum (c :: s') = pNumBody false (c :: s') := by
        unfold pNum
        split
        · rename_i heq
          rw [List.cons.injEq] at heq
          exact absurd heq.1 hc
        · rfl
      have hgoal : pNum ((c :: s') ++ t) = pNumBody false ((c :: s') ++ t) := by
        rw [List.cons_append]
        unfold pNum
        split
        · rename_i heq
          rw [List.cons.injEq] at heq
          exact absurd heq.1 hc
        · rfl
      rw [hgoal]
      rw [hh] at h
      exact pNumBody_ext _ _ _ _ _ h hr

end StockSense
namespace StockSense

theorem skipWs_ext (s t : Str) (c : Char) (r : Str) (h : skipWsJ s = c :: r) :
    skipWsJ (s ++ t) = c :: (r ++ t) := by
  unfold skipWsJ at h ⊢
  rw [dropWhile_app_ne _ (by rw [h]; exact List.cons_ne_nil c r), h, List.cons_append]

theorem hasPre_drop_ext (m s t : Str) (h : hasPre m s = true) :
    (s ++ t).drop m.length = s.drop m.length ++ t := by
  obtain ⟨u, hu⟩ := (hasPre_iff m s).mp h
  refine List.drop_append_of_le_length ?_
  rw [hu, List.length_append]
  omega

theorem pStrBodyF_ext : ∀ (f f' : Nat), f ≤ f' → ∀ (s b r t : Str),
    pStrBodyF f s = some (b, r) → pStrBodyF f' (s ++ t) = some (b, r ++ t) := by
  intro f
  induction f with
  | zero =>
    intro f' hf s b r t h
    exact absurd h (by simp [pStrBodyF])
  | succ f IH =>
    intro f' hf s b r t h
    obtain ⟨f2, rfl⟩ : ∃ g, f' = g + 1 := ⟨f' - 1, by omega⟩
    have hf2 : f ≤ f2 := by omega
    cases s with
    | nil => exact absurd h (by simp [pStrBodyF])
    | cons c s' =>
      rw [List.cons_append]
      simp only [pStrBodyF] at h ⊢
      split at h
      · rename_i hq
        rw [if_pos hq]
        rw [Option.some.injEq, Prod.mk.injEq] at h
        rw [← h.1, ← h.2]
      · rename_i hq
        rw [if_neg hq]
        split at h
        · rename_i hbs
          rw [if_pos hbs]
          cases s' with
          | nil => exact absurd h (by simp)
          | cons e r2 =>
            rw [List.cons_append]
            dsimp only at h ⊢
            split at h
            · rename_i hesc
              rw [if_pos hesc]
              split at h
              · rename_i body rest hsb
                rw [IH f2 hf2 r2 _ _ t hsb]
                rw [Option.some.injEq, Prod.mk.injEq] at h
                show some (c :: e :: body, rest ++ t) = some (b, r ++ t)
                rw [← h.1, ← h.2]
              · exact absurd h (by simp)
            · rename_i hesc
              rw [if_neg hesc]
              split at h
              · rename_i hu
                rw [if_pos hu]
                split at h
                · rename_i k1 k2 k3 k4 k5
                  show (if hexDigit k1 && hexDigit k2 && hexDigit k3 && hexDigit k4 then
                      match pStrBodyF f2 (k5 ++ t) with
                      | some (body, rest) => some (c :: e :: k1 :: k2 :: k3 :: k4 :: body, rest)
                      | none => none
                    else none) = some (b, r ++ t)
                  split at h
                  · rename_i hhex
                    rw [if_pos hhex]
                    split at h
                    · rename_i body rest hsb
                      rw [IH f2 hf2 k5 _ _ t hsb]
                      rw [Option.some.injEq, Prod.mk.injEq] at h
                      show some (c :: e :: k1 :: k2 :: k3 :: k4 :: body, rest ++ t)
                        = some (b, r ++ t)
                      rw [← h.1, ← h.2]
                    · exact absurd h (by simp)
                  · rename_i hhex
                    exact absurd h (by simp)
                · rename_i hshape
                  exact absurd h (by simp)
              · rename_i hu
                exact absurd h (by simp)
        · rename_i hbs
          rw [if_neg hbs]
          split at h
          · rename_i hctl
            exact absurd h (by simp)
          · rename_i hctl
            rw [if_neg hctl]
            split at h
            · rename_i body rest hsb
              rw [IH f2 hf2 s' _ _ t hsb]
              rw [Option.some.injEq, Prod.mk.injEq] at h
              show some (c :: body, rest ++ t) = some (b, r ++ t)
              rw [← h.1, ← h.2]
            · exact absurd h (by simp)

theorem pStrBody_ext (s b r t : Str) (h : pStrBody s = some (b, r)) :
    pStrBody (s ++ t) = some (b, r ++ t) := by
  unfold pStrBody at h ⊢
  exact pStrBodyF_ext _ _ (by rw [List.length_append]; omega) s b r t h

theorem hasPre_app (m r t : Str) (h : hasPre m r = true) : hasPre m (r ++ t) = true := by
  obtain ⟨u, rfl⟩ := (hasPre_iff m r).mp h
  rw [List.append_assoc]
  exact hasPre_append_self m (u ++ t)

theorem pVal_head (f : Nat) (s : Str) (v : Json) (r : Str)
    (h : pVal f s = some (v, r)) : skipWsJ s ≠ [] := by
  intro hE
  cases f with
  | zero => exact absurd h (by simp [pVal])
  | succ f =>
    simp only [pVal] at h
    rw [hE] at h
    exact Option.noConfusion h

theorem pMembers_head (f : Nat) (s : Str) (fs : List (Str × Json)) (r : Str)
    (h : pMembers f s = some (fs, r)) : ∃ r1, skipWsJ s = '\"' :: r1 := by
  cases f with
  | zero => exact absurd h (by simp [pMembers])
  | succ f =>
    simp only [pMembers] at h
    cases hE : skipWsJ s with
    | nil =>
      rw [hE] at h
      exact Option.noConfusion h
    | cons c r0 =>
      rw [hE] at h
      split at h
      · rename_i r1 heq
        exact ⟨r1, heq⟩
      · exact Option.noConfusion h

theorem pItems_head (f : Nat) (s : Str) (xs : List Json) (r : Str)
    (h : pItems f s = some (xs, r)) : skipWsJ s ≠ [] := by
  cases f with
  | zero => exact absurd h (by simp [pItems])
  | succ f =>
    simp only [pItems] at h
    split at h
    · rename_i v r0 hv
      exact pVal_head f s v r0 hv
    · exact absurd h (by simp)

theorem pJson_ext : ∀ (f : Nat),
    (∀ (f' : Nat), f ≤ f' → ∀ (s : Str) (v : Json) (r t : Str),
      pVal f s = some (v, r) → (r ≠ [] ∨ ∀ q : ℚ, v ≠ Json.num q) →
      pVal f' (s ++ t) = some (v, r ++ t)) ∧
    (∀ (f' : Nat), f ≤ f' → ∀ (s : Str) (fs : List (Str × Json)) (r t : Str),
      pMembers f s = some (fs, r) → pMembers f' (s ++ t) = some (fs, r ++ t)) ∧
    (∀ (f' : Nat), f ≤ f' → ∀ (s : Str) (xs : List Json) (r t : Str),
      pItems f s = some (xs, r) → pItems f' (s ++ t) = some (xs, r ++ t)) := by
  intro f
  induction f with
  | zero =>
    refine ⟨?_, ?_, ?_⟩
    · intro f' hf s v r t h hside
      exact absurd h (by simp [pVal])
    · intro f' hf s fs r t h
      exact absurd h (by simp [pMembers])
    · intro f' hf s xs r t h
      exact absurd h (by simp [pItems])
  | succ f IH =>
    obtain ⟨IHv, IHm, IHi⟩ := IH
    refine ⟨?_, ?_, ?_⟩
    · intro f' hf s v r t h hside
      obtain ⟨f2, rfl⟩ : ∃ g, f' = g + 1 := ⟨f' - 1, by omega⟩
      have hf2 : f ≤ f2 := by omega
      simp only [pVal] at h ⊢
      cases hE : skipWsJ s with
      | nil =>
        rw [hE] at h
        exact Option.noConfusion h
      | cons c r0 =>
        rw [hE] at h
        rw [skipWs_ext s t c r0 hE]
        dsimp only at h ⊢
        by_cases hc1 : c = '{'
        · rw [if_pos hc1] at h ⊢
          cases hE2 : skipWsJ r0 with
          | nil =>
            rw [hE2] at h
            split at h
            · rename_i r2 heq
              exact List.noConfusion heq
            · split at h
              · rename_i fs0 rest hm
                obtain ⟨r1, hr1⟩ := pMembers_head f r0 fs0 rest hm
                rw [hE2] at hr1
                exact List.noConfusion hr1
              · exact Option.noConfusion h
          | cons d r1 =>
            rw [hE2] at h
            rw [skipWs_ext r0 t d r1 hE2]
            by_cases hd : d = '}'
            · subst hd
              have h2 : some (Json.obj [], r1) = some (v, r) := h
              rw [Option.some.injEq, Prod.mk.injEq] at h2
              show some (Json.obj [], r1 ++ t) = some (v, r ++ t)
              rw [← h2.1, ← h2.2]
            · split at h
              · rename_i r2 heq
                rw [List.cons.injEq] at heq
                exact absurd heq.1 hd
              · split at h
                · rename_i fs0 rest hm
                  rw [Option.some.injEq, Prod.mk.injEq] at h
                  split
                  · rename_i r2 heq
                    rw [List.cons.injEq] at heq
                    exact absurd heq.1 hd
                  · rw [IHm f2 hf2 r0 fs0 rest t hm]
                    show some (Json.obj fs0, rest ++ t) = some (v, r ++ t)
                    rw [← h.1, ← h.2]
                · exact Option.noConfusion h
        · rw [if_neg hc1] at h ⊢
          by_cases hc2 : c = '['
          · rw [if_pos hc2] at h ⊢
            cases hE2 : skipWsJ r0 with
            | nil =>
              rw [hE2] at h
              split at h
              · rename_i r2 heq
                exact List.noConfusion heq
              · split at h
                · rename_i xs0 rest hit
                  exact absurd hE2 (pItems_head f r0 xs0 rest hit)
                · exact Option.noConfusion h
            | cons d r1 =>
              rw [hE2] at h
              rw [skipWs_ext r0 t d r1 hE2]
              by_cases hd : d = ']'
              · subst hd
                have h2 : some (Json.arr [], r1) = some (v, r) := h
                rw [Option.some.injEq, Prod.mk.injEq] at h2
                show some (Json.arr [], r1 ++ t) = some (v, r ++ t)
                rw [← h2.1, ← h2.2]
              · split at h
                · rename_i r2 heq
                  rw [List.cons.injEq] at heq
                  exact absurd heq.1 hd
                · split at h
                  · rename_i xs0 rest hit
                    rw [Option.some.injEq, Prod.mk.injEq] at h
                    split
                    · rename_i r2 heq
                      rw [List.cons.injEq] at heq
                      exact absurd heq.1 hd
                    · rw [IHi f2 hf2 r0 xs0 rest t hit]
                      show some (Json.arr xs0, rest ++ t) = some (v, r ++ t)
                      rw [← h.1, ← h.2]
                  · exact Option.noConfusion h
          · rw [if_neg hc2] at h ⊢
            by_cases hc3 : c = '"'
            · rw [if_pos hc3] at h ⊢
              split at h
              · rename_i body rest hsb
                rw [Option.some.injEq, Prod.mk.injEq] at h
                rw [pStrBody_ext r0 body rest t hsb]
                show some (Json.str body, rest ++ t) = some (v, r ++ t)
                rw [← h.1, ← h.2]
              · exact Option.noConfusion h
            · rw [if_neg hc3] at h ⊢
              by_cases hc4 : c = 't'
              · rw [if_pos hc4] at h ⊢
                cases hP : hasPre (chars "rue") r0 with
                | false =>
                  rw [hP, if_neg Bool.false_ne_true] at h
                  exact Option.noConfusion h
                | true =>
                  rw [hP, if_pos rfl] at h
                  rw [hasPre_app _ _ t hP, if_pos rfl]
                  rw [Option.some.injEq, Prod.mk.injEq] at h
                  rw [show (3 : Nat) = (chars "rue").length from rfl,
                    hasPre_drop_ext _ _ _ hP,
                    show List.length (chars "rue") = 3 from rfl]
                  rw [← h.1, ← h.2]
              · rw [if_neg hc4] at h ⊢
                by_cases hc5 : c = 'f'
                · rw [if_pos hc5] at h ⊢
                  cases hP : hasPre (chars "alse") r0 with
                  | false =>
                    rw [hP, if_neg Bool.false_ne_true] at h
                    exact Option.noConfusion h
                  | true =>
                    rw [hP, if_pos rfl] at h
                    rw [hasPre_app _ _ t hP, if_pos rfl]
                    rw [Option.some.injEq, Prod.mk.injEq] at h
                    rw [show (4 : Nat) = (chars "alse").length from rfl,
                      hasPre_drop_ext _ _ _ hP,
                      show List.length (chars "alse") = 4 from rfl]
                    rw [← h.1, ← h.2]
                · rw [if_neg hc5] at h ⊢
                  by_cases hc6 : c = 'n'
                  · rw [if_pos hc6] at h ⊢
                    cases hP : hasPre (chars "ull") r0 with
                    | false =>
                      rw [hP, if_neg Bool.false_ne_true] at h
                      exact Option.noConfusion h
                    | true =>
                      rw [hP, if_pos rfl] at h
                      rw [hasPre_app _ _ t hP, if_pos rfl]
                      rw [Option.some.injEq, Prod.mk.injEq] at h
                      rw [show (3 : Nat) = (chars "ull").length from rfl,
                        hasPre_drop_ext _ _ _ hP,
                        show List.length (chars "ull") = 3 from rfl]
                      rw [← h.1, ← h.2]
                  · rw [if_neg hc6] at h ⊢
                    by_cases hc7 : (c = '-' || isDigitC c) = true
                    · rw [if_pos hc7] at h ⊢
                      split at h
                      · rename_i q rest hpn
                        rw [Option.some.injEq, Prod.mk.injEq] at h
                        have hrest : rest ≠ [] := by
                          rcases hside with hne | hnn
                          · rw [← h.2] at hne
                            exact hne
                          · exact absurd h.1.symm (hnn q)
                        have hext := pNum_ext (c :: r0) q rest t hpn hrest
                        rw [List.cons_append] at hext
                        rw [hext]
                        show some (Json.num q, rest ++ t) = some (v, r ++ t)
                        rw [← h.1, ← h.2]
                      · exact Option.noConfusion h
                    · rw [if_neg hc7] at h
                      exact Option.noConfusion h
    · intro f' hf s fs r t h
      obtain ⟨f2, rfl⟩ : ∃ g, f' = g + 1 := ⟨f' - 1, by omega⟩
      have hf2 : f ≤ f2 := by omega
      simp only [pMembers] at h ⊢
      cases hE : skipWsJ s with
      | nil =>
        rw [hE] at h
        exact Option.noConfusion h
      | cons c r0 =>
        rw [hE] at h
        rw [skipWs_ext s t c r0 hE]
        split at h
        · rename_i r0' heq
          rw [List.cons.injEq] at heq
          obtain ⟨rfl, rfl⟩ := heq
          split at h
          · rename_i k r1 hsb
            show (match pStrBody (r0 ++ t) with
              | some (k, r1) =>
                match skipWsJ r1 with
                | ':' :: r2 =>
                  match pVal f2 r2 with
                  | some (v, r3) =>
                    match skipWsJ r3 with
                    | ',' :: r4 =>
                      match pMembers f2 r4 with
                      | some (fs, rest) => some ((k, v) :: fs, rest)
                      | none => none
                    | '}' :: r4 => some ([(k, v)], r4)
                    | _ => none
                  | none => none
                | _ => none
              | none => none) = some (fs, r ++ t)
            rw [pStrBody_ext r0 k r1 t hsb]
            show (match skipWsJ (r1 ++ t) with
              | ':' :: r2 =>
                match pVal f2 r2 with
                | some (v, r3) =>
                  match skipWsJ r3 with
                  | ',' :: r4 =>
                    match pMembers f2 r4 with
                    | some (fs, rest) => some ((k, v) :: fs, rest)
                    | none => none
                  | '}' :: r4 => some ([(k, v)], r4)
                  | _ => none
                | none => none
              | _ => none) = some (fs, r ++ t)
            cases hE2 : skipWsJ r1 with
            | nil =>
              rw [hE2] at h
              exact Option.noConfusion h
            | cons d r2 =>
              rw [hE2] at h
              rw [skipWs_ext r1 t d r2 hE2]
              split at h
              · rename_i r2' heq3
                rw [List.cons.injEq] at heq3
                obtain ⟨rfl, rfl⟩ := heq3
                split at h
                · rename_i v r3 hv
                  show (match pVal f2 (r2 ++ t) with
                    | some (v, r3) =>
                      match skipWsJ r3 with
                      | ',' :: r4 =>
                        match pMembers f2 r4 with
                        | some (fs, rest) => some ((k, v) :: fs, rest)
                        | none => none
                      | '}' :: r4 => some ([(k, v)], r4)
                      | _ => none
                    | none => none) = some (fs, r ++ t)
                  cases hE3 : skipWsJ r3 with
                  | nil =>
                    rw [hE3] at h
                    exact Option.noConfusion h
                  | cons e r4 =>
                    rw [hE3] at h
                    have hr3ne : r3 ≠ [] := by
                      intro hX
                      rw [hX] at hE3
                      exact List.noConfusion hE3
                    rw [IHv f2 hf2 r2 v r3 t hv (Or.inl hr3ne)]
                    show (match skipWsJ (r3 ++ t) with
                      | ',' :: r4 =>
                        match pMembers f2 r4 with
                        | some (fs, rest) => some ((k, v) :: fs, rest)
                        | none => none
                      | '}' :: r4 => some ([(k, v)], r4)
                      | _ => none) = some (fs, r ++ t)
                    rw [skipWs_ext r3 t e r4 hE3]
                    split at h
                    · rename_i r4' heq5
                      rw [List.cons.injEq] at heq5
                      obtain ⟨rfl, rfl⟩ := heq5
                      split at h
                      · rename_i fs0 rest hm
                        rw [Option.some.injEq, Prod.mk.injEq] at h
                        show (match pMembers f2 (r4 ++ t) with
                          | some (fs, rest) => some ((k, v) :: fs, rest)
                          | none => none) = some (fs, r ++ t)
                        rw [IHm f2 hf2 r4 fs0 rest t hm]
                        show some ((k, v) :: fs0, rest ++ t) = some (fs, r ++ t)
                        rw [← h.1, ← h.2]
                      · exact Option.noConfusion h
                    · rename_i r4' heq5
                      rw [List.cons.injEq] at heq5
                      obtain ⟨rfl, rfl⟩ := heq5
                      rw [Option.some.injEq, Prod.mk.injEq] at h
                      show some ([(k, v)], r4 ++ t) = some (fs, r ++ t)
                      rw [← h.1, ← h.2]
                    · exact Option.noConfusion h
                · exact Option.noConfusion h
              · exact Option.noConfusion h
          · exact Option.noConfusion h
        · exact Option.noConfusion h
    · intro f' hf s xs r t h
      obtain ⟨f2, rfl⟩ : ∃ g, f' = g + 1 := ⟨f' - 1, by omega⟩
      have hf2 : f ≤ f2 := by omega
      simp only [pItems] at h ⊢
      split at h
      · rename_i v r0 hv
        cases hE : skipWsJ r0 with
        | nil =>
          rw [hE] at h
          exact Option.noConfusion h
        | cons e r2 =>
          rw [hE] at h
          have hr0ne : r0 ≠ [] := by
            intro hX
            rw [hX] at hE
            exact List.noConfusion hE
          rw [IHv f2 hf2 s v r0 t hv (Or.inl hr0ne)]
          show (match skipWsJ (r0 ++ t) with
            | ',' :: r2 =>
              match pItems f2 r2 with
              | some (xs, rest) => some (v :: xs, rest)
              | none => none
            | ']' :: r2 => some ([v], r2)
            | _ => none) = some (xs, r ++ t)
          rw [skipWs_ext r0 t e r2 hE]
          split at h
          · rename_i r2' heq
            rw [List.cons.injEq] at heq
            obtain ⟨rfl, rfl⟩ := heq
            split at h
            · rename_i xs0 rest hit
              rw [Option.some.injEq, Prod.mk.injEq] at h
              show (match pItems f2 (r2 ++ t) with
                | some (xs, rest) => some (v :: xs, rest)
                | none => none) = some (xs, r ++ t)
              rw [IHi f2 hf2 r2 xs0 rest t hit]
              show some (v :: xs0, rest ++ t) = some (xs, r ++ t)
              rw [← h.1, ← h.2]
            · exact Option.noConfusion h
          · rename_i r2' heq
            rw [List.cons.injEq] at heq
            obtain ⟨rfl, rfl⟩ := heq
            rw [Option.some.injEq, Prod.mk.injEq] at h
            show some ([v], r2 ++ t) = some (xs, r ++ t)
            rw [← h.1, ← h.2]
          · exact Option.noConfusion h
      · exact Option.noConfusion h

theorem skipWs_ne_nil_of_mem (X : Str) (c : Char) (hc : c ∈ X)
    (hw : isWsJson c = false) : skipWsJ X ≠ [] := by
  intro hE
  have h2 := List.dropWhile_eq_nil_iff.mp hE c hc
  rw [hw] at h2
  exact Bool.noConfusion h2

theorem pVal_not_num (f : Nat) (c0 : Char) (Q : Str) (v : Json) (r : Str)
    (hc : c0 = '{' ∨ c0 = '[') (h : pVal f (c0 :: Q) = some (v, r)) :
    ∀ q : ℚ, v ≠ Json.num q := by
  intro q hvq
  subst hvq
  cases f with
  | zero => exact absurd h (by simp [pVal])
  | succ f =>
    simp only [pVal] at h
    have hsk : skipWsJ (c0 :: Q) = c0 :: Q :=
      dropWhile_cons_of_neg _ (by rcases hc with rfl | rfl <;> rfl)
    rw [hsk] at h
    dsimp only at h
    rcases hc with rfl | rfl
    · rw [if_pos rfl] at h
      split at h
      · simp at h
      · split at h
        · simp at h
        · exact Option.noConfusion h
    · rw [if_neg (by decide), if_pos rfl] at h
      split at h
      · simp at h
      · split at h
        · simp at h
        · exact Option.noConfusion h

theorem jsonParse_app_none (op cl : Char) (mid P2 : Str) (v : Json)
    (hop : op = '{' ∨ op = '[')
    (hv : jsonParse (op :: (mid ++ [cl])) = some v)
    (hlast : ∃ r c, P2 = r ++ [c] ∧ isJsSpace c = false) :
    jsonParse ((op :: (mid ++ [cl])) ++ P2) = none := by
  obtain ⟨rr, cc, hP2shape, hccws⟩ := hlast
  have hccw : isWsJson cc = false := wsJson_false cc hccws
  unfold jsonParse at hv ⊢
  cases hpv : pVal (2 * (op :: (mid ++ [cl])).length + 2) (op :: (mid ++ [cl])) with
  | none =>
    rw [hpv] at hv
    exact Option.noConfusion hv
  | some p =>
    obtain ⟨v0, rest⟩ := p
    have hnn := pVal_not_num _ op (mid ++ [cl]) v0 rest hop hpv
    have hext := (pJson_ext (2 * (op :: (mid ++ [cl])).length + 2)).1
      (2 * ((op :: (mid ++ [cl])) ++ P2).length + 2)
      (by simp only [List.length_append, List.length_cons]; omega)
      (op :: (mid ++ [cl])) v0 rest P2 hpv (Or.inr hnn)
    rw [hext]
    show (if skipWsJ (rest ++ P2) = [] then some v0 else none) = none
    rw [if_neg (skipWs_ne_nil_of_mem (rest ++ P2) cc
      (List.mem_append_right rest (by
        rw [hP2shape]
        exact List.mem_append_right rr (List.mem_singleton.mpr rfl))) hccw)]

/-- C2 (amended): for a single valid JSON object or array payload that
contains no backtick, optionally wrapped in markdown code fences
(` ```json `/` ``` ` or bare ` ``` `), surrounded by conversational prose
containing no brace, bracket, double quote or backtick (and, in the fenced
case, not resuming with the letters `json` right after the closing fence),
`extractJson` of `geminiService.ts` returns exactly the value obtained by
parsing the clean JSON payload directly. -/
theorem claim_C2_amended (p1 F1 mid F2 p2 : Str) (op cl : Char) (v : Json)
    (hoc : (op = '{' ∧ cl = '}') ∨ (op = '[' ∧ cl = ']'))
    (hv : jsonParse (op :: (mid ++ [cl])) = some v)
    (hbt : '`' ∉ op :: (mid ++ [cl]))
    (hP1 : ∀ c ∈ p1, proseChar c) (hP2 : ∀ c ∈ p2, proseChar c)
    (hfence : (F1 = [] ∧ F2 = []) ∨
      ((F1 = chars "```json" ∨ F1 = chars "```") ∧ F2 = chars "```" ∧
        hasPre (chars "json") p2 = false)) :
    extractJsonGs (p1 ++ (F1 ++ ((op :: (mid ++ [cl])) ++ (F2 ++ p2)))) = some v := by
  have hop : op = '{' ∨ op = '[' := by
    rcases hoc with ⟨rfl, -⟩ | ⟨rfl, -⟩
    · exact Or.inl rfl
    · exact Or.inr rfl
  have hopws : isJsSpace op = false := by rcases hop with rfl | rfl <;> rfl
  have hclws : isJsSpace cl = false := by
    rcases hoc with ⟨-, rfl⟩ | ⟨-, rfl⟩ <;> rfl
  have hp1bt : '`' ∉ p1 := fun hm => (hP1 _ hm).2.2.2.2.2 rfl
  have hp2bt : '`' ∉ p2 := fun hm => (hP2 _ hm).2.2.2.2.2 rfl
  have hclean : cleanedOf (p1 ++ (F1 ++ ((op :: (mid ++ [cl])) ++ (F2 ++ p2))))
      = jsTrimLeft p1 ++ ((op :: (mid ++ [cl])) ++ jsTrimRight p2) := by
    unfold cleanedOf
    have hstrip : stripFences (p1 ++ (F1 ++ ((op :: (mid ++ [cl])) ++ (F2 ++ p2))))
        = p1 ++ ((op :: (mid ++ [cl])) ++ p2) := by
      rcases hfence with ⟨rfl, rfl⟩ | ⟨hF1, rfl, hjson⟩
      · simp only [List.nil_append]
        exact stripFences_nofence _ (by
          intro hmem
          rcases List.mem_append.mp hmem with hm | hm
          · exact hp1bt hm
          · rcases List.mem_append.mp hm with hm | hm
            · exact hbt hm
            · exact hp2bt hm)
      · rcases hF1 with rfl | rfl
        · exact stripFences_json p1 _ p2 hp1bt hbt hp2bt hjson
        · exact stripFences_bt p1 _ p2 op (mid ++ [cl]) hp1bt hbt hp2bt hop rfl hjson
    rw [hstrip]
    exact cleaned_char p1 _ p2 op cl mid rfl hopws hclws
  have hP1mem : ∀ c ∈ jsTrimLeft p1, proseChar c := fun c hc => hP1 c (mem_jsTrimLeft hc)
  have hP2mem : ∀ c ∈ jsTrimRight p2, proseChar c := fun c hc => hP2 c (mem_jsTrimRight hc)
  have hreg : regexStage (cleanedOf (p1 ++ (F1 ++ ((op :: (mid ++ [cl])) ++ (F2 ++ p2)))))
      = some v := by
    rw [hclean]
    exact regexStage_payload _ _ op cl mid v hoc hP1mem hP2mem hv
  unfold extractJsonGs
  split
  · rename_i htext
    simp at htext
  · by_cases hP1nil : jsTrimLeft p1 = []
    · by_cases hP2nil : jsTrimRight p2 = []
      · have hc2 : cleanedOf (p1 ++ (F1 ++ ((op :: (mid ++ [cl])) ++ (F2 ++ p2))))
            = op :: (mid ++ [cl]) := by
          rw [hclean, hP1nil, hP2nil, List.nil_append, List.append_nil]
        simp only [hc2, hv]
      · have h1 : jsonParse (cleanedOf (p1 ++ (F1 ++ ((op :: (mid ++ [cl])) ++ (F2 ++ p2)))))
            = none := by
          rw [hclean, hP1nil, List.nil_append]
          exact jsonParse_app_none op cl mid _ v hop hv (jsTrimRight_last p2 hP2nil)
        simp only [h1, hreg]
    · obtain ⟨q0, Q, hQ, hq0ws⟩ := jsTrimLeft_head p1 hP1nil
      have hq0p : proseChar q0 := hP1mem q0 (by rw [hQ]; exact List.mem_cons_self q0 Q)
      have h1 : jsonParse (cleanedOf (p1 ++ (F1 ++ ((op :: (mid ++ [cl])) ++ (F2 ++ p2)))))
          = none := by
        rw [hclean, hQ]
        exact jsonParse_prefix_none q0 Q _ op hq0p hq0ws hop
          (List.mem_append_left _ (List.mem_cons_self op (mid ++ [cl])))
      simp only [h1, hreg]

/-- C2 amended witness: a fenced object payload surrounded by prose
extracts to exactly the directly parsed object. -/
theorem claim_C2_amended_witness :
    extractJsonGs (chars "Here is the data:\n" ++ (chars "```json" ++
        (('{' :: (chars "\"a\": 1" ++ ['}'])) ++
          (chars "```" ++ chars "\nHope this helps.")))) =
      some (.obj [(chars "a", .num (mkNum false 1 [] false 0))]) :=
  claim_C2_amended (chars "Here is the data:\n") (chars "```json")
    (chars "\"a\": 1") (chars "```") (chars "\nHope this helps.") '{' '}' _
    (Or.inl ⟨rfl, rfl⟩) (by rfl) (by decide) (by decide) (by decide)
    (Or.inr ⟨Or.inl rfl, rfl, by rfl⟩)

end StockSense
